import Mathlib

/-!
# MatchingEngine: order book, matching loop and engine registry

A shallow embedding of `trading_engine.h` / `trading_engine.cpp` and of
`NetworkServer::processCommand` (`network_server.cpp`).

Modelling conventions

* `int` (`quantity`, `order_id`, `next_order_id`) is an `Int`; every arithmetic result the
  source stores in an `int` goes through `wrapInt32` (two's complement wrap-around, the behaviour
  of the compiled code on the usual targets).  Values that enter from outside are in range when
  `InInt32` holds.
* `double price` is a `Rat`: every finite double is a rational number, and the engine only
  compares prices and prints them, it never computes with them.  NaN and the infinities are
  outside the model.
* `long long timestamp` is an `Int`; the clock reading taken by `Order::Order` is an explicit
  argument (`now`).
* `std::vector<std::shared_ptr<Order>>` is a `List Order` (orders are owned by exactly one
  vector, so value semantics loses nothing); `push_back` appends at the tail, `erase(begin())`
  drops the head.
* `std::sort` is a parameter (`StdSort`): any function that returns a permutation of the vector
  which is sorted for the comparator.  The C++ standard leaves the relative position of
  comparator-equivalent elements open, and every statement is proved for every such function.
  Closed examples are evaluated with one of them, an insertion sort (`insertionStdSort`).
* `std::stringstream` output is a `String` built by appending.
* The `while` loop of `matchOrders` is driven by a fuel counter set to the number of orders in
  the book; `matchLoop_exit` shows that the loop always leaves through its own exit test.
* All operations are taken one after another. What an operation does with `engine_mutex` and
  `book_mutex` is written out separately as a sequence of `LockEvent`s read off the scopes of
  its `lock_guard`s.  The expression `next_order_id++` on the plain `int` member is a read
  followed by a write (`CounterAccess`); the order in which the accesses of several callers
  reach the memory is an explicit list.
* `NetworkServer::processCommand` reads its line through `std::istringstream`: the extraction of
  a word is modelled on the list of characters, the extractions of a `double` and of an `int`
  are parameters (`NumericInput`). Methods that take the engine by pointer return the engine
  after the call beside their result.
-/

namespace MatchingEngine

/-! ## Machine integers -/

/-- Result of an `int` computation: reduction to 32-bit two's complement. -/
def wrapInt32 (x : Int) : Int := (x + 2147483648) % 4294967296 - 2147483648

/-- Values an `int` can hold. -/
def InInt32 (x : Int) : Prop := -2147483648 ≤ x ∧ x < 2147483648

instance (x : Int) : Decidable (InInt32 x) := by unfold InInt32; infer_instance

/-! ## Data model (`trading_engine.h`) -/

/-- Enumeration `OrderSide`. -/
inductive OrderSide where
  | BUY
  | SELL
deriving DecidableEq, Repr

/-- Record `struct Order`. -/
structure Order where
  symbol : String
  side : OrderSide
  price : Rat
  quantity : Int
  order_id : Int
  timestamp : Int
deriving DecidableEq

/-- Constructor `Order::Order(sym, s, p, q, id)`; `now` is the value of
`system_clock::now()` in microseconds that the constructor reads. -/
def Order.new (sym : String) (s : OrderSide) (p : Rat) (q : Int) (id : Int) (now : Int) : Order :=
  { symbol := sym, side := s, price := p, quantity := q, order_id := id, timestamp := now }

/-- Class `OrderBook` (the mutex is not modelled). -/
structure OrderBook where
  symbol : String
  buy_orders : List Order
  sell_orders : List Order
deriving DecidableEq

/-- Constructor `OrderBook(sym)`. -/
def OrderBook.new (sym : String) : OrderBook :=
  { symbol := sym, buy_orders := [], sell_orders := [] }

/-! ## Text output -/

/-- Round to the nearest integer, ties to even (the default rounding of the C library). -/
def roundHalfEven (x : Rat) : Int :=
  let f := x.floor
  let r := x - f
  if r < 1 / 2 then f
  else if 1 / 2 < r then f + 1
  else if f % 2 = 0 then f else f + 1

/-- Hundredths shown for a price: `|p| * 100` rounded to an integer. -/
def hundredths (p : Rat) : Nat := (roundHalfEven (|p| * 100)).toNat

/-- Stream output `<< std::fixed << std::setprecision(2) << p`: sign, integer part, a point and
two fractional digits. -/
def fixed2 (p : Rat) : String :=
  (if p < 0 then "-" else "") ++ toString (hundredths p / 100) ++ "."
    ++ String.mk [Nat.digitChar (hundredths p % 100 / 10), Nat.digitChar (hundredths p % 10)]

/-- The text `matchOrders` writes for one trade. -/
def tradeLine (trade_quantity : Int) (symbol : String) (execution_price : Rat) : String :=
  "TRADE EXECUTED: " ++ toString trade_quantity ++ " " ++ symbol ++ " @ $"
    ++ fixed2 execution_price ++ "\n"

/-- The text `displayOrders` writes for one resting order. -/
def orderLine (order : Order) : String :=
  "  Order #" ++ toString order.order_id ++ ": " ++ toString order.quantity ++ " @ $"
    ++ fixed2 order.price ++ "\n"

/-! ## `OrderBook::sortOrders` -/

/-- Comparator of the first `std::sort` call (bids). -/
def buyBefore (a b : Order) : Bool :=
  if a.price ≠ b.price then decide (a.price > b.price) else decide (a.timestamp < b.timestamp)

/-- Comparator of the second `std::sort` call (asks). -/
def sellBefore (a b : Order) : Bool :=
  if a.price ≠ b.price then decide (a.price < b.price) else decide (a.timestamp < b.timestamp)

/-- The requirement `std::sort` puts on its comparator, a strict weak ordering, said of the
relation "`b` does not go before `a`": any two orders are related one way or the other, and the
relation is transitive. -/
def StrictWeakOrder (comp : Order → Order → Bool) : Prop :=
  (∀ a b, comp b a = false ∨ comp a b = false)
    ∧ ∀ a b c, comp b a = false → comp c b = false → comp c a = false

/-- Contract of the library function `std::sort(first, last, comp)`, which is not part of the
repository: some function of the comparator and the vector whose result holds the same elements
and, for a comparator that is a strict weak ordering, has no element in front of one that the
comparator puts before it. Where orders that the comparator does not tell apart end up is left
to the implementation (the usual ones are not stable). -/
class StdSort where
  sort : (Order → Order → Bool) → List Order → List Order
  perm : ∀ comp l, (sort comp l).Perm l
  sorted : ∀ comp l, StrictWeakOrder comp → (sort comp l).Pairwise (fun a b => comp b a = false)

/-- Call `std::sort(first, last, comp)` on a vector: the vector afterwards. -/
def stdSort [StdSort] (comp : Order → Order → Bool) (l : List Order) : List Order :=
  StdSort.sort comp l

/-- Method `OrderBook::sortOrders`. -/
def OrderBook.sortOrders [StdSort] (b : OrderBook) : OrderBook :=
  { b with buy_orders := stdSort buyBefore b.buy_orders,
           sell_orders := stdSort sellBefore b.sell_orders }

/-! ## `OrderBook::matchOrders` -/

/-- Record of one executed trade, kept beside the text for reasoning: the two orders as they
stood at the top of the book when the trade was made, the execution price and the quantity. -/
structure Trade where
  buy : Order
  sell : Order
  price : Rat
  quantity : Int
deriving DecidableEq

/-- State of the matching loop: both vectors, the text written so far and the trade records. -/
structure MatchState where
  buy_orders : List Order
  sell_orders : List Order
  result : String
  trades : List Trade
deriving DecidableEq

/-- The `while` loop of `matchOrders`; one unit of fuel per iteration. -/
def matchLoop (symbol : String) : Nat → List Order → List Order → String → List Trade → MatchState
  | 0, buys, sells, result, trades =>
    { buy_orders := buys, sell_orders := sells, result := result, trades := trades }
  | fuel + 1, best_buy :: buys, best_sell :: sells, result, trades =>
    if best_buy.price ≥ best_sell.price then
      let execution_price :=
        if best_buy.timestamp < best_sell.timestamp then best_buy.price else best_sell.price
      let trade_quantity := min best_buy.quantity best_sell.quantity
      let buy_left := wrapInt32 (best_buy.quantity - trade_quantity)
      let sell_left := wrapInt32 (best_sell.quantity - trade_quantity)
      matchLoop symbol fuel
        (if buy_left = 0 then buys else { best_buy with quantity := buy_left } :: buys)
        (if sell_left = 0 then sells else { best_sell with quantity := sell_left } :: sells)
        (result ++ tradeLine trade_quantity symbol execution_price)
        (trades ++ [{ buy := best_buy, sell := best_sell, price := execution_price,
                      quantity := trade_quantity }])
    else
      { buy_orders := best_buy :: buys, sell_orders := best_sell :: sells, result := result,
        trades := trades }
  | _ + 1, buys, sells, result, trades =>
    { buy_orders := buys, sell_orders := sells, result := result, trades := trades }

/-- Outcome of a call on a book: the returned text, the trade records and the book afterwards. -/
structure Admission where
  report : String
  trades : List Trade
  book : OrderBook
deriving DecidableEq

/-- Method `OrderBook::matchOrders`. -/
def OrderBook.matchOrders [StdSort] (b : OrderBook) : Admission :=
  let sorted := b.sortOrders
  let st := matchLoop b.symbol (sorted.buy_orders.length + sorted.sell_orders.length)
    sorted.buy_orders sorted.sell_orders "" []
  { report := st.result, trades := st.trades,
    book := { b with buy_orders := st.buy_orders, sell_orders := st.sell_orders } }

/-! ## `OrderBook::addOrder` and `OrderBook::displayOrders` -/

/-- The acknowledgement `addOrder` writes before matching. -/
def admissionLine (order : Order) : String :=
  match order.side with
  | OrderSide.BUY =>
    "Order added: BUY " ++ toString order.quantity ++ " " ++ order.symbol ++ " @ $"
      ++ fixed2 order.price ++ " (Order ID: " ++ toString order.order_id ++ ")\n"
  | OrderSide.SELL =>
    "Order added: SELL " ++ toString order.quantity ++ " " ++ order.symbol ++ " @ $"
      ++ fixed2 order.price ++ " (Order ID: " ++ toString order.order_id ++ ")\n"

/-- Method `OrderBook::addOrder`. -/
def OrderBook.addOrder [StdSort] (b : OrderBook) (order : Order) : Admission :=
  let pushed : OrderBook :=
    match order.side with
    | OrderSide.BUY => { b with buy_orders := b.buy_orders ++ [order] }
    | OrderSide.SELL => { b with sell_orders := b.sell_orders ++ [order] }
  let msg := admissionLine order
  let m := pushed.matchOrders
  { report := msg ++ m.report, trades := m.trades, book := m.book }

/-- The range-for loops of `displayOrders`: one line per order, in vector order. -/
def displayLoop (output : String) : List Order → String
  | [] => output
  | order :: rest => displayLoop (output ++ orderLine order) rest

/-- Method `OrderBook::displayOrders`. -/
def OrderBook.displayOrders (b : OrderBook) : String :=
  let output := "\n=== " ++ b.symbol ++ " Order Book ===\n"
  let output := output ++ "\nBUY ORDERS:\n"
  let output :=
    if b.buy_orders.isEmpty then output ++ "  No buy orders\n"
    else displayLoop output b.buy_orders
  let output := output ++ "\nSELL ORDERS:\n"
  let output :=
    if b.sell_orders.isEmpty then output ++ "  No sell orders\n"
    else displayLoop output b.sell_orders
  output ++ "\n"

/-! ## `TradingEngine` -/

/-- Class `TradingEngine`: `order_books` is the `std::map` as an association list with unique
keys (its iteration order is never observed), `next_order_id` the counter. -/
structure TradingEngine where
  order_books : List (String × OrderBook)
  next_order_id : Int
deriving DecidableEq

/-- Constructor `TradingEngine()`. -/
def TradingEngine.new : TradingEngine :=
  { order_books := [], next_order_id := 1 }

/-- Method `TradingEngine::findOrderBook`; `none` is the null pointer. -/
def TradingEngine.findOrderBook (e : TradingEngine) (symbol : String) : Option OrderBook :=
  (e.order_books.find? (fun kv => kv.1 = symbol)).map Prod.snd

/-- Call `order_books.try_emplace(symbol, symbol)`: the map afterwards. -/
def tryEmplace (books : List (String × OrderBook)) (symbol : String) :
    List (String × OrderBook) :=
  if books.any (fun kv => kv.1 = symbol) then books
  else books ++ [(symbol, OrderBook.new symbol)]

/-- Store the new state of the book found under `symbol`. -/
def storeBook (books : List (String × OrderBook)) (symbol : String) (nb : OrderBook) :
    List (String × OrderBook) :=
  books.map (fun kv => if kv.1 = symbol then (kv.1, nb) else kv)

/-- Outcome of `TradingEngine::addOrder`: the returned text, the order that was constructed, the
trade records and the engine afterwards. -/
structure Submission where
  report : String
  order : Order
  trades : List Trade
  engine : TradingEngine
deriving DecidableEq

/-- Method `TradingEngine::addOrder`; `now` is the clock reading taken by the `Order`
constructor. -/
def TradingEngine.addOrder [StdSort] (e : TradingEngine) (symbol : String) (side : OrderSide) (price : Rat)
    (quantity : Int) (now : Int) : Submission :=
  let order := Order.new symbol side price quantity e.next_order_id now
  let next := wrapInt32 (e.next_order_id + 1)
  let books := tryEmplace e.order_books symbol
  let book := ((books.find? (fun kv => kv.1 = symbol)).map Prod.snd).getD
    (OrderBook.new symbol)
  let a := book.addOrder order
  { report := a.report, order := order, trades := a.trades,
    engine := { order_books := storeBook books symbol a.book, next_order_id := next } }

/-- Method `TradingEngine::showOrders`. -/
def TradingEngine.showOrders (e : TradingEngine) (symbol : String) : String :=
  match e.findOrderBook symbol with
  | some book => book.displayOrders
  | none => "No orders found for symbol: " ++ symbol ++ "\n"

/-! ## Sequences of calls -/

/-- The book after admitting the orders one after another. -/
def OrderBook.admitAll [StdSort] (b : OrderBook) : List Order → OrderBook
  | [] => b
  | order :: rest => (b.addOrder order).book.admitAll rest

/-- The records of every trade made while admitting the orders one after another. -/
def OrderBook.tradesAll [StdSort] (b : OrderBook) : List Order → List Trade
  | [] => []
  | order :: rest => (b.addOrder order).trades ++ (b.addOrder order).book.tradesAll rest

/-- Arguments of one `TradingEngine::addOrder` call together with the clock reading. -/
structure Request where
  symbol : String
  side : OrderSide
  price : Rat
  quantity : Int
  now : Int
deriving DecidableEq

/-- One `TradingEngine::addOrder` call. -/
def TradingEngine.submit [StdSort] (e : TradingEngine) (r : Request) : Submission :=
  e.addOrder r.symbol r.side r.price r.quantity r.now

/-- Outcomes of consecutive `TradingEngine::addOrder` calls, in call order. -/
def TradingEngine.submitAll [StdSort] (e : TradingEngine) : List Request → List Submission
  | [] => []
  | r :: rest => e.submit r :: (e.submit r).engine.submitAll rest

/-- The engine after consecutive `TradingEngine::addOrder` calls. -/
def TradingEngine.after [StdSort] (e : TradingEngine) : List Request → TradingEngine
  | [] => e
  | r :: rest => (e.submit r).engine.after rest

/-! ## Vocabulary of the statements -/

/-- The fields of an order that are fixed at construction (everything but `quantity`). -/
def Order.fixedPart (o : Order) : Order := { o with quantity := 0 }

/-- No resting bid reaches a resting ask. -/
def NotCrossed (buys sells : List Order) : Prop :=
  ∀ b ∈ buys, ∀ s ∈ sells, b.price < s.price

/-- Bid `a` may stand in front of bid `b`: higher price, or equal price and not later. -/
def BuyPriority (a b : Order) : Prop :=
  b.price < a.price ∨ (a.price = b.price ∧ a.timestamp ≤ b.timestamp)

/-- Ask `a` may stand in front of ask `b`: lower price, or equal price and not later. -/
def SellPriority (a b : Order) : Prop :=
  a.price < b.price ∨ (a.price = b.price ∧ a.timestamp ≤ b.timestamp)

/-- Bid `a` stands strictly in front of bid `b`. -/
def BuyStrict (a b : Order) : Prop :=
  b.price < a.price ∨ (a.price = b.price ∧ a.timestamp < b.timestamp)

/-- Ask `a` stands strictly in front of ask `b`. -/
def SellStrict (a b : Order) : Prop :=
  a.price < b.price ∨ (a.price = b.price ∧ a.timestamp < b.timestamp)

/-- Bids weakly decreasing by price and, within equal price, not decreasing by timestamp. -/
def BidsInOrder (l : List Order) : Prop :=
  l.Pairwise (fun a b => b.price ≤ a.price ∧ (a.price = b.price → a.timestamp ≤ b.timestamp))

/-- Bids weakly decreasing by price and, within equal price, strictly increasing by timestamp. -/
def BidsInStrictOrder (l : List Order) : Prop :=
  l.Pairwise (fun a b => b.price ≤ a.price ∧ (a.price = b.price → a.timestamp < b.timestamp))

/-- Asks weakly increasing by price and, within equal price, not decreasing by timestamp. -/
def AsksInOrder (l : List Order) : Prop :=
  l.Pairwise (fun a b => a.price ≤ b.price ∧ (a.price = b.price → a.timestamp ≤ b.timestamp))

/-- Asks weakly increasing by price and, within equal price, strictly increasing by timestamp. -/
def AsksInStrictOrder (l : List Order) : Prop :=
  l.Pairwise (fun a b => a.price ≤ b.price ∧ (a.price = b.price → a.timestamp < b.timestamp))

instance (l : List Order) : Decidable (BidsInOrder l) := by unfold BidsInOrder; infer_instance

instance (l : List Order) : Decidable (BidsInStrictOrder l) := by
  unfold BidsInStrictOrder; infer_instance

instance (l : List Order) : Decidable (AsksInOrder l) := by unfold AsksInOrder; infer_instance

instance (l : List Order) : Decidable (AsksInStrictOrder l) := by
  unfold AsksInStrictOrder; infer_instance

/-- A bid for `AAPL`, for examples. -/
def bid (p : Rat) (q id ts : Int) : Order := Order.new "AAPL" OrderSide.BUY p q id ts

/-- An ask for `AAPL`, for examples. -/
def ask (p : Rat) (q id ts : Int) : Order := Order.new "AAPL" OrderSide.SELL p q id ts

/-- The order ids given out by a run of calls, in call order. -/
def idsOf (l : List Submission) : List Int := l.map (fun s => s.order.order_id)

/-- A run of `2 * n` calls in which a bid and an ask at the same price and quantity alternate, so
that each ask takes the bid before it and the book is empty after every second call. -/
def alternating (now : Int) : Nat → List Request
  | 0 => []
  | n + 1 =>
    { symbol := "AAPL", side := OrderSide.BUY, price := 150, quantity := 1, now := now }
      :: { symbol := "AAPL", side := OrderSide.SELL, price := 150, quantity := 1, now := now + 1 }
      :: alternating (now + 2) n

/-- Example book: a bid at 150 placed first meets an ask at 149. -/
def crossedBook : OrderBook :=
  { symbol := "AAPL", buy_orders := [bid 150 100 1 10], sell_orders := [ask 149 100 2 11] }

/-- The trade `matchOrders` makes on `crossedBook`. -/
def crossedTrade : Trade :=
  { buy := bid 150 100 1 10, sell := ask 149 100 2 11, price := 150, quantity := 100 }

/-- Example run: one ask of 30 at 151. -/
def seedAsk : List Request :=
  [{ symbol := "AAPL", side := OrderSide.SELL, price := 151, quantity := 30, now := 10 }]

/-- Example call: a bid of 100 at 152. -/
def takingBid : Request :=
  { symbol := "AAPL", side := OrderSide.BUY, price := 152, quantity := 100, now := 11 }

/-- Sum of the quantities of a list of orders. -/
def totalQuantity (l : List Order) : Int := (l.map Order.quantity).sum

/-- Sum of the quantities of a list of trades. -/
def tradedQuantity (l : List Trade) : Int := (l.map Trade.quantity).sum

/-- A strictly positive quantity that fits an `int`. -/
def PositiveQty (o : Order) : Prop := 0 < o.quantity ∧ o.quantity < 2147483648

instance (o : Order) : Decidable (PositiveQty o) := by unfold PositiveQty; infer_instance

/-- One side of the book after the top order `o` traded `q`: the order leaves when nothing is
left of it, otherwise it stays on top with the reduced quantity. -/
def afterTrade (o : Order) (q : Int) (rest : List Order) : List Order :=
  if wrapInt32 (o.quantity - q) = 0 then rest
  else { o with quantity := wrapInt32 (o.quantity - q) } :: rest

/-- The trade the loop makes between top bid `b` and top ask `s`. -/
def execution (b s : Order) : Trade :=
  { buy := b, sell := s,
    price := if b.timestamp < s.timestamp then b.price else s.price,
    quantity := min b.quantity s.quantity }

/-- The trade used up the whole of the order on its sell side. -/
def Trade.fillsSell (t : Trade) : Prop := wrapInt32 (t.sell.quantity - t.quantity) = 0

/-- The trade used up the whole of the order on its buy side. -/
def Trade.fillsBuy (t : Trade) : Prop := wrapInt32 (t.buy.quantity - t.quantity) = 0

/-- The text of a trade record in the book of `symbol`. -/
def tradeText (symbol : String) (t : Trade) : String := tradeLine t.quantity symbol t.price

/-- The bids after the `push_back` of `addOrder`. -/
def buysPushed (b : OrderBook) (o : Order) : List Order :=
  match o.side with
  | OrderSide.BUY => b.buy_orders ++ [o]
  | OrderSide.SELL => b.buy_orders

/-- The asks after the `push_back` of `addOrder`. -/
def sellsPushed (b : OrderBook) (o : Order) : List Order :=
  match o.side with
  | OrderSide.BUY => b.sell_orders
  | OrderSide.SELL => b.sell_orders ++ [o]

/-- The run of the matching loop that `addOrder` starts for `o`. -/
def loopOf [StdSort] (b : OrderBook) (o : Order) : MatchState :=
  matchLoop b.symbol
    ((stdSort buyBefore (buysPushed b o)).length + (stdSort sellBefore (sellsPushed b o)).length)
    (stdSort buyBefore (buysPushed b o)) (stdSort sellBefore (sellsPushed b o)) "" []

/-- Both sides are in priority order and the book is not crossed. -/
def OrderBook.Ordered (b : OrderBook) : Prop :=
  b.buy_orders.Pairwise BuyPriority ∧ b.sell_orders.Pairwise SellPriority
    ∧ NotCrossed b.buy_orders b.sell_orders

/-- Every resting order has a strictly positive quantity (that fits an `int`). -/
def OrderBook.Positive (b : OrderBook) : Prop :=
  (∀ x ∈ b.buy_orders, PositiveQty x) ∧ (∀ x ∈ b.sell_orders, PositiveQty x)

/-- All resting orders of a book. -/
def OrderBook.resting (b : OrderBook) : List Order := b.buy_orders ++ b.sell_orders

/-- No two resting orders on one side carry the same timestamp. -/
def OrderBook.DistinctTimes (b : OrderBook) : Prop :=
  (b.buy_orders.map Order.timestamp).Nodup ∧ (b.sell_orders.map Order.timestamp).Nodup

/-- The vector of a book that holds the orders of the given side. -/
def OrderBook.side (b : OrderBook) (s : OrderSide) : List Order :=
  match s with
  | OrderSide.BUY => b.buy_orders
  | OrderSide.SELL => b.sell_orders

/-- The word `addOrder` prints for a side. -/
def sideText (s : OrderSide) : String :=
  match s with
  | OrderSide.BUY => "BUY"
  | OrderSide.SELL => "SELL"

/-- One section of the snapshot: the placeholder when the vector is empty, otherwise one line
per order in vector order. -/
def snapshotSection (placeholder : String) (l : List Order) : String :=
  if l.isEmpty then placeholder else String.join (l.map orderLine)

/-- The book `TradingEngine::addOrder` hands the order to: the one stored under the symbol, or a
fresh one when the symbol is new. -/
def TradingEngine.bookFor (e : TradingEngine) (symbol : String) : OrderBook :=
  (((tryEmplace e.order_books symbol).find? (fun kv => kv.1 = symbol)).map Prod.snd).getD
    (OrderBook.new symbol)

/-- A request that passes the checks of the command parser: positive price and quantity (the
quantity being an `int`). -/
def Request.Valid (r : Request) : Prop :=
  0 < r.price ∧ 0 < r.quantity ∧ r.quantity < 2147483648

instance (r : Request) : Decidable r.Valid := by unfold Request.Valid; infer_instance

/-- Every book of the engine is stored under its own symbol. -/
def TradingEngine.Keyed (e : TradingEngine) : Prop :=
  ∀ kv ∈ e.order_books, kv.2.symbol = kv.1

/-- Every book of the engine is in priority order, not crossed, and holds strictly positive
quantities only. -/
def TradingEngine.Sound (e : TradingEngine) : Prop :=
  ∀ kv ∈ e.order_books, kv.2.Ordered ∧ kv.2.Positive

/-- The orders of a list that are on the given side. -/
def onSide (s : OrderSide) (l : List Order) : List Order := l.filter (fun o => o.side = s)

/-! ## `TradingEngine::showOrders` as a call on the engine object -/

/-- Method `TradingEngine::showOrders` with the engine object passed through: the returned text
and the object after the call. The body assigns to no member: `findOrderBook` looks the symbol
up with `std::map::find`, which inserts nothing, and `OrderBook::displayOrders` is a `const`
method that only reads the two vectors. -/
def TradingEngine.showOrdersCall (e : TradingEngine) (symbol : String) :
    String × TradingEngine :=
  match e.findOrderBook symbol with
  | some book => (book.displayOrders, e)
  | none => ("No orders found for symbol: " ++ symbol ++ "\n", e)

/-- Consecutive `showOrders` calls, one per symbol of the list: the texts in call order and the
engine object after the last call. -/
def TradingEngine.showAll (e : TradingEngine) : List String → List String × TradingEngine
  | [] => ([], e)
  | symbol :: rest =>
    ((e.showOrdersCall symbol).1 :: ((e.showOrdersCall symbol).2.showAll rest).1,
      ((e.showOrdersCall symbol).2.showAll rest).2)

/-! ## `NetworkServer::processCommand` (`network_server.cpp`) -/

/-- The function `std::isspace` in the classic locale. -/
def isSpace (c : Char) : Bool :=
  c = ' ' || c = '\t' || c = '\n' || c = '\x0b' || c = '\x0c' || c = '\r'

/-- Extraction `iss >> word` into a `std::string`: skips leading white space and reads up to
the next white space; fails when the stream holds nothing but white space. The stream is the
list of characters not yet read, `none` is the stream with `failbit` set. -/
def readWord (iss : List Char) : Option (String × List Char) :=
  match iss.dropWhile isSpace with
  | [] => none
  | c :: cs =>
    some (String.mk ((c :: cs).takeWhile (fun x => !isSpace x)),
      (c :: cs).dropWhile (fun x => !isSpace x))

/-- The extraction operators `iss >> double` and `iss >> int` of the standard library, taken as
given: each one either yields a value and the rest of the stream or sets `failbit`. -/
structure NumericInput where
  readDouble : List Char → Option (Rat × List Char)
  readInt : List Char → Option (Int × List Char)

/-- The chain `iss >> side_str >> symbol >> price >> quantity`; `none` when one of the four
extractions fails. -/
def extractAddOrder (input : NumericInput) (iss : List Char) :
    Option (String × String × Rat × Int) :=
  match readWord iss with
  | none => none
  | some (side_str, iss₁) =>
    match readWord iss₁ with
    | none => none
    | some (symbol, iss₂) =>
      match input.readDouble iss₂ with
      | none => none
      | some (price, iss₃) =>
        match input.readInt iss₃ with
        | none => none
        | some (quantity, _) => some (side_str, symbol, price, quantity)

/-- The side named by `side_str`, compared as written; `none` for any other word. -/
def parseSide (side_str : String) : Option OrderSide :=
  if side_str = "BUY" then some OrderSide.BUY
  else if side_str = "SELL" then some OrderSide.SELL
  else none

/-- Method `NetworkServer::processCommand`, with the engine behind the `engine` pointer passed
through: the response and the engine after the call. `now` is the clock reading the `Order`
constructor takes if the command reaches `TradingEngine::addOrder`. -/
def processCommand [StdSort] (input : NumericInput) (engine : TradingEngine) (now : Int)
    (command : String) : String × TradingEngine :=
  let first := readWord command.data
  let cmd := (first.map Prod.fst).getD ""
  if cmd = "ADD_ORDER" then
    match (first.map Prod.snd).bind (extractAddOrder input) with
    | none =>
      ("ERROR: Invalid command format\nUsage: ADD_ORDER <BUY|SELL> <SYMBOL> <PRICE> <QUANTITY>\n",
        engine)
    | some (side_str, symbol, price, quantity) =>
      match parseSide side_str with
      | none => ("ERROR: Invalid side. Use BUY or SELL\n", engine)
      | some side =>
        if price ≤ 0 ∨ quantity ≤ 0 then
          ("ERROR: Price and quantity must be positive\n", engine)
        else
          ((engine.addOrder symbol side price quantity now).report,
            (engine.addOrder symbol side price quantity now).engine)
  else if cmd = "SHOW_ORDERS" then
    match (first.map Prod.snd).bind readWord with
    | none => ("ERROR: Invalid command format\nUsage: SHOW_ORDERS <SYMBOL>\n", engine)
    | some (symbol, _) => engine.showOrdersCall symbol
  else if cmd = "DISCONNECT" then
    ("OK: Goodbye!\n", engine)
  else
    ("ERROR: Unknown command\nAvailable commands: ADD_ORDER, SHOW_ORDERS, DISCONNECT\n", engine)

/-! ## Mutexes taken by the engine operations -/

/-- What an engine operation does with the two kinds of mutex and with the id counter, in
program order. -/
inductive LockEvent where
  | takeId
  | lockEngine
  | unlockEngine
  | lockBook (symbol : String)
  | unlockBook (symbol : String)
deriving DecidableEq

/-- Events of `TradingEngine::addOrder`: `next_order_id++` is evaluated while the order is
constructed, before any lock; the `lock_guard` on `engine_mutex` lives in the inner block around
`try_emplace`; `book->addOrder` holds `book_mutex` for its whole body. -/
def addOrderEvents (symbol : String) : List LockEvent :=
  [LockEvent.takeId, LockEvent.lockEngine, LockEvent.unlockEngine, LockEvent.lockBook symbol,
    LockEvent.unlockBook symbol]

/-- Events of `TradingEngine::showOrders`: the `lock_guard` on `engine_mutex` lives to the end
of the function; when the book is found, `book->displayOrders` holds `book_mutex` for its whole
body. -/
def showOrdersEvents (e : TradingEngine) (symbol : String) : List LockEvent :=
  match e.findOrderBook symbol with
  | some _ =>
    [LockEvent.lockEngine, LockEvent.lockBook symbol, LockEvent.unlockBook symbol,
      LockEvent.unlockEngine]
  | none => [LockEvent.lockEngine, LockEvent.unlockEngine]

/-! ## Vocabulary of the statements, continued -/

/-- Every resting order of the engine rests in the book stored under its own symbol. -/
def TradingEngine.Homed (e : TradingEngine) : Prop :=
  ∀ kv ∈ e.order_books, ∀ x ∈ kv.2.resting, x.symbol = kv.1

/-- Example run: a bid of 100 at 150 and an ask of 100 at 149 that takes it whole. -/
def exactMatch : List Request :=
  [{ symbol := "AAPL", side := OrderSide.BUY, price := 150, quantity := 100, now := 10 },
   { symbol := "AAPL", side := OrderSide.SELL, price := 149, quantity := 100, now := 11 }]

/-- Example run: one bid of 100 at 150 for `AAPL`. -/
def seedBid : List Request :=
  [{ symbol := "AAPL", side := OrderSide.BUY, price := 150, quantity := 100, now := 10 }]

/-- Example call: an ask of 100 at 100 for `MSFT`. -/
def otherAsk : Request :=
  { symbol := "MSFT", side := OrderSide.SELL, price := 100, quantity := 100, now := 11 }

/-- The text `s` begins with the text `pre`. -/
def beginsWith (pre s : String) : Prop := pre.data <+: s.data

instance (pre s : String) : Decidable (beginsWith pre s) := by unfold beginsWith; infer_instance

/-- The first token of a command line, if it has one. -/
def firstToken (command : String) : Option String := (readWord command.data).map Prod.fst

/-- The part of a command line that follows its first token. -/
def afterFirstToken (command : String) : List Char :=
  ((readWord command.data).map Prod.snd).getD []

/-- The commands that are to be answered with an error: the first token is none of the three
command words; or it is `ADD_ORDER` and side, symbol, price and quantity cannot all be read, or
the side is neither `BUY` nor `SELL`, or the price or the quantity is not strictly positive; or
it is `SHOW_ORDERS` and no symbol follows. -/
def Rejected (input : NumericInput) (command : String) : Prop :=
  (firstToken command ≠ some "ADD_ORDER" ∧ firstToken command ≠ some "SHOW_ORDERS"
      ∧ firstToken command ≠ some "DISCONNECT")
    ∨ (firstToken command = some "ADD_ORDER"
        ∧ (extractAddOrder input (afterFirstToken command) = none
          ∨ ∃ side_str symbol price quantity,
              extractAddOrder input (afterFirstToken command)
                = some (side_str, symbol, price, quantity)
              ∧ ((side_str ≠ "BUY" ∧ side_str ≠ "SELL") ∨ price ≤ 0 ∨ quantity ≤ 0)))
    ∨ (firstToken command = some "SHOW_ORDERS" ∧ readWord (afterFirstToken command) = none)

/-- Scan of a run of events: no book mutex is taken while the engine mutex or another book
mutex is held. `engineHeld` and `booksHeld` describe what is held before the run. -/
def strictFrom (engineHeld : Bool) (booksHeld : Nat) : List LockEvent → Bool
  | [] => true
  | LockEvent.takeId :: rest => strictFrom engineHeld booksHeld rest
  | LockEvent.lockEngine :: rest => strictFrom true booksHeld rest
  | LockEvent.unlockEngine :: rest => strictFrom false booksHeld rest
  | LockEvent.lockBook _ :: rest =>
    !engineHeld && booksHeld == 0 && strictFrom engineHeld (booksHeld + 1) rest
  | LockEvent.unlockBook _ :: rest => strictFrom engineHeld (booksHeld - 1) rest

/-- The engine mutex is released before any book mutex is taken, and two book mutexes are never
held together. -/
def StrictLockOrder (events : List LockEvent) : Prop := strictFrom false 0 events = true

instance (events : List LockEvent) : Decidable (StrictLockOrder events) := by
  unfold StrictLockOrder; infer_instance

/-- Value of a run of decimal digits. -/
def digitsValue (ds : List Char) : Nat := ds.foldl (fun n c => 10 * n + (c.toNat - 48)) 0

/-- An optional sign in front of a number: whether it is a minus, and what follows. -/
def readSign : List Char → Bool × List Char
  | '-' :: rest => (true, rest)
  | '+' :: rest => (false, rest)
  | rest => (false, rest)

/-- A reader of plain decimal integers that fit an `int`, for examples. -/
def decimalInt (iss : List Char) : Option (Int × List Char) :=
  let signed := readSign (iss.dropWhile isSpace)
  let digits := signed.2.takeWhile Char.isDigit
  let value : Int := if signed.1 then -(digitsValue digits : Int) else (digitsValue digits : Int)
  if digits.isEmpty then none
  else if -2147483648 ≤ value ∧ value < 2147483648 then
    some (value, signed.2.dropWhile Char.isDigit)
  else none

/-- A reader of plain decimal numbers with an optional fraction, for examples. -/
def decimalDouble (iss : List Char) : Option (Rat × List Char) :=
  let signed := readSign (iss.dropWhile isSpace)
  let whole := signed.2.takeWhile Char.isDigit
  let afterWhole := signed.2.dropWhile Char.isDigit
  let fraction := match afterWhole with
    | '.' :: rest => rest.takeWhile Char.isDigit
    | _ => []
  let rest := match afterWhole with
    | '.' :: rest => rest.dropWhile Char.isDigit
    | other => other
  let magnitude : Rat := (digitsValue (whole ++ fraction) : Rat) / (10 ^ fraction.length : Nat)
  if whole.isEmpty then none
  else some (if signed.1 then -magnitude else magnitude, rest)

/-- The two example readers together. -/
def decimalInput : NumericInput := { readDouble := decimalDouble, readInt := decimalInt }

/-- Example command: a well-formed `ADD_ORDER` with a negative price. -/
def negativePriceCommand : String := "ADD_ORDER BUY AAPL -5 100\n"

/-- Example order: a bid whose symbol is `MSFT`. -/
def strayBid : Order := Order.new "MSFT" OrderSide.BUY 100 10 1 10

/-- Example run: two bids for `AAPL` constructed within the same microsecond. -/
def sameMicrosecond : List Request :=
  [{ symbol := "AAPL", side := OrderSide.BUY, price := 150, quantity := 50, now := 10 },
   { symbol := "AAPL", side := OrderSide.BUY, price := 150, quantity := 50, now := 10 }]

/-- The calls of a run that name the given symbol, in call order. -/
def callsFor (symbol : String) (reqs : List Request) : List Request :=
  reqs.filter (fun r => r.symbol = symbol)

/-- The outcomes of a run whose order carries the given symbol, in call order. -/
def outcomesFor (symbol : String) (l : List Submission) : List Submission :=
  l.filter (fun s => s.order.symbol = symbol)

/-! ## The id counter under concurrent calls -/

/-- Scan of a run of events: the id counter is touched only while the engine mutex is held.
`engineHeld` describes what is held before the run. -/
def counterGuardedFrom (engineHeld : Bool) : List LockEvent → Bool
  | [] => true
  | LockEvent.takeId :: rest => engineHeld && counterGuardedFrom engineHeld rest
  | LockEvent.lockEngine :: rest => counterGuardedFrom true rest
  | LockEvent.unlockEngine :: rest => counterGuardedFrom false rest
  | LockEvent.lockBook _ :: rest => counterGuardedFrom engineHeld rest
  | LockEvent.unlockBook _ :: rest => counterGuardedFrom engineHeld rest

/-- Every access to the id counter in the run happens with the engine mutex held. -/
def CounterGuarded (events : List LockEvent) : Prop := counterGuardedFrom false events = true

instance (events : List LockEvent) : Decidable (CounterGuarded events) := by
  unfold CounterGuarded; infer_instance

/-- The two memory accesses of the expression `next_order_id++` on the plain `int` member: the
value is read (it is the value of the expression, the id of the order), and the value read plus
one is written back. -/
inductive CounterAccess where
  | read
  | write
deriving DecidableEq

/-- The shared counter together with the value each caller has read, callers in the order of
their reads. -/
structure CounterState where
  next_order_id : Int
  taken : List (Nat × Int)
deriving DecidableEq

/-- One access of one caller. A `write` stores the value this caller read plus one; a caller
that has read nothing writes nothing. -/
def CounterState.access (s : CounterState) (caller : Nat) : CounterAccess → CounterState
  | CounterAccess.read => { s with taken := s.taken ++ [(caller, s.next_order_id)] }
  | CounterAccess.write =>
    match s.taken.find? (fun p => p.1 = caller) with
    | some p => { s with next_order_id := wrapInt32 (p.2 + 1) }
    | none => s

/-- The accesses of several callers in the order in which the memory sees them. -/
def CounterState.run (s : CounterState) : List (Nat × CounterAccess) → CounterState
  | [] => s
  | (caller, a) :: rest => (s.access caller a).run rest

/-- Two calls of `TradingEngine::addOrder` one after the other. -/
def oneAfterTheOther : List (Nat × CounterAccess) :=
  [(0, CounterAccess.read), (0, CounterAccess.write), (1, CounterAccess.read),
    (1, CounterAccess.write)]

/-- Two calls of `TradingEngine::addOrder` on two threads, both reading the counter before
either has written it back. No mutex is held at `next_order_id++`, so nothing orders these
accesses. -/
def bothReadFirst : List (Nat × CounterAccess) :=
  [(0, CounterAccess.read), (1, CounterAccess.read), (0, CounterAccess.write),
    (1, CounterAccess.write)]

/-! ## Vocabulary of the statements: one admission -/

instance (buys sells : List Order) : Decidable (NotCrossed buys sells) := by
  unfold NotCrossed; infer_instance

/-- Example book: a bid at 150 and an ask at 149 that carry the same timestamp. -/
def tiedBook : OrderBook :=
  { symbol := "AAPL", buy_orders := [bid 150 100 1 10], sell_orders := [ask 149 100 2 10] }

/-- The best ask of a book: the price of the order that `sortOrders` puts first among the asks,
if there is an ask. -/
def bestAsk [StdSort] (b : OrderBook) : Option Rat :=
  ((stdSort sellBefore b.sell_orders).head?).map Order.price

/-- The best bid of a book: the price of the order that `sortOrders` puts first among the bids,
if there is a bid. -/
def bestBid [StdSort] (b : OrderBook) : Option Rat :=
  ((stdSort buyBefore b.buy_orders).head?).map Order.price

/-- The other side of the book is not empty and the price of the incoming order reaches its best
price: a bid at or above the best ask, an ask at or below the best bid. -/
def Marketable [StdSort] (b : OrderBook) (o : Order) : Prop :=
  match o.side with
  | OrderSide.BUY => ∃ p ∈ bestAsk b, p ≤ o.price
  | OrderSide.SELL => ∃ p ∈ bestBid b, o.price ≤ p

instance [StdSort] (b : OrderBook) (o : Order) : Decidable (Marketable b o) := by
  unfold Marketable
  cases o.side <;> infer_instance

/-- Example book: a bid at 99 and asks at 101 and 100, the asks not in priority order. -/
def mixedAsks : OrderBook :=
  { symbol := "AAPL", buy_orders := [bid 99 10 3 12],
    sell_orders := [ask 101 10 1 10, ask 100 10 2 11] }

/-- The records of the trades in which the bid `o` takes each ask of the list whole, one after
the other, its own quantity going down by what it took. -/
def sweepAsks (o : Order) : List Order → List Trade
  | [] => []
  | s :: ss => execution o s :: sweepAsks { o with quantity := o.quantity - s.quantity } ss

/-- The records of the trades in which the ask `o` takes each bid of the list whole, one after
the other, its own quantity going down by what it took. -/
def sweepBids (o : Order) : List Order → List Trade
  | [] => []
  | x :: bs => execution x o :: sweepBids { o with quantity := o.quantity - x.quantity } bs

/-- Example book: asks of 0 at 100 and of 40 at 101. -/
def zeroAndForty : OrderBook :=
  { symbol := "AAPL", buy_orders := [], sell_orders := [ask 100 0 1 10, ask 101 40 2 11] }

/-- Example book: asks of 10 at 100 and of -20 at 101. -/
def negativeAsk : OrderBook :=
  { symbol := "AAPL", buy_orders := [], sell_orders := [ask 100 10 1 10, ask 101 (-20) 2 11] }

/-- Example book: a bid of 10 at 148 and asks of 40 at 150 and of 40 at 149. -/
def twoAsks : OrderBook :=
  { symbol := "AAPL", buy_orders := [bid 148 10 3 12],
    sell_orders := [ask 150 40 1 10, ask 149 40 2 11] }

/-- Order `x` is order `y` with a quantity that has not grown: id, symbol, side, price and
timestamp are the same and the quantity of `x` is at most that of `y`. -/
def Order.ReducedFrom (x y : Order) : Prop :=
  x.order_id = y.order_id ∧ x.symbol = y.symbol ∧ x.side = y.side ∧ x.price = y.price
    ∧ x.timestamp = y.timestamp ∧ x.quantity ≤ y.quantity

instance (x y : Order) : Decidable (x.ReducedFrom y) := by
  unfold Order.ReducedFrom; infer_instance

instance (b : OrderBook) : Decidable b.Positive := by
  unfold OrderBook.Positive; infer_instance

/-- The depth an incoming order reaches: the total quantity of the resting orders on the other
side whose price its limit reaches (asks at or below the price of a bid, bids at or above the
price of an ask). -/
def crossingDepth (b : OrderBook) (o : Order) : Int :=
  match o.side with
  | OrderSide.BUY => totalQuantity (b.sell_orders.filter (fun s => decide (s.price ≤ o.price)))
  | OrderSide.SELL => totalQuantity (b.buy_orders.filter (fun x => decide (o.price ≤ x.price)))

/-- Example book: three asks of 1 at 100. -/
def threeAsks : OrderBook :=
  { symbol := "AAPL", buy_orders := [],
    sell_orders := [ask 100 1 1 10, ask 100 1 2 11, ask 100 1 3 12] }

/-- Example book: asks of 0 and of -5 at 100. -/
def zeroAsk : OrderBook :=
  { symbol := "AAPL", buy_orders := [], sell_orders := [ask 100 0 1 10, ask 100 (-5) 2 11] }

/-- Example order: the bid of 1 at 1 that the first call of `wrappingRun` leaves in the book. -/
def keptBid : Order := Order.new "AAPL" OrderSide.BUY 1 1 1 0

/-- Example book: the book that holds `keptBid` and nothing else. -/
def keptBook : OrderBook := { symbol := "AAPL", buy_orders := [keptBid], sell_orders := [] }

/-- Example run of 4294967296 valid calls: a bid of 1 at 1, which no later order reaches; then
2147483647 times a bid of 1 at 150 and an ask of 1 at 150 that takes it; then one more bid of 1
at 150. -/
def wrappingRun : List Request :=
  { symbol := "AAPL", side := OrderSide.BUY, price := 1, quantity := 1, now := 0 }
    :: (alternating 1 2147483647
        ++ [{ symbol := "AAPL", side := OrderSide.BUY, price := 150, quantity := 1,
              now := 4294967295 }])

/-- Example call: an ask of 1 at 150. -/
def closingAsk : Request :=
  { symbol := "AAPL", side := OrderSide.SELL, price := 150, quantity := 1, now := 4294967296 }

/-- The engine after `wrappingRun`: the bid at 150 of the last call (id 0) in front of the bid at
1 of the first call (id 1), the counter back at 1. -/
def wrappedEngine : TradingEngine :=
  { order_books :=
      [("AAPL", { symbol := "AAPL",
                  buy_orders := [Order.new "AAPL" OrderSide.BUY 150 1 0 4294967295, keptBid],
                  sell_orders := [] })],
    next_order_id := 1 }

/-! ## A sort that meets the contract -/

/-- One function that meets the contract of `std::sort`: insertion sort. The examples and
witnesses are evaluated with it; the statements about the code are proved for every function
that meets the contract. -/
instance insertionStdSort : StdSort where
  sort := fun comp l => l.insertionSort (fun a b => comp b a = false)
  perm := fun _ l => List.perm_insertionSort _ l
  sorted := fun comp l h =>
    @List.sorted_insertionSort Order (fun a b => comp b a = false) _ ⟨h.1⟩ ⟨h.2⟩ l

/-! ## Machine integers: facts -/

theorem wrapInt32_zero : wrapInt32 0 = 0 := by decide

theorem wrapInt32_of_inRange {x : Int} (h : InInt32 x) : wrapInt32 x = x := by
  unfold InInt32 at h
  unfold wrapInt32
  omega

theorem wrapInt32_inRange (x : Int) : InInt32 (wrapInt32 x) := by
  unfold InInt32 wrapInt32
  omega

theorem wrapInt32_succ_wrap (x : Int) : wrapInt32 (wrapInt32 x + 1) = wrapInt32 (x + 1) := by
  unfold wrapInt32
  omega

/-- Whatever the two quantities, the subtraction of the trade quantity empties one of them. -/
theorem min_empties_one (a b : Int) :
    wrapInt32 (a - min a b) = 0 ∨ wrapInt32 (b - min a b) = 0 := by
  rcases le_total a b with h | h
  · left; rw [min_eq_left h, sub_self, wrapInt32_zero]
  · right; rw [min_eq_right h, sub_self, wrapInt32_zero]

/-! ## The comparators and `std::sort` -/

theorem buyBefore_eq_false_iff (a b : Order) : buyBefore b a = false ↔ BuyPriority a b := by
  unfold buyBefore BuyPriority
  by_cases h : b.price = a.price
  · simp [h]
  · have h2 : a.price ≠ b.price := fun e => h e.symm
    simp only [ne_eq, h, not_false_eq_true, if_true, decide_eq_false_iff_not, not_lt, gt_iff_lt]
    constructor
    · intro hle
      exact Or.inl (lt_of_le_of_ne hle h)
    · rintro (hlt | ⟨he, _⟩)
      · exact le_of_lt hlt
      · exact absurd he h2

theorem sellBefore_eq_false_iff (a b : Order) : sellBefore b a = false ↔ SellPriority a b := by
  unfold sellBefore SellPriority
  by_cases h : b.price = a.price
  · simp [h]
  · have h2 : a.price ≠ b.price := fun e => h e.symm
    simp only [ne_eq, h, not_false_eq_true, if_true, decide_eq_false_iff_not, not_lt]
    constructor
    · intro hle
      exact Or.inl (lt_of_le_of_ne hle h2)
    · rintro (hlt | ⟨he, _⟩)
      · exact le_of_lt hlt
      · exact absurd he h2

theorem buyRel_total : IsTotal Order (fun a b => buyBefore b a = false) where
  total a b := by
    simp only [buyBefore_eq_false_iff, BuyPriority]
    rcases lt_trichotomy a.price b.price with h | h | h
    · exact Or.inr (Or.inl h)
    · rcases le_total a.timestamp b.timestamp with t | t
      · exact Or.inl (Or.inr ⟨h, t⟩)
      · exact Or.inr (Or.inr ⟨h.symm, t⟩)
    · exact Or.inl (Or.inl h)

theorem buyRel_trans : IsTrans Order (fun a b => buyBefore b a = false) where
  trans a b c := by
    simp only [buyBefore_eq_false_iff, BuyPriority]
    rintro (h1 | ⟨h1, t1⟩) (h2 | ⟨h2, t2⟩)
    · exact Or.inl (lt_trans h2 h1)
    · exact Or.inl (h2 ▸ h1)
    · exact Or.inl (h1 ▸ h2)
    · exact Or.inr ⟨h1.trans h2, le_trans t1 t2⟩

theorem sellRel_total : IsTotal Order (fun a b => sellBefore b a = false) where
  total a b := by
    simp only [sellBefore_eq_false_iff, SellPriority]
    rcases lt_trichotomy a.price b.price with h | h | h
    · exact Or.inl (Or.inl h)
    · rcases le_total a.timestamp b.timestamp with t | t
      · exact Or.inl (Or.inr ⟨h, t⟩)
      · exact Or.inr (Or.inr ⟨h.symm, t⟩)
    · exact Or.inr (Or.inl h)

theorem sellRel_trans : IsTrans Order (fun a b => sellBefore b a = false) where
  trans a b c := by
    simp only [sellBefore_eq_false_iff, SellPriority]
    rintro (h1 | ⟨h1, t1⟩) (h2 | ⟨h2, t2⟩)
    · exact Or.inl (lt_trans h1 h2)
    · exact Or.inl (h2 ▸ h1)
    · exact Or.inl (h1 ▸ h2)
    · exact Or.inr ⟨h1.trans h2, le_trans t1 t2⟩

theorem buyBefore_strictWeak : StrictWeakOrder buyBefore :=
  ⟨fun a b => buyRel_total.total a b, fun a b c => buyRel_trans.trans a b c⟩

theorem sellBefore_strictWeak : StrictWeakOrder sellBefore :=
  ⟨fun a b => sellRel_total.total a b, fun a b c => sellRel_trans.trans a b c⟩

theorem stdSort_perm [StdSort] (comp : Order → Order → Bool) (l : List Order) :
    (stdSort comp l).Perm l :=
  StdSort.perm comp l

theorem mem_stdSort [StdSort] {comp : Order → Order → Bool} {l : List Order} {x : Order} :
    x ∈ stdSort comp l ↔ x ∈ l :=
  (stdSort_perm comp l).mem_iff

theorem length_stdSort [StdSort] (comp : Order → Order → Bool) (l : List Order) :
    (stdSort comp l).length = l.length :=
  (stdSort_perm comp l).length_eq

theorem stdSort_buy_sorted [StdSort] (l : List Order) :
    (stdSort buyBefore l).Pairwise BuyPriority :=
  List.Pairwise.imp (fun {a b} hab => (buyBefore_eq_false_iff a b).mp hab)
    (StdSort.sorted buyBefore l buyBefore_strictWeak)

theorem stdSort_sell_sorted [StdSort] (l : List Order) :
    (stdSort sellBefore l).Pairwise SellPriority :=
  List.Pairwise.imp (fun {a b} hab => (sellBefore_eq_false_iff a b).mp hab)
    (StdSort.sorted sellBefore l sellBefore_strictWeak)

/-- A sorted arrangement of a vector whose first element the comparator puts before every other
one starts with that element, whatever the sort does with the rest. -/
theorem sorted_perm_top {comp : Order → Order → Bool} {o : Order} {l s : List Order}
    (hperm : s.Perm (l ++ [o])) (hsorted : s.Pairwise (fun a b => comp b a = false))
    (hfirst : ∀ x ∈ l, comp o x = true) :
    ∃ rest, s = o :: rest ∧ rest.Perm l := by
  cases s with
  | nil =>
    have := hperm.length_eq
    simp at this
  | cons h t =>
    have hmem : o ∈ h :: t := hperm.mem_iff.mpr (by simp)
    have hh : h = o := by
      rcases List.mem_cons.mp hmem with e | ho
      · exact e.symm
      · have hr : comp o h = false := (List.pairwise_cons.mp hsorted).1 o ho
        have hhm : h ∈ l ++ [o] := hperm.mem_iff.mp (List.mem_cons_self _ _)
        rcases List.mem_append.mp hhm with hl | hl
        · rw [hfirst h hl] at hr
          exact absurd hr (by simp)
        · exact List.mem_singleton.mp hl
    subst hh
    refine ⟨t, rfl, ?_⟩
    have h2 : (h :: t).Perm (h :: l) := hperm.trans (List.perm_append_singleton h l)
    exact List.Perm.cons_inv h2

/-- Sorting a vector to which one order was pushed that the comparator puts before every order
in it puts that order first; the rest is a sorted arrangement of the vector. -/
theorem stdSort_push_top [StdSort] (comp : Order → Order → Bool) (hsw : StrictWeakOrder comp)
    (o : Order) (l : List Order) (hfirst : ∀ x ∈ l, comp o x = true) :
    ∃ rest, stdSort comp (l ++ [o]) = o :: rest ∧ rest.Perm l
      ∧ rest.Pairwise (fun a b => comp b a = false) := by
  have hsorted := StdSort.sorted comp (l ++ [o]) hsw
  obtain ⟨rest, e, hp⟩ := sorted_perm_top (stdSort_perm comp (l ++ [o])) hsorted hfirst
  refine ⟨rest, e, hp, ?_⟩
  have : (o :: rest).Pairwise (fun a b => comp b a = false) := e ▸ hsorted
  exact List.Pairwise.of_cons this

/-! ## The matching loop: unfolding -/

theorem matchLoop_nil_left (sym : String) (fuel : Nat) (ss : List Order) (r : String)
    (t : List Trade) :
    matchLoop sym fuel [] ss r t = { buy_orders := [], sell_orders := ss, result := r, trades := t } := by
  cases fuel <;> rfl

theorem matchLoop_nil_right (sym : String) (fuel : Nat) (bs : List Order) (r : String)
    (t : List Trade) :
    matchLoop sym fuel bs [] r t = { buy_orders := bs, sell_orders := [], result := r, trades := t } := by
  cases fuel <;> cases bs <;> rfl

theorem matchLoop_no_cross (sym : String) (fuel : Nat) {b s : Order} (bs ss : List Order)
    (r : String) (t : List Trade) (h : b.price < s.price) :
    matchLoop sym fuel (b :: bs) (s :: ss) r t
      = { buy_orders := b :: bs, sell_orders := s :: ss, result := r, trades := t } := by
  cases fuel with
  | zero => rfl
  | succ n => simp [matchLoop, not_le.mpr h]

theorem matchLoop_cross (sym : String) (fuel : Nat) {b s : Order} (bs ss : List Order)
    (r : String) (t : List Trade) (h : s.price ≤ b.price) :
    matchLoop sym (fuel + 1) (b :: bs) (s :: ss) r t
      = matchLoop sym fuel (afterTrade b (min b.quantity s.quantity) bs)
          (afterTrade s (min b.quantity s.quantity) ss)
          (r ++ tradeText sym (execution b s)) (t ++ [execution b s]) := by
  simp only [matchLoop, ge_iff_le, h, if_true, afterTrade, execution, tradeText]

/-- Induction over the iterations of the loop: a property that holds when the loop stops where it
stands and is carried backwards over one trade holds for the outcome of the loop. -/
theorem matchLoop_induction (sym : String)
    (P : List Order → List Order → String → List Trade → MatchState → Prop)
    (stop : ∀ bs ss r t,
      P bs ss r t { buy_orders := bs, sell_orders := ss, result := r, trades := t })
    (step : ∀ b bs s ss r t st, s.price ≤ b.price →
      P (afterTrade b (min b.quantity s.quantity) bs) (afterTrade s (min b.quantity s.quantity) ss)
        (r ++ tradeText sym (execution b s)) (t ++ [execution b s]) st →
      P (b :: bs) (s :: ss) r t st) :
    ∀ fuel bs ss r t, P bs ss r t (matchLoop sym fuel bs ss r t) := by
  intro fuel
  induction fuel with
  | zero => intro bs ss r t; exact stop bs ss r t
  | succ n ih =>
    intro bs ss r t
    cases bs with
    | nil => rw [matchLoop_nil_left]; exact stop _ _ _ _
    | cons b bs =>
      cases ss with
      | nil => rw [matchLoop_nil_right]; exact stop _ _ _ _
      | cons s ss =>
        by_cases h : s.price ≤ b.price
        · rw [matchLoop_cross sym n bs ss r t h]
          exact step b bs s ss r t _ h (ih _ _ _ _)
        · rw [matchLoop_no_cross sym (n + 1) bs ss r t (not_le.mp h)]
          exact stop _ _ _ _

/-! ## The matching loop: what one trade does to a side -/

theorem afterTrade_length_le (o : Order) (q : Int) (rest : List Order) :
    (afterTrade o q rest).length ≤ rest.length + 1 := by
  unfold afterTrade
  split <;> simp

theorem afterTrade_fixedPart_suffix (o : Order) (q : Int) (rest : List Order) :
    (afterTrade o q rest).map Order.fixedPart <:+ (o :: rest).map Order.fixedPart := by
  unfold afterTrade
  split
  · rw [List.map_cons]
    exact List.suffix_cons _ _
  · exact List.suffix_rfl

/-- One of the two sides loses its top order in every trade. -/
theorem afterTrade_shrinks (b s : Order) (bs ss : List Order) :
    (afterTrade b (min b.quantity s.quantity) bs).length
      + (afterTrade s (min b.quantity s.quantity) ss).length ≤ bs.length + ss.length + 1 := by
  have hb := afterTrade_length_le b (min b.quantity s.quantity) bs
  have hs := afterTrade_length_le s (min b.quantity s.quantity) ss
  rcases min_empties_one b.quantity s.quantity with h | h
  · have : afterTrade b (min b.quantity s.quantity) bs = bs := by simp [afterTrade, h]
    rw [this]; omega
  · have : afterTrade s (min b.quantity s.quantity) ss = ss := by simp [afterTrade, h]
    rw [this]; omega

theorem afterTrade_positive {o : Order} {q : Int} {rest : List Order} (ho : PositiveQty o)
    (hq : 0 < q) (hle : q ≤ o.quantity) (hrest : ∀ x ∈ rest, PositiveQty x) :
    (∀ x ∈ afterTrade o q rest, PositiveQty x)
      ∧ totalQuantity (afterTrade o q rest) + q = totalQuantity (o :: rest) := by
  have hw : wrapInt32 (o.quantity - q) = o.quantity - q := by
    apply wrapInt32_of_inRange
    unfold PositiveQty at ho
    unfold InInt32
    omega
  unfold afterTrade
  rw [hw]
  split
  · rename_i h0
    refine ⟨hrest, ?_⟩
    simp only [totalQuantity, List.map_cons, List.sum_cons]
    omega
  · rename_i h0
    constructor
    · intro x hx
      rcases List.mem_cons.mp hx with rfl | hx
      · unfold PositiveQty at ho ⊢
        simp only
        omega
      · exact hrest x hx
    · simp only [totalQuantity, List.map_cons, List.sum_cons]
      omega

/-! ## Text: joining lines -/

theorem join_nil : String.join [] = "" := rfl

theorem join_cons (a : String) (l : List String) : String.join (a :: l) = a ++ String.join l := by
  apply String.ext
  simp [String.join_eq]

theorem join_append (l₁ l₂ : List String) :
    String.join (l₁ ++ l₂) = String.join l₁ ++ String.join l₂ := by
  apply String.ext
  simp [String.join_eq]

/-! ## The matching loop: general properties -/

/-- The loop never stops for lack of fuel: with as much fuel as there are orders, it ends with an
empty side or with a top bid strictly below the top ask. -/
theorem matchLoop_exit (sym : String) :
    ∀ (fuel : Nat) (bs ss : List Order) (r : String) (t : List Trade),
      bs.length + ss.length ≤ fuel →
      (matchLoop sym fuel bs ss r t).buy_orders = []
        ∨ (matchLoop sym fuel bs ss r t).sell_orders = []
        ∨ ∃ b bs' s ss', (matchLoop sym fuel bs ss r t).buy_orders = b :: bs'
            ∧ (matchLoop sym fuel bs ss r t).sell_orders = s :: ss' ∧ b.price < s.price := by
  intro fuel
  induction fuel with
  | zero =>
    intro bs ss r t h
    left
    have : bs = [] := List.length_eq_zero.mp (by omega)
    subst this
    rfl
  | succ n ih =>
    intro bs ss r t h
    cases bs with
    | nil => left; rw [matchLoop_nil_left]
    | cons b bs =>
      cases ss with
      | nil => right; left; rw [matchLoop_nil_right]
      | cons s ss =>
        by_cases hc : s.price ≤ b.price
        · rw [matchLoop_cross sym n bs ss r t hc]
          apply ih
          have := afterTrade_shrinks b s bs ss
          simp only [List.length_cons] at h
          omega
        · right; right
          rw [matchLoop_no_cross sym (n + 1) bs ss r t (not_le.mp hc)]
          exact ⟨b, bs, s, ss, rfl, rfl, not_le.mp hc⟩

/-- Each side after the loop is a tail of the side before it, up to quantities. -/
theorem matchLoop_suffix (sym : String) (fuel : Nat) (bs ss : List Order) (r : String)
    (t : List Trade) :
    (matchLoop sym fuel bs ss r t).buy_orders.map Order.fixedPart <:+ bs.map Order.fixedPart
      ∧ (matchLoop sym fuel bs ss r t).sell_orders.map Order.fixedPart
          <:+ ss.map Order.fixedPart := by
  refine matchLoop_induction sym
    (fun bs ss _ _ st => st.buy_orders.map Order.fixedPart <:+ bs.map Order.fixedPart
      ∧ st.sell_orders.map Order.fixedPart <:+ ss.map Order.fixedPart) ?_ ?_ fuel bs ss r t
  · intro bs ss r t
    exact ⟨List.suffix_rfl, List.suffix_rfl⟩
  · intro b bs s ss r t st _ ih
    exact ⟨ih.1.trans (afterTrade_fixedPart_suffix _ _ _),
      ih.2.trans (afterTrade_fixedPart_suffix _ _ _)⟩

/-- The trade records and the text grow together: the loop appends one record and one line per
trade, each record is the execution of the two top orders it names, and these two cross. -/
theorem matchLoop_trades (sym : String) (fuel : Nat) (bs ss : List Order) (r : String)
    (t : List Trade) :
    ∃ new : List Trade, (matchLoop sym fuel bs ss r t).trades = t ++ new
      ∧ (matchLoop sym fuel bs ss r t).result = r ++ String.join (new.map (tradeText sym))
      ∧ ∀ x ∈ new, x = execution x.buy x.sell ∧ x.sell.price ≤ x.buy.price
          ∧ x.buy.fixedPart ∈ bs.map Order.fixedPart
          ∧ x.sell.fixedPart ∈ ss.map Order.fixedPart := by
  refine matchLoop_induction sym
    (fun bs ss r t st => ∃ new : List Trade, st.trades = t ++ new
      ∧ st.result = r ++ String.join (new.map (tradeText sym))
      ∧ ∀ x ∈ new, x = execution x.buy x.sell ∧ x.sell.price ≤ x.buy.price
          ∧ x.buy.fixedPart ∈ bs.map Order.fixedPart
          ∧ x.sell.fixedPart ∈ ss.map Order.fixedPart) ?_ ?_ fuel bs ss r t
  · intro bs ss r t
    exact ⟨[], by simp, by simp [join_nil], by simp⟩
  · intro b bs s ss r t st hc ih
    obtain ⟨new, h1, h2, h3⟩ := ih
    refine ⟨execution b s :: new, ?_, ?_, ?_⟩
    · rw [h1, List.append_assoc, List.singleton_append]
    · rw [h2, List.map_cons, join_cons, String.append_assoc]
    · intro x hx
      rcases List.mem_cons.mp hx with rfl | hx
      · refine ⟨rfl, hc, ?_, ?_⟩
        · exact List.mem_map_of_mem _ (List.mem_cons_self _ _)
        · exact List.mem_map_of_mem _ (List.mem_cons_self _ _)
      · obtain ⟨e1, e2, e3, e4⟩ := h3 x hx
        exact ⟨e1, e2, (afterTrade_fixedPart_suffix _ _ _).subset e3,
          (afterTrade_fixedPart_suffix _ _ _).subset e4⟩

/-- With strictly positive quantities on both sides the loop leaves strictly positive quantities,
and on each side what rests plus what was traded is unchanged. -/
theorem matchLoop_positive (sym : String) (fuel : Nat) (bs ss : List Order) (r : String)
    (t : List Trade) (hb : ∀ x ∈ bs, PositiveQty x) (hs : ∀ x ∈ ss, PositiveQty x) :
    (∀ x ∈ (matchLoop sym fuel bs ss r t).buy_orders, PositiveQty x)
      ∧ (∀ x ∈ (matchLoop sym fuel bs ss r t).sell_orders, PositiveQty x)
      ∧ totalQuantity (matchLoop sym fuel bs ss r t).buy_orders
          + tradedQuantity (matchLoop sym fuel bs ss r t).trades
          = totalQuantity bs + tradedQuantity t
      ∧ totalQuantity (matchLoop sym fuel bs ss r t).sell_orders
          + tradedQuantity (matchLoop sym fuel bs ss r t).trades
          = totalQuantity ss + tradedQuantity t := by
  refine matchLoop_induction sym
    (fun bs ss _ t st => (∀ x ∈ bs, PositiveQty x) → (∀ x ∈ ss, PositiveQty x) →
      (∀ x ∈ st.buy_orders, PositiveQty x) ∧ (∀ x ∈ st.sell_orders, PositiveQty x)
      ∧ totalQuantity st.buy_orders + tradedQuantity st.trades
          = totalQuantity bs + tradedQuantity t
      ∧ totalQuantity st.sell_orders + tradedQuantity st.trades
          = totalQuantity ss + tradedQuantity t) ?_ ?_ fuel bs ss r t hb hs
  · intro bs ss r t hb hs
    exact ⟨hb, hs, rfl, rfl⟩
  · intro b bs s ss r t st _ ih hb hs
    have pb := hb b (List.mem_cons_self _ _)
    have ps := hs s (List.mem_cons_self _ _)
    have hq : 0 < min b.quantity s.quantity := lt_min pb.1 ps.1
    obtain ⟨ab, tb⟩ := afterTrade_positive pb hq (min_le_left _ _)
      (fun x hx => hb x (List.mem_cons_of_mem _ hx))
    obtain ⟨as, ts⟩ := afterTrade_positive ps hq (min_le_right _ _)
      (fun x hx => hs x (List.mem_cons_of_mem _ hx))
    obtain ⟨i1, i2, i3, i4⟩ := ih ab as
    refine ⟨i1, i2, ?_, ?_⟩
    · rw [i3, ← tb]
      simp only [tradedQuantity, List.map_append, List.sum_append, List.map_cons, List.map_nil,
        List.sum_cons, List.sum_nil, execution]
      omega
    · rw [i4, ← ts]
      simp only [tradedQuantity, List.map_append, List.sum_append, List.map_cons, List.map_nil,
        List.sum_cons, List.sum_nil, execution]
      omega

/-- A book that is not crossed is left as it is. -/
theorem matchLoop_notCrossed (sym : String) (fuel : Nat) (bs ss : List Order) (r : String)
    (t : List Trade) (h : NotCrossed bs ss) :
    matchLoop sym fuel bs ss r t
      = { buy_orders := bs, sell_orders := ss, result := r, trades := t } := by
  cases bs with
  | nil => exact matchLoop_nil_left _ _ _ _ _
  | cons b bs =>
    cases ss with
    | nil => exact matchLoop_nil_right _ _ _ _ _
    | cons s ss =>
      exact matchLoop_no_cross sym fuel bs ss r t
        (h b (List.mem_cons_self _ _) s (List.mem_cons_self _ _))

/-! ## The matching loop: one aggressor against a resting side -/

theorem afterTrade_mem {o : Order} {q : Int} {rest : List Order} {x : Order}
    (h : x ∈ afterTrade o q rest) :
    x ∈ rest ∨ x = { o with quantity := wrapInt32 (o.quantity - q) } := by
  unfold afterTrade at h
  split at h
  · exact Or.inl h
  · rcases List.mem_cons.mp h with rfl | h
    · exact Or.inr rfl
    · exact Or.inl h

theorem notCrossed_afterTrade_right {bs ss : List Order} {s : Order} (q : Int)
    (h : NotCrossed bs (s :: ss)) : NotCrossed bs (afterTrade s q ss) := by
  intro b hb x hx
  rcases afterTrade_mem hx with hx | rfl
  · exact h b hb x (List.mem_cons_of_mem _ hx)
  · exact h b hb s (List.mem_cons_self _ _)

theorem notCrossed_afterTrade_left {bs ss : List Order} {b : Order} (q : Int)
    (h : NotCrossed (b :: bs) ss) : NotCrossed (afterTrade b q bs) ss := by
  intro x hx s hs
  rcases afterTrade_mem hx with hx | rfl
  · exact h x (List.mem_cons_of_mem _ hx) s hs
  · exact h b (List.mem_cons_self _ _) s hs

/-- A bid `o` on top of bids that do not reach the asks: every trade of the loop is between `o`
and the asks taken from the front one after another; each ask but the last one traded is used up;
afterwards `o` is gone or on top of the untouched bids, and the asks are the ones not traded
with, possibly behind what is left of the last one traded. -/
theorem matchLoop_buyAggressor (sym : String) (bs : List Order) :
    ∀ (fuel : Nat) (o : Order) (ss : List Order) (r : String) (t : List Trade),
      NotCrossed bs ss →
      ∃ new : List Trade, (matchLoop sym fuel (o :: bs) ss r t).trades = t ++ new
        ∧ new.map Trade.sell = ss.take new.length
        ∧ new.length ≤ ss.length
        ∧ (∀ x ∈ new, x.buy.fixedPart = o.fixedPart)
        ∧ (∀ x ∈ new.dropLast, x.fillsSell)
        ∧ ((matchLoop sym fuel (o :: bs) ss r t).buy_orders = bs
            ∨ ∃ q, (matchLoop sym fuel (o :: bs) ss r t).buy_orders
                = { o with quantity := q } :: bs)
        ∧ ((matchLoop sym fuel (o :: bs) ss r t).sell_orders = ss.drop new.length
            ∨ ∃ x q m, new.length = m + 1 ∧ ss[m]? = some x
                ∧ (matchLoop sym fuel (o :: bs) ss r t).sell_orders
                    = { x with quantity := q } :: ss.drop (m + 1)) := by
  intro fuel
  induction fuel with
  | zero =>
    intro o ss r t _
    exact ⟨[], by simp [matchLoop], by simp, by simp, by simp, by simp,
      Or.inr ⟨o.quantity, rfl⟩, Or.inl (by simp [matchLoop])⟩
  | succ n ih =>
    intro o ss r t hnc
    cases ss with
    | nil =>
      rw [matchLoop_nil_right]
      exact ⟨[], by simp, by simp, by simp, by simp, by simp, Or.inr ⟨o.quantity, rfl⟩,
        Or.inl (by simp)⟩
    | cons s ss =>
      by_cases hc : s.price ≤ o.price
      · rw [matchLoop_cross sym n bs ss r t hc]
        by_cases hb0 : wrapInt32 (o.quantity - min o.quantity s.quantity) = 0
        · -- the aggressor is used up: the rest of the book is not crossed
          have hbs : afterTrade o (min o.quantity s.quantity) bs = bs := by
            simp [afterTrade, hb0]
          rw [hbs, matchLoop_notCrossed sym n bs _ _ _
            (notCrossed_afterTrade_right (min o.quantity s.quantity) hnc)]
          refine ⟨[execution o s], rfl, by simp [execution], by simp, by simp [execution],
            by simp, Or.inl rfl, ?_⟩
          by_cases hs0 : wrapInt32 (s.quantity - min o.quantity s.quantity) = 0
          · left; simp [afterTrade, hs0]
          · right
            exact ⟨s, wrapInt32 (s.quantity - min o.quantity s.quantity), 0, rfl, by simp,
              by simp [afterTrade, hs0]⟩
        · -- the ask is used up and the aggressor goes on against the next one
          have hs0 : wrapInt32 (s.quantity - min o.quantity s.quantity) = 0 := by
            rcases min_empties_one o.quantity s.quantity with h | h
            · exact absurd h hb0
            · exact h
          have hbs : afterTrade o (min o.quantity s.quantity) bs
              = { o with quantity := wrapInt32 (o.quantity - min o.quantity s.quantity) } :: bs := by
            simp [afterTrade, hb0]
          have hss : afterTrade s (min o.quantity s.quantity) ss = ss := by
            simp [afterTrade, hs0]
          rw [hbs, hss]
          have hnc' : NotCrossed bs ss :=
            fun b hb x hx => hnc b hb x (List.mem_cons_of_mem _ hx)
          obtain ⟨new, h1, h2, h3, h4, h5, h6, h7⟩ :=
            ih { o with quantity := wrapInt32 (o.quantity - min o.quantity s.quantity) } ss
              (r ++ tradeText sym (execution o s)) (t ++ [execution o s]) hnc'
          refine ⟨execution o s :: new, ?_, ?_, ?_, ?_, ?_, ?_, ?_⟩
          · rw [h1, List.append_assoc, List.singleton_append]
          · simp [execution, h2]
          · simp only [List.length_cons]; omega
          · intro x hx
            rcases List.mem_cons.mp hx with rfl | hx
            · rfl
            · exact h4 x hx
          · intro x hx
            cases new with
            | nil => simp at hx
            | cons y ys =>
              rw [List.dropLast_cons₂] at hx
              rcases List.mem_cons.mp hx with rfl | hx
              · exact hs0
              · exact h5 x hx
          · rcases h6 with h6 | ⟨q, h6⟩
            · exact Or.inl h6
            · exact Or.inr ⟨q, h6⟩
          · rcases h7 with h7 | ⟨x, q, m, e1, e2, e3⟩
            · left; rw [h7]; simp
            · right
              refine ⟨x, q, m + 1, by simp [e1], by simp [e2], ?_⟩
              rw [e3]; simp
      · rw [matchLoop_no_cross sym (n + 1) bs ss r t (not_le.mp hc)]
        exact ⟨[], by simp, by simp, by simp, by simp, by simp, Or.inr ⟨o.quantity, rfl⟩,
          Or.inl (by simp)⟩

/-- An ask `o` on top of asks that the bids do not reach: every trade of the loop is between `o`
and the bids taken from the front one after another; each bid but the last one traded is used up;
afterwards `o` is gone or on top of the untouched asks, and the bids are the ones not traded
with, possibly behind what is left of the last one traded. -/
theorem matchLoop_sellAggressor (sym : String) (ss : List Order) :
    ∀ (fuel : Nat) (o : Order) (bs : List Order) (r : String) (t : List Trade),
      NotCrossed bs ss →
      ∃ new : List Trade, (matchLoop sym fuel bs (o :: ss) r t).trades = t ++ new
        ∧ new.map Trade.buy = bs.take new.length
        ∧ new.length ≤ bs.length
        ∧ (∀ x ∈ new, x.sell.fixedPart = o.fixedPart)
        ∧ (∀ x ∈ new.dropLast, x.fillsBuy)
        ∧ ((matchLoop sym fuel bs (o :: ss) r t).sell_orders = ss
            ∨ ∃ q, (matchLoop sym fuel bs (o :: ss) r t).sell_orders
                = { o with quantity := q } :: ss)
        ∧ ((matchLoop sym fuel bs (o :: ss) r t).buy_orders = bs.drop new.length
            ∨ ∃ x q m, new.length = m + 1 ∧ bs[m]? = some x
                ∧ (matchLoop sym fuel bs (o :: ss) r t).buy_orders
                    = { x with quantity := q } :: bs.drop (m + 1)) := by
  intro fuel
  induction fuel with
  | zero =>
    intro o bs r t _
    exact ⟨[], by simp [matchLoop], by simp, by simp, by simp, by simp,
      Or.inr ⟨o.quantity, rfl⟩, Or.inl (by simp [matchLoop])⟩
  | succ n ih =>
    intro o bs r t hnc
    cases bs with
    | nil =>
      rw [matchLoop_nil_left]
      exact ⟨[], by simp, by simp, by simp, by simp, by simp, Or.inr ⟨o.quantity, rfl⟩,
        Or.inl (by simp)⟩
    | cons b bs =>
      by_cases hc : o.price ≤ b.price
      · rw [matchLoop_cross sym n bs ss r t hc]
        by_cases hs0 : wrapInt32 (o.quantity - min b.quantity o.quantity) = 0
        · -- the aggressor is used up: the rest of the book is not crossed
          have hss : afterTrade o (min b.quantity o.quantity) ss = ss := by
            simp [afterTrade, hs0]
          rw [hss, matchLoop_notCrossed sym n _ ss _ _
            (notCrossed_afterTrade_left (min b.quantity o.quantity) hnc)]
          refine ⟨[execution b o], rfl, by simp [execution], by simp, by simp [execution],
            by simp, Or.inl rfl, ?_⟩
          by_cases hb0 : wrapInt32 (b.quantity - min b.quantity o.quantity) = 0
          · left; simp [afterTrade, hb0]
          · right
            exact ⟨b, wrapInt32 (b.quantity - min b.quantity o.quantity), 0, rfl, by simp,
              by simp [afterTrade, hb0]⟩
        · -- the bid is used up and the aggressor goes on against the next one
          have hb0 : wrapInt32 (b.quantity - min b.quantity o.quantity) = 0 := by
            rcases min_empties_one b.quantity o.quantity with h | h
            · exact h
            · exact absurd h hs0
          have hss : afterTrade o (min b.quantity o.quantity) ss
              = { o with quantity := wrapInt32 (o.quantity - min b.quantity o.quantity) } :: ss := by
            simp [afterTrade, hs0]
          have hbs : afterTrade b (min b.quantity o.quantity) bs = bs := by
            simp [afterTrade, hb0]
          rw [hbs, hss]
          have hnc' : NotCrossed bs ss :=
            fun x hx y hy => hnc x (List.mem_cons_of_mem _ hx) y hy
          obtain ⟨new, h1, h2, h3, h4, h5, h6, h7⟩ :=
            ih { o with quantity := wrapInt32 (o.quantity - min b.quantity o.quantity) } bs
              (r ++ tradeText sym (execution b o)) (t ++ [execution b o]) hnc'
          refine ⟨execution b o :: new, ?_, ?_, ?_, ?_, ?_, ?_, ?_⟩
          · rw [h1, List.append_assoc, List.singleton_append]
          · simp [execution, h2]
          · simp only [List.length_cons]; omega
          · intro x hx
            rcases List.mem_cons.mp hx with rfl | hx
            · rfl
            · exact h4 x hx
          · intro x hx
            cases new with
            | nil => simp at hx
            | cons y ys =>
              rw [List.dropLast_cons₂] at hx
              rcases List.mem_cons.mp hx with rfl | hx
              · exact hb0
              · exact h5 x hx
          · rcases h6 with h6 | ⟨q, h6⟩
            · exact Or.inl h6
            · exact Or.inr ⟨q, h6⟩
          · rcases h7 with h7 | ⟨x, q, m, e1, e2, e3⟩
            · left; rw [h7]; simp
            · right
              refine ⟨x, q, m + 1, by simp [e1], by simp [e2], ?_⟩
              rw [e3]; simp
      · rw [matchLoop_no_cross sym (n + 1) bs ss r t (not_le.mp hc)]
        exact ⟨[], by simp, by simp, by simp, by simp, by simp, Or.inr ⟨o.quantity, rfl⟩,
          Or.inl (by simp)⟩

/-! ## `addOrder`: unfolding -/

theorem addOrder_book [StdSort] (b : OrderBook) (o : Order) :
    (b.addOrder o).book = { symbol := b.symbol, buy_orders := (loopOf b o).buy_orders,
                            sell_orders := (loopOf b o).sell_orders } := by
  unfold OrderBook.addOrder OrderBook.matchOrders OrderBook.sortOrders loopOf buysPushed sellsPushed
  cases o.side <;> rfl

theorem addOrder_trades [StdSort] (b : OrderBook) (o : Order) :
    (b.addOrder o).trades = (loopOf b o).trades := by
  unfold OrderBook.addOrder OrderBook.matchOrders OrderBook.sortOrders loopOf buysPushed sellsPushed
  cases o.side <;> rfl

theorem addOrder_report [StdSort] (b : OrderBook) (o : Order) :
    (b.addOrder o).report = admissionLine o ++ (loopOf b o).result := by
  unfold OrderBook.addOrder OrderBook.matchOrders OrderBook.sortOrders loopOf buysPushed sellsPushed
  cases o.side <;> rfl

theorem addOrder_symbol [StdSort] (b : OrderBook) (o : Order) : (b.addOrder o).book.symbol = b.symbol := by
  rw [addOrder_book]

/-! ## Priority order and crossing -/

theorem buyPriority_of_fixedPart_suffix {l l' : List Order}
    (h : l'.map Order.fixedPart <:+ l.map Order.fixedPart) (hs : l.Pairwise BuyPriority) :
    l'.Pairwise BuyPriority := by
  have h1 : (l.map Order.fixedPart).Pairwise BuyPriority :=
    List.pairwise_map.mpr (hs.imp (fun {a b} (hab : BuyPriority a b) => hab))
  have h2 : (l'.map Order.fixedPart).Pairwise BuyPriority := h1.sublist h.sublist
  exact (List.pairwise_map.mp h2).imp (fun {a b} hab => hab)

theorem sellPriority_of_fixedPart_suffix {l l' : List Order}
    (h : l'.map Order.fixedPart <:+ l.map Order.fixedPart) (hs : l.Pairwise SellPriority) :
    l'.Pairwise SellPriority := by
  have h1 : (l.map Order.fixedPart).Pairwise SellPriority :=
    List.pairwise_map.mpr (hs.imp (fun {a b} (hab : SellPriority a b) => hab))
  have h2 : (l'.map Order.fixedPart).Pairwise SellPriority := h1.sublist h.sublist
  exact (List.pairwise_map.mp h2).imp (fun {a b} hab => hab)

theorem buyPriority_price_le {a b : Order} (h : BuyPriority a b) : b.price ≤ a.price := by
  rcases h with h | ⟨h, _⟩
  · exact le_of_lt h
  · exact le_of_eq h.symm

theorem sellPriority_price_le {a b : Order} (h : SellPriority a b) : a.price ≤ b.price := by
  rcases h with h | ⟨h, _⟩
  · exact le_of_lt h
  · exact le_of_eq h

/-- Two sides in priority order whose top orders do not cross are not crossed anywhere. -/
theorem notCrossed_of_tops {buys sells : List Order} (hb : buys.Pairwise BuyPriority)
    (hs : sells.Pairwise SellPriority)
    (h : buys = [] ∨ sells = [] ∨ ∃ b bs' s ss', buys = b :: bs' ∧ sells = s :: ss'
      ∧ b.price < s.price) :
    NotCrossed buys sells := by
  rcases h with h | h | ⟨b, bs', s, ss', e1, e2, hlt⟩
  · subst h; intro x hx; simp at hx
  · subst h; intro x _ y hy; simp at hy
  · subst e1 e2
    intro x hx y hy
    have hx' : x.price ≤ b.price := by
      rcases List.mem_cons.mp hx with rfl | hx
      · exact le_refl _
      · exact buyPriority_price_le ((List.pairwise_cons.mp hb).1 x hx)
    have hy' : s.price ≤ y.price := by
      rcases List.mem_cons.mp hy with rfl | hy
      · exact le_refl _
      · exact sellPriority_price_le ((List.pairwise_cons.mp hs).1 y hy)
    exact lt_of_le_of_lt hx' (lt_of_lt_of_le hlt hy')

/-- After every `addOrder`, whatever the book and the order, both sides are in priority order and
the book is not crossed. -/
theorem addOrder_ordered [StdSort] (b : OrderBook) (o : Order) : (b.addOrder o).book.Ordered := by
  rw [addOrder_book]
  have hsuf := matchLoop_suffix b.symbol
    ((stdSort buyBefore (buysPushed b o)).length + (stdSort sellBefore (sellsPushed b o)).length)
    (stdSort buyBefore (buysPushed b o)) (stdSort sellBefore (sellsPushed b o)) "" []
  have hexit := matchLoop_exit b.symbol
    ((stdSort buyBefore (buysPushed b o)).length + (stdSort sellBefore (sellsPushed b o)).length)
    (stdSort buyBefore (buysPushed b o)) (stdSort sellBefore (sellsPushed b o)) "" [] (le_refl _)
  have hb : (loopOf b o).buy_orders.Pairwise BuyPriority :=
    buyPriority_of_fixedPart_suffix hsuf.1 (stdSort_buy_sorted _)
  have hs : (loopOf b o).sell_orders.Pairwise SellPriority :=
    sellPriority_of_fixedPart_suffix hsuf.2 (stdSort_sell_sorted _)
  exact ⟨hb, hs, notCrossed_of_tops hb hs hexit⟩

theorem new_ordered (sym : String) : (OrderBook.new sym).Ordered := by
  refine ⟨List.Pairwise.nil, List.Pairwise.nil, ?_⟩
  intro x hx
  simp [OrderBook.new] at hx

theorem admitAll_ordered [StdSort] (b : OrderBook) (hb : b.Ordered) (os : List Order) :
    (b.admitAll os).Ordered := by
  induction os generalizing b with
  | nil => exact hb
  | cons o os ih => exact ih _ (addOrder_ordered b o)

/-! ## Quantities through `addOrder` -/

theorem totalQuantity_stdSort [StdSort] (comp : Order → Order → Bool) (l : List Order) :
    totalQuantity (stdSort comp l) = totalQuantity l :=
  ((stdSort_perm comp l).map Order.quantity).sum_eq

theorem totalQuantity_append (l₁ l₂ : List Order) :
    totalQuantity (l₁ ++ l₂) = totalQuantity l₁ + totalQuantity l₂ := by
  simp [totalQuantity]

theorem tradedQuantity_append (l₁ l₂ : List Trade) :
    tradedQuantity (l₁ ++ l₂) = tradedQuantity l₁ + tradedQuantity l₂ := by
  simp [tradedQuantity]

theorem totalQuantity_buysPushed (b : OrderBook) (o : Order) :
    totalQuantity (buysPushed b o)
      = totalQuantity b.buy_orders + totalQuantity (onSide OrderSide.BUY [o]) := by
  unfold buysPushed onSide
  cases h : o.side <;> simp [totalQuantity, h]

theorem totalQuantity_sellsPushed (b : OrderBook) (o : Order) :
    totalQuantity (sellsPushed b o)
      = totalQuantity b.sell_orders + totalQuantity (onSide OrderSide.SELL [o]) := by
  unfold sellsPushed onSide
  cases h : o.side <;> simp [totalQuantity, h]

theorem mem_buysPushed {b : OrderBook} {o x : Order} (h : x ∈ buysPushed b o) :
    x ∈ b.buy_orders ∨ x = o := by
  unfold buysPushed at h
  cases hs : o.side <;> simp [hs] at h <;> tauto

theorem mem_sellsPushed {b : OrderBook} {o x : Order} (h : x ∈ sellsPushed b o) :
    x ∈ b.sell_orders ∨ x = o := by
  unfold sellsPushed at h
  cases hs : o.side <;> simp [hs] at h <;> tauto

/-- Admitting an order of strictly positive quantity into a book of strictly positive quantities
leaves strictly positive quantities, and on each side the resting plus the traded quantity grows
by what was submitted on that side. -/
theorem addOrder_positive [StdSort] (b : OrderBook) (o : Order) (hb : b.Positive) (ho : PositiveQty o) :
    (b.addOrder o).book.Positive
      ∧ totalQuantity (b.addOrder o).book.buy_orders + tradedQuantity (b.addOrder o).trades
          = totalQuantity b.buy_orders + totalQuantity (onSide OrderSide.BUY [o])
      ∧ totalQuantity (b.addOrder o).book.sell_orders + tradedQuantity (b.addOrder o).trades
          = totalQuantity b.sell_orders + totalQuantity (onSide OrderSide.SELL [o]) := by
  have hbuys : ∀ x ∈ stdSort buyBefore (buysPushed b o), PositiveQty x := by
    intro x hx
    rcases mem_buysPushed ((stdSort_perm _ _).mem_iff.mp hx) with h | rfl
    · exact hb.1 x h
    · exact ho
  have hsells : ∀ x ∈ stdSort sellBefore (sellsPushed b o), PositiveQty x := by
    intro x hx
    rcases mem_sellsPushed ((stdSort_perm _ _).mem_iff.mp hx) with h | rfl
    · exact hb.2 x h
    · exact ho
  obtain ⟨h1, h2, h3, h4⟩ := matchLoop_positive b.symbol
    ((stdSort buyBefore (buysPushed b o)).length + (stdSort sellBefore (sellsPushed b o)).length)
    _ _ "" [] hbuys hsells
  rw [addOrder_book, addOrder_trades]
  refine ⟨⟨h1, h2⟩, ?_, ?_⟩
  · show totalQuantity (loopOf b o).buy_orders + tradedQuantity (loopOf b o).trades = _
    unfold loopOf
    rw [h3, totalQuantity_stdSort, totalQuantity_buysPushed]
    simp [tradedQuantity]
  · show totalQuantity (loopOf b o).sell_orders + tradedQuantity (loopOf b o).trades = _
    unfold loopOf
    rw [h4, totalQuantity_stdSort, totalQuantity_sellsPushed]
    simp [tradedQuantity]

theorem totalQuantity_onSide_cons (s : OrderSide) (o : Order) (os : List Order) :
    totalQuantity (onSide s (o :: os))
      = totalQuantity (onSide s [o]) + totalQuantity (onSide s os) := by
  unfold onSide
  by_cases h : o.side = s <;> simp [totalQuantity, List.filter_cons, h]

theorem admitAll_positive [StdSort] (b : OrderBook) (hb : b.Positive) (os : List Order)
    (hos : ∀ o ∈ os, PositiveQty o) :
    (b.admitAll os).Positive
      ∧ totalQuantity (b.admitAll os).buy_orders + tradedQuantity (b.tradesAll os)
          = totalQuantity b.buy_orders + totalQuantity (onSide OrderSide.BUY os)
      ∧ totalQuantity (b.admitAll os).sell_orders + tradedQuantity (b.tradesAll os)
          = totalQuantity b.sell_orders + totalQuantity (onSide OrderSide.SELL os) := by
  induction os generalizing b with
  | nil => exact ⟨hb, by simp [OrderBook.admitAll, OrderBook.tradesAll, onSide, totalQuantity,
      tradedQuantity], by simp [OrderBook.admitAll, OrderBook.tradesAll, onSide, totalQuantity,
      tradedQuantity]⟩
  | cons o os ih =>
    obtain ⟨p1, p2, p3⟩ := addOrder_positive b o hb (hos o (List.mem_cons_self _ _))
    obtain ⟨q1, q2, q3⟩ := ih _ p1 (fun x hx => hos x (List.mem_cons_of_mem _ hx))
    refine ⟨q1, ?_, ?_⟩
    · simp only [OrderBook.admitAll, OrderBook.tradesAll]
      rw [tradedQuantity_append, totalQuantity_onSide_cons]
      omega
    · simp only [OrderBook.admitAll, OrderBook.tradesAll]
      rw [tradedQuantity_append, totalQuantity_onSide_cons]
      omega

theorem new_positive (sym : String) : (OrderBook.new sym).Positive := by
  constructor <;> intro x hx <;> simp [OrderBook.new] at hx

/-! ## Where resting orders come from -/

theorem addOrder_buys_from [StdSort] (b : OrderBook) (o : Order) :
    List.Sublist ((b.addOrder o).book.buy_orders.map Order.fixedPart)
      ((stdSort buyBefore (buysPushed b o)).map Order.fixedPart) := by
  rw [addOrder_book]
  exact (matchLoop_suffix b.symbol _ _ _ "" []).1.sublist

theorem addOrder_sells_from [StdSort] (b : OrderBook) (o : Order) :
    List.Sublist ((b.addOrder o).book.sell_orders.map Order.fixedPart)
      ((stdSort sellBefore (sellsPushed b o)).map Order.fixedPart) := by
  rw [addOrder_book]
  exact (matchLoop_suffix b.symbol _ _ _ "" []).2.sublist

/-- Every order resting after an admission is, up to its quantity, an order that rested before
or the admitted order. -/
theorem addOrder_resting_from [StdSort] (b : OrderBook) (o : Order) :
    ∀ x ∈ (b.addOrder o).book.resting, ∃ y, (y ∈ b.resting ∨ y = o) ∧ x.fixedPart = y.fixedPart := by
  intro x hx
  unfold OrderBook.resting at hx
  rcases List.mem_append.mp hx with hx | hx
  · have h1 := (addOrder_buys_from b o).subset (List.mem_map_of_mem Order.fixedPart hx)
    obtain ⟨y, hy, e⟩ := List.mem_map.mp h1
    rcases mem_buysPushed ((stdSort_perm _ _).mem_iff.mp hy) with h | rfl
    · exact ⟨y, Or.inl (List.mem_append_left _ h), e.symm⟩
    · exact ⟨y, Or.inr rfl, e.symm⟩
  · have h1 := (addOrder_sells_from b o).subset (List.mem_map_of_mem Order.fixedPart hx)
    obtain ⟨y, hy, e⟩ := List.mem_map.mp h1
    rcases mem_sellsPushed ((stdSort_perm _ _).mem_iff.mp hy) with h | rfl
    · exact ⟨y, Or.inl (List.mem_append_right _ h), e.symm⟩
    · exact ⟨y, Or.inr rfl, e.symm⟩

theorem admitAll_resting_from [StdSort] (b : OrderBook) (os : List Order) :
    ∀ x ∈ (b.admitAll os).resting,
      ∃ y, (y ∈ b.resting ∨ y ∈ os) ∧ x.fixedPart = y.fixedPart := by
  induction os generalizing b with
  | nil => intro x hx; exact ⟨x, Or.inl hx, rfl⟩
  | cons o os ih =>
    intro x hx
    obtain ⟨y, hy, e⟩ := ih _ x hx
    rcases hy with hy | hy
    · obtain ⟨z, hz, e2⟩ := addOrder_resting_from b o y hy
      rcases hz with hz | rfl
      · exact ⟨z, Or.inl hz, e.trans e2⟩
      · exact ⟨z, Or.inr (List.mem_cons_self _ _), e.trans e2⟩
    · exact ⟨y, Or.inr (List.mem_cons_of_mem _ hy), e⟩

/-! ## Timestamps of resting orders -/

theorem timestamp_of_fixedPart {a b : Order} (h : a.fixedPart = b.fixedPart) :
    a.timestamp = b.timestamp :=
  show a.fixedPart.timestamp = b.fixedPart.timestamp from congrArg Order.timestamp h

theorem order_id_of_fixedPart {a b : Order} (h : a.fixedPart = b.fixedPart) :
    a.order_id = b.order_id :=
  show a.fixedPart.order_id = b.fixedPart.order_id from congrArg Order.order_id h

theorem map_timestamp_fixedPart (l : List Order) :
    (l.map Order.fixedPart).map Order.timestamp = l.map Order.timestamp := by
  rw [List.map_map]
  rfl

theorem nodup_timestamps_pushed {l : List Order} {o : Order}
    (hl : (l.map Order.timestamp).Nodup) (ho : ∀ x ∈ l, x.timestamp ≠ o.timestamp) :
    ((l ++ [o]).map Order.timestamp).Nodup := by
  rw [List.map_append, List.nodup_append]
  refine ⟨hl, by simp, ?_⟩
  intro t ht ht'
  obtain ⟨x, hx, rfl⟩ := List.mem_map.mp ht
  simp only [List.map_cons, List.map_nil, List.mem_singleton] at ht'
  exact ho x hx ht'

/-- Admitting an order whose timestamp differs from every resting one keeps the timestamps on
each side pairwise distinct. -/
theorem addOrder_distinctTimes [StdSort] (b : OrderBook) (o : Order) (hb : b.DistinctTimes)
    (ho : ∀ x ∈ b.resting, x.timestamp ≠ o.timestamp) : (b.addOrder o).book.DistinctTimes := by
  constructor
  · have h1 := (addOrder_buys_from b o).map Order.timestamp
    rw [map_timestamp_fixedPart, map_timestamp_fixedPart] at h1
    refine List.Nodup.sublist h1 ?_
    rw [((stdSort_perm buyBefore (buysPushed b o)).map Order.timestamp).nodup_iff]
    unfold buysPushed
    cases o.side
    · exact nodup_timestamps_pushed hb.1 (fun x hx => ho x (List.mem_append_left _ hx))
    · exact hb.1
  · have h1 := (addOrder_sells_from b o).map Order.timestamp
    rw [map_timestamp_fixedPart, map_timestamp_fixedPart] at h1
    refine List.Nodup.sublist h1 ?_
    rw [((stdSort_perm sellBefore (sellsPushed b o)).map Order.timestamp).nodup_iff]
    unfold sellsPushed
    cases o.side
    · exact hb.2
    · exact nodup_timestamps_pushed hb.2 (fun x hx => ho x (List.mem_append_right _ hx))

theorem admitAll_distinctTimes [StdSort] (b : OrderBook) (os : List Order) (hb : b.DistinctTimes)
    (hos : (os.map Order.timestamp).Nodup)
    (hfresh : ∀ x ∈ b.resting, ∀ y ∈ os, x.timestamp ≠ y.timestamp) :
    (b.admitAll os).DistinctTimes := by
  induction os generalizing b with
  | nil => exact hb
  | cons o os ih =>
    rw [List.map_cons, List.nodup_cons] at hos
    apply ih
    · exact addOrder_distinctTimes b o hb (fun x hx => hfresh x hx o (List.mem_cons_self _ _))
    · exact hos.2
    · intro x hx y hy
      obtain ⟨z, hz, e⟩ := addOrder_resting_from b o x hx
      have et : x.fixedPart.timestamp = z.fixedPart.timestamp := congrArg Order.timestamp e
      have et' : x.timestamp = z.timestamp := et
      rw [et']
      rcases hz with hz | rfl
      · exact hfresh z hz y (List.mem_cons_of_mem _ hy)
      · intro h
        exact hos.1 (h ▸ List.mem_map_of_mem Order.timestamp hy)

theorem buyStrict_of_distinct {l : List Order} (hs : l.Pairwise BuyPriority)
    (hd : (l.map Order.timestamp).Nodup) : l.Pairwise BuyStrict := by
  have hd' : l.Pairwise (fun a b => a.timestamp ≠ b.timestamp) := List.pairwise_map.mp hd
  refine List.Pairwise.imp₂ ?_ hs hd'
  intro a b h1 h2
  rcases h1 with h | ⟨h, t⟩
  · exact Or.inl h
  · exact Or.inr ⟨h, lt_of_le_of_ne t h2⟩

theorem sellStrict_of_distinct {l : List Order} (hs : l.Pairwise SellPriority)
    (hd : (l.map Order.timestamp).Nodup) : l.Pairwise SellStrict := by
  have hd' : l.Pairwise (fun a b => a.timestamp ≠ b.timestamp) := List.pairwise_map.mp hd
  refine List.Pairwise.imp₂ ?_ hs hd'
  intro a b h1 h2
  rcases h1 with h | ⟨h, t⟩
  · exact Or.inl h
  · exact Or.inr ⟨h, lt_of_le_of_ne t h2⟩

/-! ## An admission into an uncrossed book -/

theorem notCrossed_stdSort [StdSort] {buys sells : List Order} (h : NotCrossed buys sells) :
    NotCrossed (stdSort buyBefore buys) (stdSort sellBefore sells) :=
  fun x hx y hy => h x (mem_stdSort.mp hx) y (mem_stdSort.mp hy)

/-- A bid that reaches no ask of an uncrossed book: the loop makes no trade and leaves both
vectors as `sortOrders` arranged them. -/
theorem loopOf_buy_rests [StdSort] (b : OrderBook) (o : Order)
    (hnc : NotCrossed b.buy_orders b.sell_orders) (hside : o.side = OrderSide.BUY)
    (h : ∀ s ∈ b.sell_orders, o.price < s.price) :
    loopOf b o = { buy_orders := stdSort buyBefore (b.buy_orders ++ [o]),
                   sell_orders := stdSort sellBefore b.sell_orders, result := "", trades := [] } := by
  have e1 : buysPushed b o = b.buy_orders ++ [o] := by simp [buysPushed, hside]
  have e2 : sellsPushed b o = b.sell_orders := by simp [sellsPushed, hside]
  unfold loopOf
  rw [e1, e2]
  apply matchLoop_notCrossed
  intro x hx y hy
  rcases List.mem_append.mp (mem_stdSort.mp hx) with hx | hx
  · exact hnc x hx y (mem_stdSort.mp hy)
  · rw [List.mem_singleton.mp hx]
    exact h y (mem_stdSort.mp hy)

/-- A bid that reaches some ask of an uncrossed book goes to the top of the bids, in front of
some arrangement of the resting bids in priority order, and the loop runs with it as the
aggressor. -/
theorem loopOf_buy_takes [StdSort] (b : OrderBook) (o : Order)
    (hnc : NotCrossed b.buy_orders b.sell_orders) (hside : o.side = OrderSide.BUY)
    (h : ∃ s ∈ b.sell_orders, s.price ≤ o.price) :
    ∃ rest, rest.Perm b.buy_orders ∧ rest.Pairwise BuyPriority
      ∧ stdSort buyBefore (b.buy_orders ++ [o]) = o :: rest
      ∧ loopOf b o = matchLoop b.symbol (b.buy_orders.length + 1 + b.sell_orders.length)
          (o :: rest) (stdSort sellBefore b.sell_orders) "" [] := by
  obtain ⟨s, hs, hc⟩ := h
  have e1 : buysPushed b o = b.buy_orders ++ [o] := by simp [buysPushed, hside]
  have e2 : sellsPushed b o = b.sell_orders := by simp [sellsPushed, hside]
  have hfirst : ∀ x ∈ b.buy_orders, buyBefore o x = true := by
    intro x hx
    have hlt : x.price < o.price := lt_of_lt_of_le (hnc x hx s hs) hc
    simp [buyBefore, ne_of_gt hlt, hlt]
  obtain ⟨rest, e, hp, hsorted⟩ :=
    stdSort_push_top buyBefore buyBefore_strictWeak o b.buy_orders hfirst
  refine ⟨rest, hp, hsorted.imp (fun {a c} hac => (buyBefore_eq_false_iff a c).mp hac), e, ?_⟩
  unfold loopOf
  rw [e1, e2, e, length_stdSort, List.length_cons, hp.length_eq]

/-- An ask that reaches no bid of an uncrossed book: the loop makes no trade and leaves both
vectors as `sortOrders` arranged them. -/
theorem loopOf_sell_rests [StdSort] (b : OrderBook) (o : Order)
    (hnc : NotCrossed b.buy_orders b.sell_orders) (hside : o.side = OrderSide.SELL)
    (h : ∀ x ∈ b.buy_orders, x.price < o.price) :
    loopOf b o = { buy_orders := stdSort buyBefore b.buy_orders,
                   sell_orders := stdSort sellBefore (b.sell_orders ++ [o]),
                   result := "", trades := [] } := by
  have e1 : buysPushed b o = b.buy_orders := by simp [buysPushed, hside]
  have e2 : sellsPushed b o = b.sell_orders ++ [o] := by simp [sellsPushed, hside]
  unfold loopOf
  rw [e1, e2]
  apply matchLoop_notCrossed
  intro x hx y hy
  rcases List.mem_append.mp (mem_stdSort.mp hy) with hy | hy
  · exact hnc x (mem_stdSort.mp hx) y hy
  · rw [List.mem_singleton.mp hy]
    exact h x (mem_stdSort.mp hx)

/-- An ask that reaches some bid of an uncrossed book goes to the top of the asks, in front of
some arrangement of the resting asks in priority order, and the loop runs with it as the
aggressor. -/
theorem loopOf_sell_takes [StdSort] (b : OrderBook) (o : Order)
    (hnc : NotCrossed b.buy_orders b.sell_orders) (hside : o.side = OrderSide.SELL)
    (h : ∃ x ∈ b.buy_orders, o.price ≤ x.price) :
    ∃ rest, rest.Perm b.sell_orders ∧ rest.Pairwise SellPriority
      ∧ stdSort sellBefore (b.sell_orders ++ [o]) = o :: rest
      ∧ loopOf b o = matchLoop b.symbol (b.buy_orders.length + (b.sell_orders.length + 1))
          (stdSort buyBefore b.buy_orders) (o :: rest) "" [] := by
  obtain ⟨t, ht, hc⟩ := h
  have e1 : buysPushed b o = b.buy_orders := by simp [buysPushed, hside]
  have e2 : sellsPushed b o = b.sell_orders ++ [o] := by simp [sellsPushed, hside]
  have hfirst : ∀ x ∈ b.sell_orders, sellBefore o x = true := by
    intro x hx
    have hlt : o.price < x.price := lt_of_le_of_lt hc (hnc t ht x hx)
    simp [sellBefore, ne_of_lt hlt, hlt]
  obtain ⟨rest, e, hp, hsorted⟩ :=
    stdSort_push_top sellBefore sellBefore_strictWeak o b.sell_orders hfirst
  refine ⟨rest, hp, hsorted.imp (fun {a c} hac => (sellBefore_eq_false_iff a c).mp hac), e, ?_⟩
  unfold loopOf
  rw [e1, e2, e, length_stdSort, List.length_cons, hp.length_eq]

theorem notCrossed_of_perm {buys sells buys' sells' : List Order} (h : NotCrossed buys sells)
    (hb : buys'.Perm buys) (hs : sells'.Perm sells) : NotCrossed buys' sells' :=
  fun x hx y hy => h x (hb.mem_iff.mp hx) y (hs.mem_iff.mp hy)

/-- Shape of the admission of a bid into an uncrossed book; the asks are taken in the
arrangement `sortOrders` gives them. -/
theorem addOrder_buy_shape [StdSort] (b : OrderBook) (o : Order)
    (hnc : NotCrossed b.buy_orders b.sell_orders) (hside : o.side = OrderSide.BUY) :
    (b.addOrder o).trades.map Trade.sell
        = (stdSort sellBefore b.sell_orders).take (b.addOrder o).trades.length
      ∧ (∀ x ∈ (b.addOrder o).trades, x.buy.fixedPart = o.fixedPart)
      ∧ (∀ x ∈ (b.addOrder o).trades.dropLast, x.fillsSell)
      ∧ ((∃ rest, rest.Perm b.buy_orders ∧ rest.Pairwise BuyPriority
            ∧ ((b.addOrder o).book.buy_orders = rest
              ∨ ∃ q, (b.addOrder o).book.buy_orders = { o with quantity := q } :: rest))
          ∨ ((b.addOrder o).trades = []
              ∧ (b.addOrder o).book.buy_orders = stdSort buyBefore (b.buy_orders ++ [o])))
      ∧ ((b.addOrder o).book.sell_orders
            = (stdSort sellBefore b.sell_orders).drop (b.addOrder o).trades.length
          ∨ ∃ x q m, (b.addOrder o).trades.length = m + 1
              ∧ (stdSort sellBefore b.sell_orders)[m]? = some x
              ∧ (b.addOrder o).book.sell_orders
                  = { x with quantity := q } :: (stdSort sellBefore b.sell_orders).drop (m + 1)) := by
  rw [addOrder_book, addOrder_trades]
  by_cases h : ∃ s ∈ b.sell_orders, s.price ≤ o.price
  · obtain ⟨rest, hp, hsorted, _, hloop⟩ := loopOf_buy_takes b o hnc hside h
    rw [hloop]
    obtain ⟨new, h1, h2, _, h4, h5, h6, h7⟩ := matchLoop_buyAggressor b.symbol rest
      (b.buy_orders.length + 1 + b.sell_orders.length) o (stdSort sellBefore b.sell_orders) "" []
      (notCrossed_of_perm hnc hp (stdSort_perm _ _))
    rw [List.nil_append] at h1
    rw [h1]
    exact ⟨h2, h4, h5, Or.inl ⟨rest, hp, hsorted, h6⟩, h7⟩
  · have hno : ∀ s ∈ b.sell_orders, o.price < s.price := by
      intro s hs
      by_contra hc
      exact h ⟨s, hs, not_lt.mp hc⟩
    rw [loopOf_buy_rests b o hnc hside hno]
    exact ⟨by simp, by simp, by simp, Or.inr ⟨rfl, rfl⟩, Or.inl (by simp)⟩

/-- Shape of the admission of an ask into an uncrossed book; the bids are taken in the
arrangement `sortOrders` gives them. -/
theorem addOrder_sell_shape [StdSort] (b : OrderBook) (o : Order)
    (hnc : NotCrossed b.buy_orders b.sell_orders) (hside : o.side = OrderSide.SELL) :
    (b.addOrder o).trades.map Trade.buy
        = (stdSort buyBefore b.buy_orders).take (b.addOrder o).trades.length
      ∧ (∀ x ∈ (b.addOrder o).trades, x.sell.fixedPart = o.fixedPart)
      ∧ (∀ x ∈ (b.addOrder o).trades.dropLast, x.fillsBuy)
      ∧ ((∃ rest, rest.Perm b.sell_orders ∧ rest.Pairwise SellPriority
            ∧ ((b.addOrder o).book.sell_orders = rest
              ∨ ∃ q, (b.addOrder o).book.sell_orders = { o with quantity := q } :: rest))
          ∨ ((b.addOrder o).trades = []
              ∧ (b.addOrder o).book.sell_orders = stdSort sellBefore (b.sell_orders ++ [o])))
      ∧ ((b.addOrder o).book.buy_orders
            = (stdSort buyBefore b.buy_orders).drop (b.addOrder o).trades.length
          ∨ ∃ x q m, (b.addOrder o).trades.length = m + 1
              ∧ (stdSort buyBefore b.buy_orders)[m]? = some x
              ∧ (b.addOrder o).book.buy_orders
                  = { x with quantity := q } :: (stdSort buyBefore b.buy_orders).drop (m + 1)) := by
  rw [addOrder_book, addOrder_trades]
  by_cases h : ∃ x ∈ b.buy_orders, o.price ≤ x.price
  · obtain ⟨rest, hp, hsorted, _, hloop⟩ := loopOf_sell_takes b o hnc hside h
    rw [hloop]
    obtain ⟨new, h1, h2, _, h4, h5, h6, h7⟩ := matchLoop_sellAggressor b.symbol rest
      (b.buy_orders.length + (b.sell_orders.length + 1)) o (stdSort buyBefore b.buy_orders) "" []
      (notCrossed_of_perm hnc (stdSort_perm _ _) hp)
    rw [List.nil_append] at h1
    rw [h1]
    exact ⟨h2, h4, h5, Or.inl ⟨rest, hp, hsorted, h6⟩, h7⟩
  · have hno : ∀ x ∈ b.buy_orders, x.price < o.price := by
      intro x hx
      by_contra hc
      exact h ⟨x, hx, not_lt.mp hc⟩
    rw [loopOf_sell_rests b o hnc hside hno]
    exact ⟨by simp, by simp, by simp, Or.inr ⟨rfl, rfl⟩, Or.inl (by simp)⟩

/-- Every trade of an admission is the execution of the two orders it names, these two cross,
and the report is the acknowledgement followed by one line per trade record, in order. -/
theorem addOrder_trades_exec [StdSort] (b : OrderBook) (o : Order) :
    (∀ x ∈ (b.addOrder o).trades, x = execution x.buy x.sell ∧ x.sell.price ≤ x.buy.price)
      ∧ (b.addOrder o).report
          = admissionLine o ++ String.join ((b.addOrder o).trades.map (tradeText b.symbol)) := by
  rw [addOrder_trades, addOrder_report]
  obtain ⟨new, h1, h2, h3⟩ := matchLoop_trades b.symbol
    ((stdSort buyBefore (buysPushed b o)).length + (stdSort sellBefore (sellsPushed b o)).length)
    (stdSort buyBefore (buysPushed b o)) (stdSort sellBefore (sellsPushed b o)) "" []
  rw [List.nil_append] at h1
  rw [String.empty_append] at h2
  unfold loopOf
  rw [h1, h2]
  exact ⟨fun x hx => ⟨(h3 x hx).1, (h3 x hx).2.1⟩, rfl⟩

theorem matchOrders_trades [StdSort] (b : OrderBook) :
    b.matchOrders.trades
      = (matchLoop b.symbol
          ((stdSort buyBefore b.buy_orders).length + (stdSort sellBefore b.sell_orders).length)
          (stdSort buyBefore b.buy_orders) (stdSort sellBefore b.sell_orders) "" []).trades :=
  rfl

theorem execution_price_bounds {b s : Order} (h : s.price ≤ b.price) :
    s.price ≤ (execution b s).price ∧ (execution b s).price ≤ b.price := by
  unfold execution
  by_cases ht : b.timestamp < s.timestamp
  · simp [ht, h]
  · simp [ht, h]

theorem bidsInOrder_of_priority {l : List Order} (h : l.Pairwise BuyPriority) : BidsInOrder l := by
  refine List.Pairwise.imp ?_ h
  rintro a b (h | ⟨h, t⟩)
  · exact ⟨le_of_lt h, fun e => absurd e (ne_of_gt h)⟩
  · exact ⟨le_of_eq h.symm, fun _ => t⟩

theorem asksInOrder_of_priority {l : List Order} (h : l.Pairwise SellPriority) :
    AsksInOrder l := by
  refine List.Pairwise.imp ?_ h
  rintro a b (h | ⟨h, t⟩)
  · exact ⟨le_of_lt h, fun e => absurd e (ne_of_lt h)⟩
  · exact ⟨le_of_eq h, fun _ => t⟩

theorem bidsInStrictOrder_of_strict {l : List Order} (h : l.Pairwise BuyStrict) :
    BidsInStrictOrder l := by
  refine List.Pairwise.imp ?_ h
  rintro a b (h | ⟨h, t⟩)
  · exact ⟨le_of_lt h, fun e => absurd e (ne_of_gt h)⟩
  · exact ⟨le_of_eq h.symm, fun _ => t⟩

theorem asksInStrictOrder_of_strict {l : List Order} (h : l.Pairwise SellStrict) :
    AsksInStrictOrder l := by
  refine List.Pairwise.imp ?_ h
  rintro a b (h | ⟨h, t⟩)
  · exact ⟨le_of_lt h, fun e => absurd e (ne_of_lt h)⟩
  · exact ⟨le_of_eq h, fun _ => t⟩

theorem new_distinctTimes (sym : String) : (OrderBook.new sym).DistinctTimes := by
  constructor <;> simp [OrderBook.new]

/-! ## What is left of an admitted order -/

theorem fixedPart_with_quantity (x : Order) (q : Int) :
    ({ x with quantity := q } : Order).fixedPart = x.fixedPart := rfl

theorem mem_of_getElem? {l : List Order} {m : Nat} {x : Order} (h : l[m]? = some x) : x ∈ l := by
  obtain ⟨hm, e⟩ := List.getElem?_eq_some.mp h
  exact e ▸ List.getElem_mem hm

theorem totalQuantity_perm {l l' : List Order} (h : l.Perm l') :
    totalQuantity l = totalQuantity l' :=
  (h.map Order.quantity).sum_eq

/-- Admitting a bid of positive quantity into an uncrossed book of positive quantities: what is
left of it is its quantity less the traded quantity; if something is left it rests among the
bids with that quantity, and if nothing is left the bids are the bids that rested before, in
some arrangement, and every resting order is one that rested before. -/
theorem addOrder_residual_buy [StdSort] (b : OrderBook) (o : Order)
    (hnc : NotCrossed b.buy_orders b.sell_orders) (hpos : b.Positive)
    (ho : PositiveQty o) (hside : o.side = OrderSide.BUY) :
    0 ≤ o.quantity - tradedQuantity (b.addOrder o).trades
      ∧ (0 < o.quantity - tradedQuantity (b.addOrder o).trades →
          { o with quantity := o.quantity - tradedQuantity (b.addOrder o).trades }
            ∈ (b.addOrder o).book.buy_orders)
      ∧ (o.quantity - tradedQuantity (b.addOrder o).trades = 0 →
          (b.addOrder o).book.buy_orders.Perm b.buy_orders
          ∧ ∀ x ∈ (b.addOrder o).book.resting, ∃ y ∈ b.resting, x.fixedPart = y.fixedPart) := by
  obtain ⟨hp, hcb, hcs⟩ := addOrder_positive b o hpos ho
  have hq : totalQuantity (onSide OrderSide.BUY [o]) = o.quantity := by
    simp [onSide, hside, totalQuantity]
  have hc := hcb
  rw [hq] at hc
  obtain ⟨_, _, _, h4, h5⟩ := addOrder_buy_shape b o hnc hside
  rcases h4 with ⟨rest, hperm, _, h4 | ⟨q, h4⟩⟩ | ⟨ht, h4⟩
  · rw [h4, totalQuantity_perm hperm] at hc
    have hres : o.quantity - tradedQuantity (b.addOrder o).trades = 0 := by omega
    refine ⟨by omega, fun h => absurd h (by omega), fun _ => ⟨h4 ▸ hperm, ?_⟩⟩
    intro x hx
    rcases List.mem_append.mp hx with hx | hx
    · rw [h4] at hx
      exact ⟨x, List.mem_append_left _ (hperm.mem_iff.mp hx), rfl⟩
    · rcases h5 with h5 | ⟨y, q, m, _, e2, e3⟩
      · rw [h5] at hx
        exact ⟨x, List.mem_append_right _ (mem_stdSort.mp (List.mem_of_mem_drop hx)), rfl⟩
      · rw [e3] at hx
        rcases List.mem_cons.mp hx with rfl | hx
        · exact ⟨y, List.mem_append_right _ (mem_stdSort.mp (mem_of_getElem? e2)), rfl⟩
        · exact ⟨x, List.mem_append_right _ (mem_stdSort.mp (List.mem_of_mem_drop hx)), rfl⟩
  · rw [h4] at hc
    have hqpos : 0 < q := (hp.1 _ (by rw [h4]; exact List.mem_cons_self _ _)).1
    simp only [totalQuantity, List.map_cons, List.sum_cons] at hc
    have hrest := totalQuantity_perm hperm
    simp only [totalQuantity] at hrest
    have hres : o.quantity - tradedQuantity (b.addOrder o).trades = q := by omega
    rw [hres]
    exact ⟨le_of_lt hqpos, fun _ => by rw [h4]; exact List.mem_cons_self _ _,
      fun h => absurd h (ne_of_gt hqpos)⟩
  · have hres : o.quantity - tradedQuantity (b.addOrder o).trades = o.quantity := by
      rw [ht]; simp [tradedQuantity]
    rw [hres]
    refine ⟨le_of_lt ho.1, fun _ => ?_, fun h => absurd h (ne_of_gt ho.1)⟩
    rw [h4]
    exact (stdSort_perm _ _).mem_iff.mpr (List.mem_append_right _ (List.mem_singleton_self o))

/-- The same for an ask. -/
theorem addOrder_residual_sell [StdSort] (b : OrderBook) (o : Order)
    (hnc : NotCrossed b.buy_orders b.sell_orders) (hpos : b.Positive) (ho : PositiveQty o)
    (hside : o.side = OrderSide.SELL) :
    0 ≤ o.quantity - tradedQuantity (b.addOrder o).trades
      ∧ (0 < o.quantity - tradedQuantity (b.addOrder o).trades →
          { o with quantity := o.quantity - tradedQuantity (b.addOrder o).trades }
            ∈ (b.addOrder o).book.sell_orders)
      ∧ (o.quantity - tradedQuantity (b.addOrder o).trades = 0 →
          (b.addOrder o).book.sell_orders.Perm b.sell_orders
          ∧ ∀ x ∈ (b.addOrder o).book.resting, ∃ y ∈ b.resting, x.fixedPart = y.fixedPart) := by
  obtain ⟨hp, hcb, hcs⟩ := addOrder_positive b o hpos ho
  have hq : totalQuantity (onSide OrderSide.SELL [o]) = o.quantity := by
    simp [onSide, hside, totalQuantity]
  have hc := hcs
  rw [hq] at hc
  obtain ⟨_, _, _, h4, h5⟩ := addOrder_sell_shape b o hnc hside
  rcases h4 with ⟨rest, hperm, _, h4 | ⟨q, h4⟩⟩ | ⟨ht, h4⟩
  · rw [h4, totalQuantity_perm hperm] at hc
    have hres : o.quantity - tradedQuantity (b.addOrder o).trades = 0 := by omega
    refine ⟨by omega, fun h => absurd h (by omega), fun _ => ⟨h4 ▸ hperm, ?_⟩⟩
    intro x hx
    rcases List.mem_append.mp hx with hx | hx
    · rcases h5 with h5 | ⟨y, q, m, _, e2, e3⟩
      · rw [h5] at hx
        exact ⟨x, List.mem_append_left _ (mem_stdSort.mp (List.mem_of_mem_drop hx)), rfl⟩
      · rw [e3] at hx
        rcases List.mem_cons.mp hx with rfl | hx
        · exact ⟨y, List.mem_append_left _ (mem_stdSort.mp (mem_of_getElem? e2)), rfl⟩
        · exact ⟨x, List.mem_append_left _ (mem_stdSort.mp (List.mem_of_mem_drop hx)), rfl⟩
    · rw [h4] at hx
      exact ⟨x, List.mem_append_right _ (hperm.mem_iff.mp hx), rfl⟩
  · rw [h4] at hc
    have hqpos : 0 < q := (hp.2 _ (by rw [h4]; exact List.mem_cons_self _ _)).1
    simp only [totalQuantity, List.map_cons, List.sum_cons] at hc
    have hrest := totalQuantity_perm hperm
    simp only [totalQuantity] at hrest
    have hres : o.quantity - tradedQuantity (b.addOrder o).trades = q := by omega
    rw [hres]
    exact ⟨le_of_lt hqpos, fun _ => by rw [h4]; exact List.mem_cons_self _ _,
      fun h => absurd h (ne_of_gt hqpos)⟩
  · have hres : o.quantity - tradedQuantity (b.addOrder o).trades = o.quantity := by
      rw [ht]; simp [tradedQuantity]
    rw [hres]
    refine ⟨le_of_lt ho.1, fun _ => ?_, fun h => absurd h (ne_of_gt ho.1)⟩
    rw [h4]
    exact (stdSort_perm _ _).mem_iff.mpr (List.mem_append_right _ (List.mem_singleton_self o))

/-- Both sides at once. -/
theorem addOrder_residual [StdSort] (b : OrderBook) (o : Order)
    (hnc : NotCrossed b.buy_orders b.sell_orders) (hpos : b.Positive) (ho : PositiveQty o) :
    0 ≤ o.quantity - tradedQuantity (b.addOrder o).trades
      ∧ (0 < o.quantity - tradedQuantity (b.addOrder o).trades →
          { o with quantity := o.quantity - tradedQuantity (b.addOrder o).trades }
            ∈ (b.addOrder o).book.side o.side)
      ∧ (o.quantity - tradedQuantity (b.addOrder o).trades = 0 →
          ((b.addOrder o).book.side o.side).Perm (b.side o.side)
          ∧ ∀ x ∈ (b.addOrder o).book.resting, ∃ y ∈ b.resting, x.fixedPart = y.fixedPart) := by
  have hcases : o.side = OrderSide.BUY ∨ o.side = OrderSide.SELL := by
    cases o.side
    · exact Or.inl rfl
    · exact Or.inr rfl
  rcases hcases with hside | hside
  · have h1 : (b.addOrder o).book.side o.side = (b.addOrder o).book.buy_orders := by
      rw [hside]; rfl
    have h2 : b.side o.side = b.buy_orders := by rw [hside]; rfl
    rw [h1, h2]
    exact addOrder_residual_buy b o hnc hpos ho hside
  · have h1 : (b.addOrder o).book.side o.side = (b.addOrder o).book.sell_orders := by
      rw [hside]; rfl
    have h2 : b.side o.side = b.sell_orders := by rw [hside]; rfl
    rw [h1, h2]
    exact addOrder_residual_sell b o hnc hpos ho hside

/-! ## The engine registry -/

theorem submit_books [StdSort] (e : TradingEngine) (r : Request) :
    (e.submit r).engine.order_books
      = storeBook (tryEmplace e.order_books r.symbol) r.symbol
          ((e.bookFor r.symbol).addOrder (e.submit r).order).book := rfl

theorem submit_trades [StdSort] (e : TradingEngine) (r : Request) :
    (e.submit r).trades = ((e.bookFor r.symbol).addOrder (e.submit r).order).trades := rfl

theorem submit_report [StdSort] (e : TradingEngine) (r : Request) :
    (e.submit r).report = ((e.bookFor r.symbol).addOrder (e.submit r).order).report := rfl

theorem submit_order [StdSort] (e : TradingEngine) (r : Request) :
    (e.submit r).order
      = Order.new r.symbol r.side r.price r.quantity e.next_order_id r.now := rfl

theorem mem_tryEmplace {books : List (String × OrderBook)} {symbol : String}
    {kv : String × OrderBook} (h : kv ∈ tryEmplace books symbol) :
    kv ∈ books ∨ kv = (symbol, OrderBook.new symbol) := by
  unfold tryEmplace at h
  split at h
  · exact Or.inl h
  · rcases List.mem_append.mp h with h | h
    · exact Or.inl h
    · exact Or.inr (List.mem_singleton.mp h)

theorem tryEmplace_has_key (books : List (String × OrderBook)) (symbol : String) :
    ∃ kv ∈ tryEmplace books symbol, kv.1 = symbol := by
  unfold tryEmplace
  split
  · rename_i h
    obtain ⟨kv, hkv, hk⟩ := List.any_eq_true.mp h
    exact ⟨kv, hkv, of_decide_eq_true hk⟩
  · exact ⟨(symbol, OrderBook.new symbol), by simp, rfl⟩

theorem bookFor_cases (e : TradingEngine) (symbol : String) :
    e.bookFor symbol = OrderBook.new symbol ∨ ∃ kv ∈ e.order_books, kv.2 = e.bookFor symbol := by
  unfold TradingEngine.bookFor
  cases hf : (tryEmplace e.order_books symbol).find? (fun kv => kv.1 = symbol) with
  | none => left; rfl
  | some kv =>
    rcases mem_tryEmplace (List.mem_of_find?_eq_some hf) with h | h
    · right; exact ⟨kv, h, rfl⟩
    · left; rw [h]; rfl

theorem find_storeBook (symbol : String) (nb : OrderBook) :
    ∀ l : List (String × OrderBook), (∃ kv ∈ l, kv.1 = symbol) →
      ((storeBook l symbol nb).find? (fun kv => kv.1 = symbol)).map Prod.snd = some nb
  | [], h => by obtain ⟨kv, hkv, _⟩ := h; simp at hkv
  | kv :: l, h => by
    by_cases hk : kv.1 = symbol
    · simp [storeBook, List.find?, hk]
    · have hl : ∃ kv' ∈ l, kv'.1 = symbol := by
        obtain ⟨kv', hkv', e⟩ := h
        rcases List.mem_cons.mp hkv' with rfl | hkv'
        · exact absurd e hk
        · exact ⟨kv', hkv', e⟩
      have ih := find_storeBook symbol nb l hl
      simp only [storeBook, List.map_cons, hk, if_false, List.find?, decide_False] at ih ⊢
      exact ih

/-- After a call the book stored under its symbol is the book that admitted the order. -/
theorem submit_findOrderBook [StdSort] (e : TradingEngine) (r : Request) :
    (e.submit r).engine.findOrderBook r.symbol
      = some ((e.bookFor r.symbol).addOrder (e.submit r).order).book := by
  unfold TradingEngine.findOrderBook
  rw [submit_books]
  exact find_storeBook _ _ _ (tryEmplace_has_key _ _)

theorem bookFor_sound (e : TradingEngine) (he : e.Sound) (symbol : String) :
    (e.bookFor symbol).Ordered ∧ (e.bookFor symbol).Positive := by
  rcases bookFor_cases e symbol with h | ⟨kv, hkv, h⟩
  · rw [h]; exact ⟨new_ordered symbol, new_positive symbol⟩
  · rw [← h]; exact he kv hkv

theorem submit_sound [StdSort] (e : TradingEngine) (he : e.Sound) (r : Request) (hr : r.Valid) :
    (e.submit r).engine.Sound := by
  intro kv hkv
  rw [submit_books] at hkv
  unfold storeBook at hkv
  obtain ⟨kv', hkv', rfl⟩ := List.mem_map.mp hkv
  have hb := bookFor_sound e he r.symbol
  split
  · exact ⟨addOrder_ordered _ _, (addOrder_positive _ _ hb.2 ⟨hr.2.1, hr.2.2⟩).1⟩
  · rcases mem_tryEmplace hkv' with h | h
    · exact he kv' h
    · rw [h]; exact ⟨new_ordered _, new_positive _⟩

theorem new_sound : TradingEngine.new.Sound := by
  intro kv hkv
  simp [TradingEngine.new] at hkv

theorem after_sound [StdSort] (reqs : List Request) :
    ∀ e : TradingEngine, e.Sound → (∀ r ∈ reqs, r.Valid) → (e.after reqs).Sound := by
  induction reqs with
  | nil => intro e he _; exact he
  | cons r rest ih =>
    intro e he hv
    exact ih _ (submit_sound e he r (hv r (List.mem_cons_self _ _)))
      (fun x hx => hv x (List.mem_cons_of_mem _ hx))

theorem bookFor_symbol (e : TradingEngine) (he : e.Keyed) (symbol : String) :
    (e.bookFor symbol).symbol = symbol := by
  unfold TradingEngine.bookFor
  cases hf : (tryEmplace e.order_books symbol).find? (fun kv => kv.1 = symbol) with
  | none => rfl
  | some kv =>
    have hk : kv.1 = symbol :=
      of_decide_eq_true
        (List.find?_some (p := fun (kv : String × OrderBook) => decide (kv.1 = symbol)) hf)
    rcases mem_tryEmplace (List.mem_of_find?_eq_some hf) with h | h
    · exact (he kv h).trans hk
    · rw [h]; rfl

theorem submit_keyed [StdSort] (e : TradingEngine) (he : e.Keyed) (r : Request) :
    (e.submit r).engine.Keyed := by
  intro kv hkv
  rw [submit_books] at hkv
  unfold storeBook at hkv
  obtain ⟨kv', hkv', rfl⟩ := List.mem_map.mp hkv
  split
  · rename_i hk
    show ((e.bookFor r.symbol).addOrder (e.submit r).order).book.symbol = kv'.1
    rw [addOrder_symbol, bookFor_symbol e he, hk]
  · rcases mem_tryEmplace hkv' with h | h
    · exact he kv' h
    · rw [h]; rfl

theorem new_keyed : TradingEngine.new.Keyed := by
  intro kv hkv
  simp [TradingEngine.new] at hkv

theorem after_keyed [StdSort] (reqs : List Request) :
    ∀ e : TradingEngine, e.Keyed → (e.after reqs).Keyed := by
  induction reqs with
  | nil => intro e he; exact he
  | cons r rest ih => intro e he; exact ih _ (submit_keyed e he r)

/-! ## The snapshot text -/

theorem displayLoop_eq (l : List Order) :
    ∀ output : String, displayLoop output l = output ++ String.join (l.map orderLine) := by
  induction l with
  | nil => intro output; simp [displayLoop, join_nil]
  | cons o l ih =>
    intro output
    rw [displayLoop, ih, List.map_cons, join_cons, String.append_assoc]

/-- The snapshot: banner, the section of the bids, the section of the asks. -/
theorem displayOrders_eq (b : OrderBook) :
    b.displayOrders
      = "\n=== " ++ b.symbol ++ " Order Book ===\n" ++ "\nBUY ORDERS:\n"
          ++ snapshotSection "  No buy orders\n" b.buy_orders ++ "\nSELL ORDERS:\n"
          ++ snapshotSection "  No sell orders\n" b.sell_orders ++ "\n" := by
  unfold OrderBook.displayOrders snapshotSection
  by_cases hb : b.buy_orders.isEmpty <;> by_cases hs : b.sell_orders.isEmpty <;>
    simp only [hb, hs, if_true, if_false, Bool.false_eq_true, displayLoop_eq, String.append_assoc]

theorem snapshotSection_lists (placeholder : String) {l : List Order} {x : Order} (h : x ∈ l) :
    ∃ pre post, snapshotSection placeholder l = pre ++ orderLine x ++ post := by
  have hne : l.isEmpty = false := by
    cases l with
    | nil => simp at h
    | cons a l => rfl
  obtain ⟨l₁, l₂, rfl⟩ := List.append_of_mem h
  refine ⟨String.join (l₁.map orderLine), String.join (l₂.map orderLine), ?_⟩
  unfold snapshotSection
  rw [hne]
  simp only [Bool.false_eq_true, if_false, List.map_append, List.map_cons, join_append, join_cons,
    String.append_assoc]

/-- Every resting order has its line in the snapshot. -/
theorem displayOrders_lists (b : OrderBook) {x : Order} (h : x ∈ b.resting) :
    ∃ pre post, b.displayOrders = pre ++ orderLine x ++ post := by
  rw [displayOrders_eq]
  rcases List.mem_append.mp h with h | h
  · obtain ⟨pre, post, e⟩ := snapshotSection_lists "  No buy orders\n" h
    rw [e]
    exact ⟨"\n=== " ++ b.symbol ++ " Order Book ===\n" ++ "\nBUY ORDERS:\n" ++ pre,
      post ++ "\nSELL ORDERS:\n" ++ snapshotSection "  No sell orders\n" b.sell_orders ++ "\n",
      by simp only [String.append_assoc]⟩
  · obtain ⟨pre, post, e⟩ := snapshotSection_lists "  No sell orders\n" h
    rw [e]
    exact ⟨"\n=== " ++ b.symbol ++ " Order Book ===\n" ++ "\nBUY ORDERS:\n"
        ++ snapshotSection "  No buy orders\n" b.buy_orders ++ "\nSELL ORDERS:\n" ++ pre,
      post ++ "\n", by simp only [String.append_assoc]⟩

theorem side_subset_resting (b : OrderBook) (s : OrderSide) {x : Order} (h : x ∈ b.side s) :
    x ∈ b.resting := by
  cases s
  · exact List.mem_append_left _ h
  · exact List.mem_append_right _ h

/-! ## Numbers in the text -/

theorem digitChar_isDigit : ∀ d : Nat, d < 10 → (Nat.digitChar d).isDigit = true := by
  decide

theorem toDigitsCore_isDigit :
    ∀ (fuel n : Nat) (ds : List Char), (∀ c ∈ ds, c.isDigit = true) →
      ∀ c ∈ Nat.toDigitsCore 10 fuel n ds, c.isDigit = true := by
  intro fuel
  induction fuel with
  | zero => intro n ds h c hc; exact h c hc
  | succ f ih =>
    intro n ds h c hc
    have hd : ∀ c ∈ Nat.digitChar (n % 10) :: ds, c.isDigit = true := by
      intro c hc
      rcases List.mem_cons.mp hc with rfl | hc
      · exact digitChar_isDigit _ (Nat.mod_lt _ (by decide))
      · exact h c hc
    simp only [Nat.toDigitsCore] at hc
    split at hc
    · exact hd c hc
    · exact ih _ _ hd c hc

/-- The decimal text of a natural number consists of digits only. -/
theorem toString_nat_isDigit (n : Nat) : ∀ c ∈ (toString n).data, c.isDigit = true :=
  toDigitsCore_isDigit (n + 1) n [] (by simp)

/-- A price is printed as an optional minus sign, a natural number, a point and exactly two
digits. -/
theorem fixed2_shape (p : Rat) :
    ∃ (sign : String) (n : Nat) (d₁ d₂ : Char),
      fixed2 p = sign ++ toString n ++ "." ++ String.mk [d₁, d₂]
        ∧ (sign = "" ∨ sign = "-") ∧ (∀ c ∈ (toString n).data, c.isDigit = true)
        ∧ d₁.isDigit = true ∧ d₂.isDigit = true := by
  refine ⟨if p < 0 then "-" else "", hundredths p / 100,
    Nat.digitChar (hundredths p % 100 / 10), Nat.digitChar (hundredths p % 10), rfl, ?_,
    toString_nat_isDigit _, ?_, ?_⟩
  · by_cases h : p < 0
    · right; simp [h]
    · left; simp [h]
  · exact digitChar_isDigit _ (by omega)
  · exact digitChar_isDigit _ (Nat.mod_lt _ (by decide))

/-! ## Order ids -/

theorem submit_order_id [StdSort] (e : TradingEngine) (r : Request) :
    (e.submit r).order.order_id = e.next_order_id := rfl

theorem submit_next_order_id [StdSort] (e : TradingEngine) (r : Request) :
    (e.submit r).engine.next_order_id = wrapInt32 (e.next_order_id + 1) := rfl

theorem wrapInt32_add_succ (c : Int) (k : Nat) :
    wrapInt32 (wrapInt32 (c + 1) + (k : Int)) = wrapInt32 (c + ((k + 1 : Nat) : Int)) := by
  unfold wrapInt32
  push_cast
  omega

/-- The k-th call (counted from 0) is given the id `next_order_id + k`, reduced to an `int`. -/
theorem idsOf_submitAll [StdSort] (reqs : List Request) :
    ∀ e : TradingEngine, InInt32 e.next_order_id →
      idsOf (e.submitAll reqs)
        = (List.range reqs.length).map (fun (k : Nat) => wrapInt32 (e.next_order_id + (k : Int))) := by
  induction reqs with
  | nil => intro e _; rfl
  | cons r rest ih =>
    intro e he
    have h := ih (e.submit r).engine (by rw [submit_next_order_id]; exact wrapInt32_inRange _)
    simp only [idsOf, TradingEngine.submitAll, List.map_cons, List.length_cons] at h ⊢
    rw [h, List.range_succ_eq_map, List.map_cons, List.map_map, submit_order_id,
      submit_next_order_id]
    congr 1
    · simp [wrapInt32_of_inRange he]
    · apply List.map_congr_left
      intro k _
      exact wrapInt32_add_succ _ k

theorem new_next_inRange : InInt32 TradingEngine.new.next_order_id := by
  unfold InInt32 TradingEngine.new
  norm_num

theorem length_alternating (n : Nat) : ∀ now : Int, (alternating now n).length = 2 * n := by
  induction n with
  | zero => intro now; rfl
  | succ n ih => intro now; simp only [alternating, List.length_cons, ih]; omega

theorem submit_report_prefix [StdSort] (e : TradingEngine) (r : Request) :
    ∃ rest, (e.submit r).report = admissionLine (e.submit r).order ++ rest := by
  unfold TradingEngine.submit TradingEngine.addOrder
  simp only
  rw [addOrder_report]
  exact ⟨_, rfl⟩

theorem submitAll_report_prefix [StdSort] (reqs : List Request) :
    ∀ e : TradingEngine, ∀ s ∈ e.submitAll reqs,
      ∃ rest, s.report = admissionLine s.order ++ rest := by
  induction reqs with
  | nil => intro e s hs; simp [TradingEngine.submitAll] at hs
  | cons r rest ih =>
    intro e s hs
    simp only [TradingEngine.submitAll, List.mem_cons] at hs
    rcases hs with rfl | hs
    · exact submit_report_prefix e r
    · exact ih _ s hs

/-! ## Ids of resting orders -/

theorem bookFor_resting (e : TradingEngine) (symbol : String) {x : Order}
    (h : x ∈ (e.bookFor symbol).resting) : ∃ kv ∈ e.order_books, x ∈ kv.2.resting := by
  rcases bookFor_cases e symbol with hb | ⟨kv, hkv, hb⟩
  · rw [hb] at h
    simp [OrderBook.resting, OrderBook.new] at h
  · exact ⟨kv, hkv, hb ▸ h⟩

/-- After a call every resting order carries the id of an order that rested before the call, or
the id given out by the call. -/
theorem submit_resting_ids [StdSort] (e : TradingEngine) (r : Request) :
    ∀ kv ∈ (e.submit r).engine.order_books, ∀ x ∈ kv.2.resting,
      (∃ kv₀ ∈ e.order_books, ∃ y ∈ kv₀.2.resting, x.order_id = y.order_id)
        ∨ x.order_id = e.next_order_id := by
  intro kv hkv x hx
  rw [submit_books] at hkv
  unfold storeBook at hkv
  obtain ⟨kv', hkv', rfl⟩ := List.mem_map.mp hkv
  split at hx
  · obtain ⟨y, hy, e1⟩ := addOrder_resting_from _ _ x hx
    rcases hy with hy | rfl
    · obtain ⟨kv₀, hkv₀, hy'⟩ := bookFor_resting e r.symbol hy
      exact Or.inl ⟨kv₀, hkv₀, y, hy', order_id_of_fixedPart e1⟩
    · exact Or.inr (order_id_of_fixedPart e1)
  · rcases mem_tryEmplace hkv' with h | h
    · exact Or.inl ⟨kv', h, x, hx, rfl⟩
    · rw [h] at hx
      simp [OrderBook.resting, OrderBook.new] at hx

theorem after_resting_ids [StdSort] (reqs : List Request) :
    ∀ e : TradingEngine, ∀ kv ∈ (e.after reqs).order_books, ∀ x ∈ kv.2.resting,
      (∃ kv₀ ∈ e.order_books, ∃ y ∈ kv₀.2.resting, x.order_id = y.order_id)
        ∨ x.order_id ∈ idsOf (e.submitAll reqs) := by
  induction reqs with
  | nil => intro e kv hkv x hx; exact Or.inl ⟨kv, hkv, x, hx, rfl⟩
  | cons r rest ih =>
    intro e kv hkv x hx
    rcases ih (e.submit r).engine kv hkv x hx with ⟨kv₁, hkv₁, y, hy, e1⟩ | h
    · rcases submit_resting_ids e r kv₁ hkv₁ y hy with ⟨kv₀, hkv₀, z, hz, e2⟩ | h2
      · exact Or.inl ⟨kv₀, hkv₀, z, hz, e1.trans e2⟩
      · right
        simp only [idsOf, TradingEngine.submitAll, List.map_cons, List.mem_cons]
        exact Or.inl (e1.trans h2)
    · right
      simp only [idsOf, TradingEngine.submitAll, List.map_cons, List.mem_cons]
      exact Or.inr h

theorem after_next_order_id [StdSort] (reqs : List Request) :
    ∀ e : TradingEngine, InInt32 e.next_order_id →
      (e.after reqs).next_order_id = wrapInt32 (e.next_order_id + (reqs.length : Int)) := by
  induction reqs with
  | nil => intro e he; simp [TradingEngine.after, wrapInt32_of_inRange he]
  | cons r rest ih =>
    intro e _
    rw [TradingEngine.after, ih _ (by rw [submit_next_order_id]; exact wrapInt32_inRange _),
      submit_next_order_id, wrapInt32_add_succ]
    simp

theorem wrapInt32_injOn {a b : Int} (h : wrapInt32 a = wrapInt32 b) (hab : a < b)
    (hd : b - a < 4294967296) : False := by
  unfold wrapInt32 at h
  omega

/-- In an engine reached by fewer than 4294967296 calls, no resting order carries the id the
next call will give out. -/
theorem next_id_fresh [StdSort] (reqs : List Request) (hlen : reqs.length < 4294967296) :
    ∀ kv ∈ (TradingEngine.new.after reqs).order_books, ∀ x ∈ kv.2.resting,
      x.order_id ≠ (TradingEngine.new.after reqs).next_order_id := by
  intro kv hkv x hx hid
  rcases after_resting_ids reqs TradingEngine.new kv hkv x hx with ⟨kv₀, hkv₀, _⟩ | h
  · simp [TradingEngine.new] at hkv₀
  · rw [idsOf_submitAll _ _ new_next_inRange] at h
    obtain ⟨k, hk, e1⟩ := List.mem_map.mp h
    rw [after_next_order_id _ _ new_next_inRange, ← e1] at hid
    have hk' := List.mem_range.mp hk
    exact wrapInt32_injOn hid (by omega) (by omega)

/-! ## Orders that go strictly before a traded one -/

/-- In a vector in priority order, an order that goes strictly before the order at position `k`
stands among the first `k` orders. -/
theorem ahead_mem_take {R S : Order → Order → Prop} (hRS : ∀ a b, R a b → ¬ S b a)
    (hirr : ∀ a, ¬ S a a) :
    ∀ (l : List Order) (k : Nat) (x y : Order), l.Pairwise R → l[k]? = some x → y ∈ l → S y x →
      y ∈ l.take k
  | [], _, _, _, _, _, hy, _ => by simp at hy
  | a :: l, 0, x, y, hs, hx, hy, h => by
    simp only [List.getElem?_cons_zero, Option.some.injEq] at hx
    subst hx
    rcases List.mem_cons.mp hy with rfl | hy
    · exact absurd h (hirr _)
    · exact absurd h (hRS _ _ ((List.pairwise_cons.mp hs).1 y hy))
  | a :: l, k + 1, x, y, hs, hx, hy, h => by
    rw [List.take_succ_cons]
    rcases List.mem_cons.mp hy with rfl | hy
    · exact List.mem_cons_self _ _
    · exact List.mem_cons_of_mem _
        (ahead_mem_take hRS hirr l k x y (List.Pairwise.of_cons hs) (by simpa using hx) hy h)

theorem sellPriority_not_strict (a b : Order) (h : SellPriority a b) : ¬ SellStrict b a := by
  unfold SellPriority at h
  unfold SellStrict
  rintro (h2 | ⟨h2, h3⟩)
  · rcases h with h | ⟨h, _⟩
    · exact absurd h2 (not_lt.mpr (le_of_lt h))
    · rw [h] at h2; exact absurd h2 (lt_irrefl _)
  · rcases h with h | ⟨_, h⟩
    · rw [h2] at h; exact absurd h (lt_irrefl _)
    · omega

theorem buyPriority_not_strict (a b : Order) (h : BuyPriority a b) : ¬ BuyStrict b a := by
  unfold BuyPriority at h
  unfold BuyStrict
  rintro (h2 | ⟨h2, h3⟩)
  · rcases h with h | ⟨h, _⟩
    · exact absurd h2 (not_lt.mpr (le_of_lt h))
    · rw [h] at h2; exact absurd h2 (lt_irrefl _)
  · rcases h with h | ⟨_, h⟩
    · rw [h2] at h; exact absurd h (lt_irrefl _)
    · omega

theorem sellStrict_irrefl (a : Order) : ¬ SellStrict a a := by
  unfold SellStrict
  rintro (h | ⟨_, h⟩)
  · exact absurd h (lt_irrefl _)
  · exact absurd h (lt_irrefl _)

theorem buyStrict_irrefl (a : Order) : ¬ BuyStrict a a := by
  unfold BuyStrict
  rintro (h | ⟨_, h⟩)
  · exact absurd h (lt_irrefl _)
  · exact absurd h (lt_irrefl _)

/-- When the records of the trades name the first orders of a vector in priority order, every
order of the vector that goes strictly before the one named by trade `k` is named by an earlier
trade. -/
theorem ahead_traded_before {R S : Order → Order → Prop} (hRS : ∀ a b, R a b → ¬ S b a)
    (hirr : ∀ a, ¬ S a a) (side : Trade → Order) {l : List Order} {trades : List Trade}
    (hs : l.Pairwise R) (hmap : trades.map side = l.take trades.length) {k : Nat} {t : Trade}
    (hk : trades[k]? = some t) {y : Order} (hy : y ∈ l) (h : S y (side t)) :
    y ∈ (trades.take k).map side := by
  have hlt : k < trades.length := (List.getElem?_eq_some.mp hk).1
  have hx : l[k]? = some (side t) := by
    have h1 : (trades.map side)[k]? = some (side t) := by
      rw [List.getElem?_map, hk]; rfl
    rw [hmap, List.getElem?_take_of_lt hlt] at h1
    exact h1
  have hmem := ahead_mem_take hRS hirr l k (side t) y hs hx hy h
  have e : (trades.take k).map side = l.take k := by
    rw [List.map_take, hmap, List.take_take, min_eq_left (le_of_lt hlt)]
  rw [e]
  exact hmem

/-! ## A run of calls after which the id counter is back at 1 -/

theorem after_append [StdSort] (l₁ l₂ : List Request) :
    ∀ e : TradingEngine, e.after (l₁ ++ l₂) = (e.after l₁).after l₂ := by
  induction l₁ with
  | nil => intro e; rfl
  | cons r rest ih => intro e; exact ih _

theorem stdSort_nil [StdSort] (comp : Order → Order → Bool) : stdSort comp [] = [] :=
  List.perm_nil.mp (stdSort_perm comp [])

theorem stdSort_singleton [StdSort] (comp : Order → Order → Bool) (a : Order) :
    stdSort comp [a] = [a] :=
  List.perm_singleton.mp (stdSort_perm comp [a])

/-- A sorted arrangement of two orders of which the comparator puts the first before the second
is these two orders as they stand. -/
theorem stdSort_pair [StdSort] (comp : Order → Order → Bool) (hsw : StrictWeakOrder comp)
    (a c : Order) (h : comp a c = true) : stdSort comp [a, c] = [a, c] := by
  have hperm : (stdSort comp [a, c]).Perm ([c] ++ [a]) :=
    (stdSort_perm comp [a, c]).trans (List.Perm.swap c a [])
  obtain ⟨rest, e, hp⟩ := sorted_perm_top hperm (StdSort.sorted comp [a, c] hsw)
    (fun x hx => by rw [List.mem_singleton.mp hx]; exact h)
  rw [e, List.perm_singleton.mp hp]

/-- A bid of 1 at 150 admitted into the book that holds the bid at 1 rests in front of it. -/
theorem keptBook_bid [StdSort] (id ts : Int) :
    (keptBook.addOrder (Order.new "AAPL" OrderSide.BUY 150 1 id ts)).book
      = { symbol := "AAPL",
          buy_orders := [Order.new "AAPL" OrderSide.BUY 150 1 id ts, keptBid],
          sell_orders := [] } := by
  rw [addOrder_book, loopOf_buy_rests keptBook _ (by decide) rfl
    (by intro s hs; simp [keptBook] at hs)]
  have h : stdSort buyBefore (keptBook.buy_orders ++ [Order.new "AAPL" OrderSide.BUY 150 1 id ts])
      = [Order.new "AAPL" OrderSide.BUY 150 1 id ts, keptBid] := by
    obtain ⟨rest, e, hp, _⟩ := stdSort_push_top buyBefore buyBefore_strictWeak
      (Order.new "AAPL" OrderSide.BUY 150 1 id ts) keptBook.buy_orders
      (by intro x hx
          rw [show x = keptBid from by simpa [keptBook] using hx]
          simp [buyBefore, keptBid, Order.new])
    rw [e, List.perm_singleton.mp hp]
  simp only [h]
  rw [show keptBook.sell_orders = [] from rfl, stdSort_nil]
  rfl

/-- An ask of 1 at 150 then takes that bid whole, and the book is as it was. -/
theorem keptBook_pair [StdSort] (id ts id' ts' : Int) :
    (({ symbol := "AAPL",
        buy_orders := [Order.new "AAPL" OrderSide.BUY 150 1 id ts, keptBid],
        sell_orders := [] } : OrderBook).addOrder
          (Order.new "AAPL" OrderSide.SELL 150 1 id' ts')).book = keptBook := by
  rw [addOrder_book]
  unfold loopOf
  simp only [buysPushed, sellsPushed, Order.new, List.nil_append]
  rw [stdSort_singleton, stdSort_pair buyBefore buyBefore_strictWeak _ _
    (by simp [buyBefore, keptBid, Order.new])]
  simp only [List.length_cons, List.length_nil, Nat.zero_add, Nat.reduceAdd]
  rw [show (3 : Nat) = 2 + 1 from rfl,
    matchLoop_cross "AAPL" 2
      (b := { symbol := "AAPL", side := OrderSide.BUY, price := 150, quantity := 1,
              order_id := id, timestamp := ts })
      (s := { symbol := "AAPL", side := OrderSide.SELL, price := 150, quantity := 1,
              order_id := id', timestamp := ts' })
      [keptBid] [] "" [] (le_refl _)]
  simp [afterTrade, wrapInt32, matchLoop_nil_right, keptBook, keptBid, Order.new]

theorem submit_single [StdSort] (e : TradingEngine) (r : Request) (B : OrderBook)
    (he : e.order_books = [("AAPL", B)]) (hr : r.symbol = "AAPL") :
    (e.submit r).engine.order_books = [("AAPL", (B.addOrder (e.submit r).order).book)] := by
  rw [submit_books]
  have hb : e.bookFor r.symbol = B := by
    simp [TradingEngine.bookFor, tryEmplace, he, hr]
  rw [hb, he, hr]
  simp [tryEmplace, storeBook]

theorem alternating_valid (n : Nat) : ∀ now : Int, ∀ r ∈ alternating now n, r.Valid := by
  induction n with
  | zero => intro now r hr; simp [alternating] at hr
  | succ k ih =>
    intro now r hr
    simp only [alternating, List.mem_cons] at hr
    rcases hr with rfl | rfl | hr
    · unfold Request.Valid; norm_num
    · unfold Request.Valid; norm_num
    · exact ih _ r hr

theorem alternating_symbol (n : Nat) : ∀ now : Int, ∀ r ∈ alternating now n, r.symbol = "AAPL" := by
  induction n with
  | zero => intro now r hr; simp [alternating] at hr
  | succ k ih =>
    intro now r hr
    simp only [alternating, List.mem_cons] at hr
    rcases hr with rfl | rfl | hr
    · rfl
    · rfl
    · exact ih _ r hr

/-- Bids and asks of 1 at 150 that take each other in turn leave the book that holds the bid at
1 as it was. -/
theorem after_alternating [StdSort] (n : Nat) :
    ∀ (now : Int) (e : TradingEngine), e.order_books = [("AAPL", keptBook)] →
      (e.after (alternating now n)).order_books = [("AAPL", keptBook)] := by
  induction n with
  | zero => intro now e he; exact he
  | succ k ih =>
    intro now e he
    simp only [alternating, TradingEngine.after]
    apply ih
    have h1 := submit_single e
      { symbol := "AAPL", side := OrderSide.BUY, price := 150, quantity := 1, now := now }
      keptBook he rfl
    rw [submit_order, keptBook_bid] at h1
    have h2 := submit_single _
      { symbol := "AAPL", side := OrderSide.SELL, price := 150, quantity := 1, now := now + 1 }
      _ h1 rfl
    rw [submit_order, keptBook_pair] at h2
    exact h2

theorem wrappingRun_valid : ∀ r ∈ wrappingRun, r.Valid := by
  intro r hr
  simp only [wrappingRun, List.mem_cons, List.mem_append, List.not_mem_nil, or_false] at hr
  rcases hr with rfl | hr | rfl
  · unfold Request.Valid; norm_num
  · exact alternating_valid _ _ r hr
  · unfold Request.Valid; norm_num

theorem after_singleton [StdSort] (e : TradingEngine) (r : Request) :
    e.after [r] = (e.submit r).engine := rfl

theorem wrappingRun_length : wrappingRun.length = 4294967296 := by
  unfold wrappingRun
  rw [List.length_cons, List.length_append, length_alternating]
  rfl

/-- The first call of `wrappingRun` on a fresh engine. -/
theorem first_call :
    (TradingEngine.new.submit
        { symbol := "AAPL", side := OrderSide.BUY, price := 1, quantity := 1, now := 0 }).engine
      = { order_books := [("AAPL", keptBook)], next_order_id := 2 } := by
  decide

/-- The engine after the 4294967296 calls of `wrappingRun`: the counter is back at 1 and the
order with id 1 still rests. -/
theorem after_wrappingRun [StdSort] (h1 : (TradingEngine.new.submit
        { symbol := "AAPL", side := OrderSide.BUY, price := 1, quantity := 1, now := 0 }).engine
      = { order_books := [("AAPL", keptBook)], next_order_id := 2 }) :
    TradingEngine.new.after wrappingRun = wrappedEngine := by
  unfold wrappingRun
  rw [TradingEngine.after, after_append, h1]
  have hbooks := after_alternating 2147483647 1
    { order_books := [("AAPL", keptBook)], next_order_id := 2 } rfl
  have hnext := after_next_order_id (alternating 1 2147483647)
    { order_books := [("AAPL", keptBook)], next_order_id := 2 } (by decide)
  rw [length_alternating] at hnext
  have hnext0 : (({ order_books := [("AAPL", keptBook)], next_order_id := 2 } :
      TradingEngine).after (alternating 1 2147483647)).next_order_id = 0 := by
    rw [hnext]
    unfold wrapInt32
    norm_num
  generalize (({ order_books := [("AAPL", keptBook)], next_order_id := 2 } :
      TradingEngine).after (alternating 1 2147483647)) = X at hbooks hnext0 ⊢
  rw [after_singleton]
  have hb := submit_single X
    { symbol := "AAPL", side := OrderSide.BUY, price := 150, quantity := 1, now := 4294967295 }
    keptBook hbooks rfl
  rw [submit_order, keptBook_bid, hnext0] at hb
  have hn := submit_next_order_id X
    { symbol := "AAPL", side := OrderSide.BUY, price := 150, quantity := 1, now := 4294967295 }
  rw [hnext0] at hn
  have hn1 : wrapInt32 (0 + 1) = 1 := by decide
  rw [hn1] at hn
  unfold wrappedEngine
  generalize (X.submit
    { symbol := "AAPL", side := OrderSide.BUY, price := 150, quantity := 1,
      now := 4294967295 }).engine = E at hb hn
  cases E
  simp only at hb hn
  rw [hb, hn]

/-! ## Properties of the specification -/

/-- C1: for every sequence of admissions applied to an initially empty book, after each
`addOrder` (that is, after every initial part of the sequence) the book is not crossed: the bids
are empty, or the asks are empty, or every resting bid is priced strictly below every resting
ask, so the highest bid is strictly below the lowest ask. -/
theorem not_crossed_after_each_admission [StdSort] (sym : String) (orders : List Order) (k : Nat) :
    ((OrderBook.new sym).admitAll (orders.take k)).buy_orders = []
      ∨ ((OrderBook.new sym).admitAll (orders.take k)).sell_orders = []
      ∨ ∀ x ∈ ((OrderBook.new sym).admitAll (orders.take k)).buy_orders,
          ∀ y ∈ ((OrderBook.new sym).admitAll (orders.take k)).sell_orders, x.price < y.price :=
  Or.inr (Or.inr (admitAll_ordered _ (new_ordered sym) (orders.take k)).2.2)

/-- C2: when the timestamps are strictly increasing in admission order, every trade made while
admitting `o` into the book reached by the earlier admissions is between `o` (up to its
remaining quantity) and an order that was resting on the opposite side, and the execution price
is the limit price of that resting order, for a BUY as for a SELL. -/
theorem trade_at_resting_price [StdSort] (sym : String) (earlier : List Order) (o : Order)
    (hseq : ((earlier ++ [o]).map Order.timestamp).Pairwise (· < ·)) :
    ∀ t ∈ (((OrderBook.new sym).admitAll earlier).addOrder o).trades,
      (o.side = OrderSide.BUY → t.buy.fixedPart = o.fixedPart
          ∧ t.sell ∈ ((OrderBook.new sym).admitAll earlier).sell_orders
          ∧ t.price = t.sell.price)
        ∧ (o.side = OrderSide.SELL → t.sell.fixedPart = o.fixedPart
          ∧ t.buy ∈ ((OrderBook.new sym).admitAll earlier).buy_orders
          ∧ t.price = t.buy.price) := by
  intro t ht
  have hord := admitAll_ordered _ (new_ordered sym) earlier
  have hexec := (addOrder_trades_exec ((OrderBook.new sym).admitAll earlier) o).1 t ht
  have hearlier : ∀ x ∈ ((OrderBook.new sym).admitAll earlier).resting,
      x.timestamp < o.timestamp := by
    intro x hx
    obtain ⟨y, hy, e⟩ := admitAll_resting_from (OrderBook.new sym) earlier x hx
    have hy' : y ∈ earlier := by
      rcases hy with hy | hy
      · simp [OrderBook.resting, OrderBook.new] at hy
      · exact hy
    have et : x.fixedPart.timestamp = y.fixedPart.timestamp := congrArg Order.timestamp e
    have et' : x.timestamp = y.timestamp := et
    rw [List.map_append, List.pairwise_append] at hseq
    rw [et']
    exact hseq.2.2 _ (List.mem_map_of_mem _ hy') _ (by simp)
  constructor
  · intro hside
    obtain ⟨h1, h2, _, _, _⟩ := addOrder_buy_shape _ o hord.2.2 hside
    have hmem : t.sell ∈ ((OrderBook.new sym).admitAll earlier).sell_orders := by
      have : t.sell ∈ ((OrderBook.new sym).admitAll earlier |>.addOrder o).trades.map Trade.sell :=
        List.mem_map_of_mem _ ht
      rw [h1] at this
      exact mem_stdSort.mp (List.mem_of_mem_take this)
    refine ⟨h2 t ht, hmem, ?_⟩
    have hts : t.buy.timestamp = o.timestamp := timestamp_of_fixedPart (h2 t ht)
    have hlt := hearlier t.sell (List.mem_append_right _ hmem)
    rw [hexec.1]
    simp only [execution]
    rw [if_neg]
    rw [hts]
    exact not_lt.mpr (le_of_lt hlt)
  · intro hside
    obtain ⟨h1, h2, _, _, _⟩ := addOrder_sell_shape _ o hord.2.2 hside
    have hmem : t.buy ∈ ((OrderBook.new sym).admitAll earlier).buy_orders := by
      have : t.buy ∈ ((OrderBook.new sym).admitAll earlier |>.addOrder o).trades.map Trade.buy :=
        List.mem_map_of_mem _ ht
      rw [h1] at this
      exact mem_stdSort.mp (List.mem_of_mem_take this)
    refine ⟨h2 t ht, hmem, ?_⟩
    have hts : t.sell.timestamp = o.timestamp := timestamp_of_fixedPart (h2 t ht)
    have hlt := hearlier t.buy (List.mem_append_left _ hmem)
    rw [hexec.1]
    simp only [execution]
    rw [if_pos]
    rw [hts]
    exact hlt

/-- Witness for C2: two asks rest, a later bid takes both at their own prices. -/
theorem trade_at_resting_price_witness :
    (([ask 149 40 1 10, ask 150 40 2 11] ++ [bid 151 100 3 12]).map Order.timestamp).Pairwise
        (· < ·)
      ∧ ∀ t ∈ (((OrderBook.new "AAPL").admitAll [ask 149 40 1 10, ask 150 40 2 11]).addOrder
            (bid 151 100 3 12)).trades,
          ((bid 151 100 3 12).side = OrderSide.BUY →
              t.buy.fixedPart = (bid 151 100 3 12).fixedPart
              ∧ t.sell ∈ ((OrderBook.new "AAPL").admitAll
                  [ask 149 40 1 10, ask 150 40 2 11]).sell_orders
              ∧ t.price = t.sell.price)
            ∧ ((bid 151 100 3 12).side = OrderSide.SELL →
              t.sell.fixedPart = (bid 151 100 3 12).fixedPart
              ∧ t.buy ∈ ((OrderBook.new "AAPL").admitAll
                  [ask 149 40 1 10, ask 150 40 2 11]).buy_orders
              ∧ t.price = t.buy.price) :=
  ⟨by decide, trade_at_resting_price "AAPL" [ask 149 40 1 10, ask 150 40 2 11]
    (bid 151 100 3 12) (by decide)⟩

/-- C3: every trade `matchOrders` makes, on any book and whatever the timestamps, is between
orders of the book, a bid `B` and an ask `S`, at a price `p` with `S.price ≤ p ≤ B.price`. -/
theorem trade_price_within_limits [StdSort] (b : OrderBook) :
    ∀ t ∈ b.matchOrders.trades,
      t.buy.fixedPart ∈ b.buy_orders.map Order.fixedPart
        ∧ t.sell.fixedPart ∈ b.sell_orders.map Order.fixedPart
        ∧ t.sell.price ≤ t.price ∧ t.price ≤ t.buy.price := by
  intro t ht
  rw [matchOrders_trades] at ht
  obtain ⟨new, h1, _, h3⟩ := matchLoop_trades b.symbol
    ((stdSort buyBefore b.buy_orders).length + (stdSort sellBefore b.sell_orders).length)
    (stdSort buyBefore b.buy_orders) (stdSort sellBefore b.sell_orders) "" []
  rw [h1, List.nil_append] at ht
  obtain ⟨e, hc, hb, hs⟩ := h3 t ht
  have hbounds := execution_price_bounds hc
  rw [← e] at hbounds
  refine ⟨?_, ?_, hbounds.1, hbounds.2⟩
  · exact ((stdSort_perm buyBefore b.buy_orders).map Order.fixedPart).mem_iff.mp hb
  · exact ((stdSort_perm sellBefore b.sell_orders).map Order.fixedPart).mem_iff.mp hs

/-- Witness for C3: the bid at 150 came first, the trade is made at 150, within 149 and
150. -/
theorem trade_price_within_limits_witness :
    crossedTrade ∈ crossedBook.matchOrders.trades
      ∧ crossedTrade.buy.fixedPart ∈ crossedBook.buy_orders.map Order.fixedPart
      ∧ crossedTrade.sell.fixedPart ∈ crossedBook.sell_orders.map Order.fixedPart
      ∧ crossedTrade.sell.price ≤ crossedTrade.price
      ∧ crossedTrade.price ≤ crossedTrade.buy.price :=
  ⟨by decide, trade_price_within_limits crossedBook crossedTrade (by decide)⟩

/-- C4: when `o` is admitted into the book reached by earlier admissions, the resting orders of
the opposite side are consumed in price-time priority order. The opposite side stands in
priority order, and so does the arrangement `sortOrders` gives it at the start of the admission,
which holds the same orders (orders of equal price and timestamp may change places); the k-th
trade fills the k-th order of that arrangement, so the trade lines follow the priority order;
every trade that is followed by another one used up its resting order; every resting order that
goes strictly before the one a trade fills (better price, or equal price and earlier timestamp)
was filled by an earlier trade, hence completely; and afterwards the orders traded with are gone
from the book, except possibly for what is left of the last one. -/
theorem resting_consumed_in_priority_order [StdSort] (sym : String) (earlier : List Order)
    (o : Order) :
    (o.side = OrderSide.BUY →
        AsksInOrder ((OrderBook.new sym).admitAll earlier).sell_orders
        ∧ AsksInOrder (stdSort sellBefore ((OrderBook.new sym).admitAll earlier).sell_orders)
        ∧ (stdSort sellBefore ((OrderBook.new sym).admitAll earlier).sell_orders).Perm
            ((OrderBook.new sym).admitAll earlier).sell_orders
        ∧ (((OrderBook.new sym).admitAll earlier).addOrder o).trades.map Trade.sell
            = (stdSort sellBefore ((OrderBook.new sym).admitAll earlier).sell_orders).take
                (((OrderBook.new sym).admitAll earlier).addOrder o).trades.length
        ∧ (∀ t ∈ (((OrderBook.new sym).admitAll earlier).addOrder o).trades.dropLast,
            t.fillsSell)
        ∧ (∀ (k : Nat) (t : Trade),
            (((OrderBook.new sym).admitAll earlier).addOrder o).trades[k]? = some t →
            ∀ y ∈ ((OrderBook.new sym).admitAll earlier).sell_orders, SellStrict y t.sell →
              y ∈ ((((OrderBook.new sym).admitAll earlier).addOrder o).trades.take k).map
                    Trade.sell)
        ∧ ((((OrderBook.new sym).admitAll earlier).addOrder o).book.sell_orders
              = (stdSort sellBefore ((OrderBook.new sym).admitAll earlier).sell_orders).drop
                  (((OrderBook.new sym).admitAll earlier).addOrder o).trades.length
            ∨ ∃ x q m, (((OrderBook.new sym).admitAll earlier).addOrder o).trades.length = m + 1
                ∧ (stdSort sellBefore ((OrderBook.new sym).admitAll earlier).sell_orders)[m]?
                    = some x
                ∧ (((OrderBook.new sym).admitAll earlier).addOrder o).book.sell_orders
                    = { x with quantity := q }
                        :: (stdSort sellBefore
                              ((OrderBook.new sym).admitAll earlier).sell_orders).drop (m + 1)))
      ∧ (o.side = OrderSide.SELL →
        BidsInOrder ((OrderBook.new sym).admitAll earlier).buy_orders
        ∧ BidsInOrder (stdSort buyBefore ((OrderBook.new sym).admitAll earlier).buy_orders)
        ∧ (stdSort buyBefore ((OrderBook.new sym).admitAll earlier).buy_orders).Perm
            ((OrderBook.new sym).admitAll earlier).buy_orders
        ∧ (((OrderBook.new sym).admitAll earlier).addOrder o).trades.map Trade.buy
            = (stdSort buyBefore ((OrderBook.new sym).admitAll earlier).buy_orders).take
                (((OrderBook.new sym).admitAll earlier).addOrder o).trades.length
        ∧ (∀ t ∈ (((OrderBook.new sym).admitAll earlier).addOrder o).trades.dropLast,
            t.fillsBuy)
        ∧ (∀ (k : Nat) (t : Trade),
            (((OrderBook.new sym).admitAll earlier).addOrder o).trades[k]? = some t →
            ∀ y ∈ ((OrderBook.new sym).admitAll earlier).buy_orders, BuyStrict y t.buy →
              y ∈ ((((OrderBook.new sym).admitAll earlier).addOrder o).trades.take k).map
                    Trade.buy)
        ∧ ((((OrderBook.new sym).admitAll earlier).addOrder o).book.buy_orders
              = (stdSort buyBefore ((OrderBook.new sym).admitAll earlier).buy_orders).drop
                  (((OrderBook.new sym).admitAll earlier).addOrder o).trades.length
            ∨ ∃ x q m, (((OrderBook.new sym).admitAll earlier).addOrder o).trades.length = m + 1
                ∧ (stdSort buyBefore ((OrderBook.new sym).admitAll earlier).buy_orders)[m]?
                    = some x
                ∧ (((OrderBook.new sym).admitAll earlier).addOrder o).book.buy_orders
                    = { x with quantity := q }
                        :: (stdSort buyBefore
                              ((OrderBook.new sym).admitAll earlier).buy_orders).drop (m + 1))) := by
  have hord := admitAll_ordered _ (new_ordered sym) earlier
  constructor
  · intro hside
    obtain ⟨h1, _, h3, _, h5⟩ := addOrder_buy_shape _ o hord.2.2 hside
    refine ⟨asksInOrder_of_priority hord.2.1, asksInOrder_of_priority (stdSort_sell_sorted _),
      stdSort_perm _ _, h1, h3, ?_, h5⟩
    intro k t hk y hy hstrict
    exact ahead_traded_before sellPriority_not_strict sellStrict_irrefl Trade.sell
      (stdSort_sell_sorted _) h1 hk (mem_stdSort.mpr hy) hstrict
  · intro hside
    obtain ⟨h1, _, h3, _, h5⟩ := addOrder_sell_shape _ o hord.2.2 hside
    refine ⟨bidsInOrder_of_priority hord.1, bidsInOrder_of_priority (stdSort_buy_sorted _),
      stdSort_perm _ _, h1, h3, ?_, h5⟩
    intro k t hk y hy hstrict
    exact ahead_traded_before buyPriority_not_strict buyStrict_irrefl Trade.buy
      (stdSort_buy_sorted _) h1 hk (mem_stdSort.mpr hy) hstrict

/-- Witness for C4: asks of 40 at 149 and of 40 at 150 rest; a bid of 100 at 151 takes the ask at
149 first, then the ask at 150, each of them whole. -/
theorem resting_consumed_in_priority_order_witness :
    (bid 151 100 3 12).side = OrderSide.BUY
      ∧ (AsksInOrder ((OrderBook.new "AAPL").admitAll [ask 149 40 1 10, ask 150 40 2 11]).sell_orders
        ∧ AsksInOrder (stdSort sellBefore ((OrderBook.new "AAPL").admitAll [ask 149 40 1 10, ask 150 40 2 11]).sell_orders)
        ∧ (stdSort sellBefore ((OrderBook.new "AAPL").admitAll [ask 149 40 1 10, ask 150 40 2 11]).sell_orders).Perm
            ((OrderBook.new "AAPL").admitAll [ask 149 40 1 10, ask 150 40 2 11]).sell_orders
        ∧ (((OrderBook.new "AAPL").admitAll [ask 149 40 1 10, ask 150 40 2 11]).addOrder (bid 151 100 3 12)).trades.map Trade.sell
            = (stdSort sellBefore ((OrderBook.new "AAPL").admitAll [ask 149 40 1 10, ask 150 40 2 11]).sell_orders).take
                (((OrderBook.new "AAPL").admitAll [ask 149 40 1 10, ask 150 40 2 11]).addOrder (bid 151 100 3 12)).trades.length
        ∧ (∀ t ∈ (((OrderBook.new "AAPL").admitAll [ask 149 40 1 10, ask 150 40 2 11]).addOrder (bid 151 100 3 12)).trades.dropLast,
            t.fillsSell)
        ∧ (∀ (k : Nat) (t : Trade),
            (((OrderBook.new "AAPL").admitAll [ask 149 40 1 10, ask 150 40 2 11]).addOrder (bid 151 100 3 12)).trades[k]? = some t →
            ∀ y ∈ ((OrderBook.new "AAPL").admitAll [ask 149 40 1 10, ask 150 40 2 11]).sell_orders, SellStrict y t.sell →
              y ∈ ((((OrderBook.new "AAPL").admitAll [ask 149 40 1 10, ask 150 40 2 11]).addOrder (bid 151 100 3 12)).trades.take k).map
                    Trade.sell)
        ∧ ((((OrderBook.new "AAPL").admitAll [ask 149 40 1 10, ask 150 40 2 11]).addOrder (bid 151 100 3 12)).book.sell_orders
              = (stdSort sellBefore ((OrderBook.new "AAPL").admitAll [ask 149 40 1 10, ask 150 40 2 11]).sell_orders).drop
                  (((OrderBook.new "AAPL").admitAll [ask 149 40 1 10, ask 150 40 2 11]).addOrder (bid 151 100 3 12)).trades.length
            ∨ ∃ x q m, (((OrderBook.new "AAPL").admitAll [ask 149 40 1 10, ask 150 40 2 11]).addOrder (bid 151 100 3 12)).trades.length = m + 1
                ∧ (stdSort sellBefore ((OrderBook.new "AAPL").admitAll [ask 149 40 1 10, ask 150 40 2 11]).sell_orders)[m]?
                    = some x
                ∧ (((OrderBook.new "AAPL").admitAll [ask 149 40 1 10, ask 150 40 2 11]).addOrder (bid 151 100 3 12)).book.sell_orders
                    = { x with quantity := q }
                        :: (stdSort sellBefore
                              ((OrderBook.new "AAPL").admitAll [ask 149 40 1 10, ask 150 40 2 11]).sell_orders).drop (m + 1))) :=
  ⟨rfl, (resting_consumed_in_priority_order "AAPL" [ask 149 40 1 10, ask 150 40 2 11]
    (bid 151 100 3 12)).1 rfl⟩

/-- Example for C4: the orders named by the trades of that admission, in the order of the
trades, and the book afterwards. -/
theorem priority_order_example :
    (((OrderBook.new "AAPL").admitAll [ask 150 40 2 11, ask 149 40 1 10]).addOrder
        (bid 151 100 3 12)).trades.map Trade.sell = [ask 149 40 1 10, ask 150 40 2 11]
      ∧ (((OrderBook.new "AAPL").admitAll [ask 150 40 2 11, ask 149 40 1 10]).addOrder
          (bid 151 100 3 12)).book.sell_orders = []
      ∧ (((OrderBook.new "AAPL").admitAll [ask 150 40 2 11, ask 149 40 1 10]).addOrder
          (bid 151 100 3 12)).book.buy_orders = [bid 151 20 3 12] := by
  decide

/-- C5: conservation of quantity. For every sequence of admissions with strictly positive
quantities (each one an `int`, so below 2147483648) to one book, on each side the resting
quantity plus the quantity of all trades made so far equals the quantity submitted on that
side. -/
theorem quantity_conserved [StdSort] (sym : String) (orders : List Order)
    (hpos : ∀ o ∈ orders, PositiveQty o) :
    totalQuantity ((OrderBook.new sym).admitAll orders).buy_orders
        + tradedQuantity ((OrderBook.new sym).tradesAll orders)
        = totalQuantity (onSide OrderSide.BUY orders)
      ∧ totalQuantity ((OrderBook.new sym).admitAll orders).sell_orders
        + tradedQuantity ((OrderBook.new sym).tradesAll orders)
        = totalQuantity (onSide OrderSide.SELL orders) := by
  obtain ⟨_, h2, h3⟩ := admitAll_positive (OrderBook.new sym) (new_positive sym) orders hpos
  constructor
  · rw [h2]; simp [OrderBook.new, totalQuantity]
  · rw [h3]; simp [OrderBook.new, totalQuantity]

/-- Witness for C5: asks of 40 and 40, then a bid of 100 that takes both. -/
theorem quantity_conserved_witness :
    (∀ o ∈ [ask 149 40 1 10, ask 150 40 2 11, bid 151 100 3 12], PositiveQty o)
      ∧ totalQuantity ((OrderBook.new "AAPL").admitAll
            [ask 149 40 1 10, ask 150 40 2 11, bid 151 100 3 12]).buy_orders
          + tradedQuantity ((OrderBook.new "AAPL").tradesAll
            [ask 149 40 1 10, ask 150 40 2 11, bid 151 100 3 12])
          = totalQuantity (onSide OrderSide.BUY
            [ask 149 40 1 10, ask 150 40 2 11, bid 151 100 3 12])
      ∧ totalQuantity ((OrderBook.new "AAPL").admitAll
            [ask 149 40 1 10, ask 150 40 2 11, bid 151 100 3 12]).sell_orders
          + tradedQuantity ((OrderBook.new "AAPL").tradesAll
            [ask 149 40 1 10, ask 150 40 2 11, bid 151 100 3 12])
          = totalQuantity (onSide OrderSide.SELL
            [ask 149 40 1 10, ask 150 40 2 11, bid 151 100 3 12]) :=
  ⟨by decide, quantity_conserved "AAPL" [ask 149 40 1 10, ask 150 40 2 11, bid 151 100 3 12]
    (by decide)⟩

/-- C6: for every sequence of admissions whose quantities are all strictly positive (each one an
`int`, so below 2147483648), every order resting in `buy_orders` or `sell_orders` afterwards has
a strictly positive quantity: no order with quantity 0 is left in the book. -/
theorem resting_quantities_positive [StdSort] (sym : String) (orders : List Order)
    (hpos : ∀ o ∈ orders, PositiveQty o) :
    ∀ x ∈ ((OrderBook.new sym).admitAll orders).buy_orders
        ++ ((OrderBook.new sym).admitAll orders).sell_orders, 0 < x.quantity := by
  obtain ⟨h1, _, _⟩ := admitAll_positive (OrderBook.new sym) (new_positive sym) orders hpos
  intro x hx
  rcases List.mem_append.mp hx with hx | hx
  · exact (h1.1 x hx).1
  · exact (h1.2 x hx).1

/-- Witness for C6: a bid of 100 against an ask of 30 leaves a bid of 70. -/
theorem resting_quantities_positive_witness :
    (∀ o ∈ [ask 151 30 1 10, bid 152 100 2 11], PositiveQty o)
      ∧ ∀ x ∈ ((OrderBook.new "AAPL").admitAll [ask 151 30 1 10, bid 152 100 2 11]).buy_orders
          ++ ((OrderBook.new "AAPL").admitAll [ask 151 30 1 10, bid 152 100 2 11]).sell_orders,
          0 < x.quantity :=
  ⟨by decide, resting_quantities_positive "AAPL" [ask 151 30 1 10, bid 152 100 2 11]
    (by decide)⟩

/-- Counterexample to C7 as stated: two bids at the same price constructed within the same microsecond
rest side by side with equal timestamps, so the bids are not strictly increasing by timestamp
within that price. -/
theorem strict_priority_counterexample :
    ¬ (BidsInStrictOrder ((OrderBook.new "AAPL").admitAll
          [bid 150 50 1 10, bid 150 50 2 10]).buy_orders
        ∧ AsksInStrictOrder ((OrderBook.new "AAPL").admitAll
          [bid 150 50 1 10, bid 150 50 2 10]).sell_orders) := by
  decide

/-- C7 (amended): for any sequence of admissions, afterwards `buy_orders` is weakly decreasing by
price and, within equal price, not decreasing by timestamp; `sell_orders` is weakly increasing
by price and, within equal price, not decreasing by timestamp; and within equal price both are
strictly increasing by timestamp when the timestamps of the admitted orders are pairwise
distinct. -/
theorem priority_order_after_each_admission [StdSort] (sym : String) (orders : List Order) :
    BidsInOrder ((OrderBook.new sym).admitAll orders).buy_orders
      ∧ AsksInOrder ((OrderBook.new sym).admitAll orders).sell_orders
      ∧ ((orders.map Order.timestamp).Nodup →
          BidsInStrictOrder ((OrderBook.new sym).admitAll orders).buy_orders
          ∧ AsksInStrictOrder ((OrderBook.new sym).admitAll orders).sell_orders) := by
  have hord := admitAll_ordered _ (new_ordered sym) orders
  refine ⟨bidsInOrder_of_priority hord.1, asksInOrder_of_priority hord.2.1, ?_⟩
  intro hd
  have hdt := admitAll_distinctTimes (OrderBook.new sym) orders (new_distinctTimes sym) hd
    (by intro x hx; simp [OrderBook.resting, OrderBook.new] at hx)
  exact ⟨bidsInStrictOrder_of_strict (buyStrict_of_distinct hord.1 hdt.1),
    asksInStrictOrder_of_strict (sellStrict_of_distinct hord.2.1 hdt.2)⟩

/-- Witness for C7 (amended): two bids at one price with different timestamps. -/
theorem priority_order_after_each_admission_witness :
    ([bid 150 50 1 10, bid 150 50 2 11].map Order.timestamp).Nodup
      ∧ BidsInStrictOrder ((OrderBook.new "AAPL").admitAll
          [bid 150 50 1 10, bid 150 50 2 11]).buy_orders
      ∧ AsksInStrictOrder ((OrderBook.new "AAPL").admitAll
          [bid 150 50 1 10, bid 150 50 2 11]).sell_orders :=
  ⟨by decide, (priority_order_after_each_admission "AAPL"
    [bid 150 50 1 10, bid 150 50 2 11]).2.2 (by decide)⟩

/-- Counterexample to C8 as stated: `next_order_id` is an `int`. In a run of 2147483648 calls on a fresh
engine (bids and asks that take each other in turn) the last call is given the id -2147483648,
which is not positive. -/
theorem order_ids_counterexample :
    ¬ (∀ id ∈ idsOf (TradingEngine.new.submitAll (alternating 0 1073741824)), 0 < id) := by
  intro h
  have hmem : (-2147483648 : Int)
      ∈ idsOf (TradingEngine.new.submitAll (alternating 0 1073741824)) := by
    rw [idsOf_submitAll _ _ new_next_inRange, length_alternating]
    refine List.mem_map.mpr ⟨2147483647, List.mem_range.mpr (by norm_num), ?_⟩
    show wrapInt32 (1 + ((2147483647 : Nat) : Int)) = -2147483648
    unfold wrapInt32
    norm_num
  exact absurd (h _ hmem) (by norm_num)

/-- C8 (amended): for every run of fewer than 2147483648 `TradingEngine::addOrder` calls made one
after another on a fresh engine, whatever the symbols and sides, the k-th call is given the id
`k` (counting from 1); hence the ids are positive, strictly increasing in call order and
unique, and each report begins with the admission line that shows the id of its order. -/
theorem order_ids_increasing [StdSort] (reqs : List Request) (hlen : reqs.length < 2147483648) :
    idsOf (TradingEngine.new.submitAll reqs)
        = (List.range reqs.length).map (fun (k : Nat) => (k : Int) + 1)
      ∧ (∀ id ∈ idsOf (TradingEngine.new.submitAll reqs), 0 < id)
      ∧ (idsOf (TradingEngine.new.submitAll reqs)).Pairwise (· < ·)
      ∧ (idsOf (TradingEngine.new.submitAll reqs)).Nodup
      ∧ (reqs ≠ [] → (idsOf (TradingEngine.new.submitAll reqs)).head? = some 1)
      ∧ ∀ s ∈ TradingEngine.new.submitAll reqs,
          ∃ rest, s.report = admissionLine s.order ++ rest := by
  have hform : idsOf (TradingEngine.new.submitAll reqs)
      = (List.range reqs.length).map (fun (k : Nat) => (k : Int) + 1) := by
    rw [idsOf_submitAll _ _ new_next_inRange]
    apply List.map_congr_left
    intro k hk
    have hk' := List.mem_range.mp hk
    have : TradingEngine.new.next_order_id = 1 := rfl
    rw [this, add_comm]
    apply wrapInt32_of_inRange
    unfold InInt32
    omega
  have hinc : (idsOf (TradingEngine.new.submitAll reqs)).Pairwise (· < ·) := by
    rw [hform, List.pairwise_map]
    exact (List.pairwise_lt_range reqs.length).imp (fun {a b} h => by omega)
  refine ⟨hform, ?_, hinc, ?_, ?_, submitAll_report_prefix reqs _⟩
  · intro id hid
    rw [hform] at hid
    obtain ⟨k, _, rfl⟩ := List.mem_map.mp hid
    omega
  · exact hinc.imp (fun {a b} h => ne_of_lt h)
  · intro hne
    rw [hform]
    cases reqs with
    | nil => exact absurd rfl hne
    | cons r rest => simp [List.range_succ_eq_map]

/-- Witness for C8 (amended): three calls on two symbols get the ids 1, 2, 3. -/
theorem order_ids_increasing_witness :
    idsOf (TradingEngine.new.submitAll
        [{ symbol := "AAPL", side := OrderSide.BUY, price := 150, quantity := 100, now := 10 },
         { symbol := "MSFT", side := OrderSide.SELL, price := 100, quantity := 100, now := 11 },
         { symbol := "AAPL", side := OrderSide.SELL, price := 149, quantity := 100, now := 12 }])
      = [1, 2, 3] :=
  (order_ids_increasing
    [{ symbol := "AAPL", side := OrderSide.BUY, price := 150, quantity := 100, now := 10 },
     { symbol := "MSFT", side := OrderSide.SELL, price := 100, quantity := 100, now := 11 },
     { symbol := "AAPL", side := OrderSide.SELL, price := 149, quantity := 100, now := 12 }]
    (by decide)).1

/-- Counterexample to C9 as stated: `wrappingRun` is a run of 4294967296 valid calls on a fresh engine
after which the order with id 1 still rests and the `int` counter is back at 1. The next call,
an ask of 1 at 150, is given the id 1 again and trades its full quantity, and the snapshot taken
afterwards lists an order under that id. -/
theorem submit_then_snapshot_counterexample :
    (∀ r ∈ wrappingRun, r.Valid) ∧ closingAsk.Valid
      ∧ ((TradingEngine.new.after wrappingRun).submit closingAsk).report
          = "Order added: SELL 1 AAPL @ $150.00 (Order ID: 1)\nTRADE EXECUTED: 1 AAPL @ $150.00\n"
      ∧ closingAsk.quantity
          - tradedQuantity ((TradingEngine.new.after wrappingRun).submit closingAsk).trades = 0
      ∧ ((TradingEngine.new.after wrappingRun).submit closingAsk).engine.showOrders "AAPL"
          = "\n=== AAPL Order Book ===\n\nBUY ORDERS:\n  Order #1: 1 @ $1.00\n\nSELL ORDERS:\n  No sell orders\n\n" := by
  rw [after_wrappingRun first_call]
  exact ⟨wrappingRun_valid, by decide, by decide!, by decide!, by decide!⟩

/-- C9 (amended): round trip submit, then snapshot. In an engine reached by valid submissions,
after one more valid submission the snapshot of its symbol is the rendering of the book that
admitted the order; the report begins with the admission line of the order, followed by its
trade lines; with `residual` the submitted quantity less the sum of the trade quantities,
`residual` is never negative; when it is positive the order rests on its side with that quantity
under its id and the snapshot contains its line; when it is zero the order is not listed: its
side of the book holds the orders it held before the submission, every listed order is one that
rested before, and, in an engine reached by fewer than 4294967296 calls (the ids being `int`
values), no listed order carries its id. -/
theorem submit_then_snapshot [StdSort] (reqs : List Request) (hvalid : ∀ r ∈ reqs, r.Valid) (r : Request)
    (hr : r.Valid) :
    ∃ book : OrderBook,
      ((TradingEngine.new.after reqs).submit r).engine.findOrderBook r.symbol = some book
      ∧ ((TradingEngine.new.after reqs).submit r).engine.showOrders r.symbol
          = book.displayOrders
      ∧ ((TradingEngine.new.after reqs).submit r).report
          = admissionLine ((TradingEngine.new.after reqs).submit r).order
              ++ String.join
                  (((TradingEngine.new.after reqs).submit r).trades.map (tradeText r.symbol))
      ∧ 0 ≤ r.quantity - tradedQuantity ((TradingEngine.new.after reqs).submit r).trades
      ∧ (0 < r.quantity - tradedQuantity ((TradingEngine.new.after reqs).submit r).trades →
          { ((TradingEngine.new.after reqs).submit r).order with
              quantity := r.quantity
                - tradedQuantity ((TradingEngine.new.after reqs).submit r).trades }
            ∈ book.side r.side
          ∧ ∃ pre post, book.displayOrders
              = pre ++ orderLine
                  { ((TradingEngine.new.after reqs).submit r).order with
                    quantity := r.quantity
                      - tradedQuantity ((TradingEngine.new.after reqs).submit r).trades }
                ++ post)
      ∧ (r.quantity - tradedQuantity ((TradingEngine.new.after reqs).submit r).trades = 0 →
          (book.side r.side).Perm (((TradingEngine.new.after reqs).bookFor r.symbol).side r.side)
          ∧ (∀ x ∈ book.resting,
              ∃ y ∈ ((TradingEngine.new.after reqs).bookFor r.symbol).resting,
                x.fixedPart = y.fixedPart)
          ∧ (reqs.length < 4294967296 →
              ∀ x ∈ book.resting,
                x.order_id ≠ ((TradingEngine.new.after reqs).submit r).order.order_id)) := by
  have he : (TradingEngine.new.after reqs).Sound := after_sound reqs _ new_sound hvalid
  have hk : (TradingEngine.new.after reqs).Keyed := after_keyed reqs _ new_keyed
  have hb := bookFor_sound _ he r.symbol
  have ho : PositiveQty ((TradingEngine.new.after reqs).submit r).order := ⟨hr.2.1, hr.2.2⟩
  obtain ⟨h1, h2, h3⟩ := addOrder_residual ((TradingEngine.new.after reqs).bookFor r.symbol)
    ((TradingEngine.new.after reqs).submit r).order hb.1.2.2 hb.2 ho
  have hrep := (addOrder_trades_exec ((TradingEngine.new.after reqs).bookFor r.symbol)
    ((TradingEngine.new.after reqs).submit r).order).2
  rw [bookFor_symbol _ hk] at hrep
  refine ⟨_, submit_findOrderBook _ r, ?_, hrep, h1, ?_, ?_⟩
  · unfold TradingEngine.showOrders
    rw [submit_findOrderBook]
  · intro hpos
    have hmem := h2 hpos
    exact ⟨hmem, displayOrders_lists _ (side_subset_resting _ _ hmem)⟩
  · intro hzero
    obtain ⟨hsame, hfrom⟩ := h3 hzero
    refine ⟨hsame, hfrom, ?_⟩
    intro hlen x hx
    obtain ⟨y, hy, e1⟩ := hfrom x hx
    obtain ⟨kv, hkv, hy'⟩ := bookFor_resting _ r.symbol hy
    rw [order_id_of_fixedPart e1]
    exact next_id_fresh reqs hlen kv hkv y hy'

/-- Witness for C9 (amended): an ask of 30 rests, a bid of 100 takes it and rests with 70. -/
theorem submit_then_snapshot_witness :
    (∀ r ∈ seedAsk, r.Valid) ∧ takingBid.Valid ∧
    ∃ book : OrderBook,
      ((TradingEngine.new.after seedAsk).submit takingBid).engine.findOrderBook takingBid.symbol = some book
      ∧ ((TradingEngine.new.after seedAsk).submit takingBid).engine.showOrders takingBid.symbol
          = book.displayOrders
      ∧ ((TradingEngine.new.after seedAsk).submit takingBid).report
          = admissionLine ((TradingEngine.new.after seedAsk).submit takingBid).order
              ++ String.join
                  (((TradingEngine.new.after seedAsk).submit takingBid).trades.map (tradeText takingBid.symbol))
      ∧ 0 ≤ takingBid.quantity - tradedQuantity ((TradingEngine.new.after seedAsk).submit takingBid).trades
      ∧ (0 < takingBid.quantity - tradedQuantity ((TradingEngine.new.after seedAsk).submit takingBid).trades →
          { ((TradingEngine.new.after seedAsk).submit takingBid).order with
              quantity := takingBid.quantity
                - tradedQuantity ((TradingEngine.new.after seedAsk).submit takingBid).trades }
            ∈ book.side takingBid.side
          ∧ ∃ pre post, book.displayOrders
              = pre ++ orderLine
                  { ((TradingEngine.new.after seedAsk).submit takingBid).order with
                    quantity := takingBid.quantity
                      - tradedQuantity ((TradingEngine.new.after seedAsk).submit takingBid).trades }
                ++ post)
      ∧ (takingBid.quantity - tradedQuantity ((TradingEngine.new.after seedAsk).submit takingBid).trades = 0 →
          (book.side takingBid.side).Perm
              (((TradingEngine.new.after seedAsk).bookFor takingBid.symbol).side takingBid.side)
          ∧ (∀ x ∈ book.resting,
              ∃ y ∈ ((TradingEngine.new.after seedAsk).bookFor takingBid.symbol).resting,
                x.fixedPart = y.fixedPart)
          ∧ (seedAsk.length < 4294967296 →
              ∀ x ∈ book.resting,
                x.order_id ≠ ((TradingEngine.new.after seedAsk).submit takingBid).order.order_id)) :=
  ⟨by decide, by decide, submit_then_snapshot seedAsk (by decide) takingBid (by decide)⟩

/-- The snapshot text after the bid of 100 took the ask of 30. -/
theorem snapshot_after_partial_fill :
    ((TradingEngine.new.after seedAsk).submit takingBid).engine.showOrders "AAPL"
      = "\n=== AAPL Order Book ===\n\nBUY ORDERS:\n  Order #2: 70 @ $152.00\n\nSELL ORDERS:\n  No sell orders\n\n" := by
  decide!

/-- C10: the text returned by `OrderBook::addOrder`, for any book and order, is the admission
line `Order added: <BUY|SELL> <qty> <symbol> @ $<price> (Order ID: <id>)` with the quantity as
submitted, followed by one line `TRADE EXECUTED: <qty> <symbol> @ $<price>` per trade, in the
order the trades were made, and nothing else; every price is printed as an optional minus sign,
a whole number, a point and exactly two digits. -/
theorem report_format [StdSort] (b : OrderBook) (o : Order) :
    (b.addOrder o).report
        = ("Order added: " ++ sideText o.side ++ " " ++ toString o.quantity ++ " " ++ o.symbol
            ++ " @ $" ++ fixed2 o.price ++ " (Order ID: " ++ toString o.order_id ++ ")\n")
          ++ String.join ((b.addOrder o).trades.map (fun t =>
              "TRADE EXECUTED: " ++ toString t.quantity ++ " " ++ b.symbol ++ " @ $"
                ++ fixed2 t.price ++ "\n"))
      ∧ ∀ p : Rat, ∃ (sign : String) (n : Nat) (d₁ d₂ : Char),
          fixed2 p = sign ++ toString n ++ "." ++ String.mk [d₁, d₂]
            ∧ (sign = "" ∨ sign = "-") ∧ (∀ c ∈ (toString n).data, c.isDigit = true)
            ∧ d₁.isDigit = true ∧ d₂.isDigit = true := by
  refine ⟨?_, fixed2_shape⟩
  rw [(addOrder_trades_exec b o).2]
  congr 1
  have hbuy : ("Order added: BUY " : String) = "Order added: " ++ "BUY" ++ " " := by decide
  have hsell : ("Order added: SELL " : String) = "Order added: " ++ "SELL" ++ " " := by decide
  unfold admissionLine sideText
  cases o.side
  · simp only [hbuy, String.append_assoc]
  · simp only [hsell, String.append_assoc]

/-! ## The snapshot of a book reached by admissions -/

theorem admitAll_symbol [StdSort] (os : List Order) : ∀ b : OrderBook, (b.admitAll os).symbol = b.symbol := by
  induction os with
  | nil => intro b; rfl
  | cons o os ih => intro b; rw [OrderBook.admitAll, ih, addOrder_symbol]

theorem snapshotSection_eq (placeholder : String) (l : List Order) :
    snapshotSection placeholder l
      = if l = [] then placeholder else String.join (l.map orderLine) := by
  cases l <;> simp [snapshotSection]

/-! ## Which symbols have a book -/

theorem findOrderBook_eq_none_iff (e : TradingEngine) (symbol : String) :
    e.findOrderBook symbol = none ↔ ∀ kv ∈ e.order_books, kv.1 ≠ symbol := by
  unfold TradingEngine.findOrderBook
  rw [Option.map_eq_none', List.find?_eq_none]
  constructor
  · intro h kv hkv; simpa using h kv hkv
  · intro h kv hkv; simpa using h kv hkv

theorem submit_keys [StdSort] (e : TradingEngine) (r : Request) (symbol : String) :
    (∃ kv ∈ (e.submit r).engine.order_books, kv.1 = symbol)
      ↔ (∃ kv ∈ e.order_books, kv.1 = symbol) ∨ r.symbol = symbol := by
  rw [submit_books]
  constructor
  · rintro ⟨kv, hkv, hk⟩
    unfold storeBook at hkv
    obtain ⟨kv', hkv', rfl⟩ := List.mem_map.mp hkv
    have hk' : kv'.1 = symbol := by
      split at hk
      · exact hk
      · exact hk
    rcases mem_tryEmplace hkv' with h | h
    · exact Or.inl ⟨kv', h, hk'⟩
    · right; rw [h] at hk'; exact hk'
  · intro h
    have hsub : ∀ kv ∈ tryEmplace e.order_books r.symbol, kv.1 = symbol →
        ∃ kv' ∈ storeBook (tryEmplace e.order_books r.symbol) r.symbol
            ((e.bookFor r.symbol).addOrder (e.submit r).order).book, kv'.1 = symbol := by
      intro kv hkv hk
      refine ⟨_, List.mem_map_of_mem _ hkv, ?_⟩
      split
      · exact hk
      · exact hk
    rcases h with ⟨kv, hkv, hk⟩ | h
    · apply hsub kv _ hk
      unfold tryEmplace
      split
      · exact hkv
      · exact List.mem_append_left _ hkv
    · obtain ⟨kv, hkv, hk⟩ := tryEmplace_has_key e.order_books r.symbol
      exact hsub kv hkv (hk.trans h)

theorem after_keys [StdSort] (reqs : List Request) (symbol : String) :
    ∀ e : TradingEngine, (∃ kv ∈ (e.after reqs).order_books, kv.1 = symbol)
      ↔ (∃ kv ∈ e.order_books, kv.1 = symbol) ∨ ∃ r ∈ reqs, r.symbol = symbol := by
  induction reqs with
  | nil => intro e; simp [TradingEngine.after]
  | cons r rest ih =>
    intro e
    rw [TradingEngine.after, ih, submit_keys]
    constructor
    · rintro ((h | h) | ⟨x, hx, h⟩)
      · exact Or.inl h
      · exact Or.inr ⟨r, List.mem_cons_self _ _, h⟩
      · exact Or.inr ⟨x, List.mem_cons_of_mem _ hx, h⟩
    · rintro (h | ⟨x, hx, h⟩)
      · exact Or.inl (Or.inl h)
      · rcases List.mem_cons.mp hx with rfl | hx
        · exact Or.inl (Or.inr h)
        · exact Or.inr ⟨x, hx, h⟩

/-- In an engine reached from a fresh one, a symbol has a book exactly when some call named
it. -/
theorem findOrderBook_after_new [StdSort] (reqs : List Request) (symbol : String) :
    (TradingEngine.new.after reqs).findOrderBook symbol = none
      ↔ ∀ r ∈ reqs, r.symbol ≠ symbol := by
  rw [findOrderBook_eq_none_iff]
  have h := after_keys reqs symbol TradingEngine.new
  have hnew : ¬ ∃ kv ∈ TradingEngine.new.order_books, kv.1 = symbol := by
    simp [TradingEngine.new]
  constructor
  · intro hall r hr he
    obtain ⟨kv, hkv, hk⟩ := h.mpr (Or.inr ⟨r, hr, he⟩)
    exact hall kv hkv hk
  · intro hall kv hkv hk
    rcases h.mp ⟨kv, hkv, hk⟩ with h1 | ⟨r, hr, he⟩
    · exact hnew h1
    · exact hall r hr he

theorem displayOrders_head (b : OrderBook) : b.displayOrders.data.head? = some '\n' := by
  rw [displayOrders_eq]
  simp only [String.append_assoc, String.data_append]
  rfl

theorem notFound_head (symbol : String) :
    ("No orders found for symbol: " ++ symbol ++ "\n").data.head? = some 'N' := by
  simp only [String.append_assoc, String.data_append]
  rfl

theorem displayOrders_ne_notFound (b : OrderBook) (symbol : String) :
    b.displayOrders ≠ "No orders found for symbol: " ++ symbol ++ "\n" := by
  intro h
  have h1 := displayOrders_head b
  rw [h, notFound_head] at h1
  exact absurd h1 (by decide)

/-! ## Calls that only read the engine -/

theorem showOrdersCall_fst (e : TradingEngine) (symbol : String) :
    (e.showOrdersCall symbol).1 = e.showOrders symbol := by
  unfold TradingEngine.showOrdersCall TradingEngine.showOrders
  cases e.findOrderBook symbol <;> rfl

theorem showOrdersCall_snd (e : TradingEngine) (symbol : String) :
    (e.showOrdersCall symbol).2 = e := by
  unfold TradingEngine.showOrdersCall
  cases e.findOrderBook symbol <;> rfl

theorem showAll_eq (symbols : List String) :
    ∀ e : TradingEngine, e.showAll symbols = (symbols.map e.showOrders, e) := by
  induction symbols with
  | nil => intro e; rfl
  | cons symbol rest ih =>
    intro e
    simp only [TradingEngine.showAll, showOrdersCall_snd, showOrdersCall_fst, ih, List.map_cons]

/-! ## Books of other symbols -/

theorem find_storeBook_other {symbol other : String} (h : other ≠ symbol) (nb : OrderBook) :
    ∀ l : List (String × OrderBook),
      (storeBook l symbol nb).find? (fun kv => kv.1 = other) = l.find? (fun kv => kv.1 = other)
  | [] => rfl
  | kv :: l => by
    have ih := find_storeBook_other h nb l
    unfold storeBook at ih ⊢
    by_cases hk : kv.1 = symbol
    · have hne : ¬ kv.1 = other := fun e => h (e.symm.trans hk)
      simp only [List.map_cons, hk, if_true, List.find?_cons]
      have hne' : ¬ symbol = other := fun e => h e.symm
      simp only [hne', decide_False, hk ▸ hne]
      rw [← hk] at ih ⊢
      simpa [hne] using ih
    · simp only [List.map_cons, hk, if_false, List.find?_cons]
      rw [ih]

theorem find_tryEmplace_other {symbol other : String} (h : other ≠ symbol)
    (l : List (String × OrderBook)) :
    (tryEmplace l symbol).find? (fun kv => kv.1 = other) = l.find? (fun kv => kv.1 = other) := by
  unfold tryEmplace
  split
  · rfl
  · have hne : ¬ symbol = other := fun e => h e.symm
    simp [List.find?_append, hne]

/-- A call for one symbol leaves the book found under any other symbol as it was. -/
theorem submit_findOrderBook_other [StdSort] (e : TradingEngine) (r : Request) {other : String}
    (h : other ≠ r.symbol) :
    (e.submit r).engine.findOrderBook other = e.findOrderBook other := by
  unfold TradingEngine.findOrderBook
  rw [submit_books, find_storeBook_other h, find_tryEmplace_other h]

theorem symbol_of_fixedPart {a b : Order} (h : a.fixedPart = b.fixedPart) :
    a.symbol = b.symbol :=
  show a.fixedPart.symbol = b.fixedPart.symbol from congrArg Order.symbol h

theorem bookFor_homed (e : TradingEngine) (he : e.Homed) (symbol : String) :
    ∀ x ∈ (e.bookFor symbol).resting, x.symbol = symbol := by
  unfold TradingEngine.bookFor
  cases hf : (tryEmplace e.order_books symbol).find? (fun kv => kv.1 = symbol) with
  | none => intro x hx; simp [OrderBook.resting, OrderBook.new] at hx
  | some kv =>
    have hk : kv.1 = symbol :=
      of_decide_eq_true
        (List.find?_some (p := fun (kv : String × OrderBook) => decide (kv.1 = symbol)) hf)
    intro x hx
    rcases mem_tryEmplace (List.mem_of_find?_eq_some hf) with h | h
    · exact (he kv h x hx).trans hk
    · rw [h] at hx
      simp [OrderBook.resting, OrderBook.new] at hx

theorem submit_homed [StdSort] (e : TradingEngine) (he : e.Homed) (r : Request) :
    (e.submit r).engine.Homed := by
  intro kv hkv x hx
  rw [submit_books] at hkv
  unfold storeBook at hkv
  obtain ⟨kv', hkv', rfl⟩ := List.mem_map.mp hkv
  split at hx
  · rename_i hk
    obtain ⟨y, hy, e1⟩ := addOrder_resting_from _ _ x hx
    have hs : y.symbol = r.symbol := by
      rcases hy with hy | rfl
      · exact bookFor_homed e he r.symbol y hy
      · rfl
    simp only [hk, if_true]
    rw [symbol_of_fixedPart e1, hs]
  · rename_i hk
    simp only [hk, if_false]
    rcases mem_tryEmplace hkv' with h | h
    · exact he kv' h x hx
    · rw [h] at hx
      simp [OrderBook.resting, OrderBook.new] at hx

theorem new_homed : TradingEngine.new.Homed := by
  intro kv hkv
  simp [TradingEngine.new] at hkv

theorem after_homed [StdSort] (reqs : List Request) :
    ∀ e : TradingEngine, e.Homed → (e.after reqs).Homed := by
  induction reqs with
  | nil => intro e he; exact he
  | cons r rest ih => intro e he; exact ih _ (submit_homed e he r)

/-- Both orders of every trade of an admission are, up to their quantity, orders that rested in
the book or the admitted order. -/
theorem addOrder_trades_from [StdSort] (b : OrderBook) (o : Order) :
    ∀ t ∈ (b.addOrder o).trades,
      (∃ y, (y ∈ b.resting ∨ y = o) ∧ t.buy.fixedPart = y.fixedPart)
        ∧ (∃ y, (y ∈ b.resting ∨ y = o) ∧ t.sell.fixedPart = y.fixedPart) := by
  intro t ht
  rw [addOrder_trades] at ht
  obtain ⟨new, h1, _, h3⟩ := matchLoop_trades b.symbol
    ((stdSort buyBefore (buysPushed b o)).length + (stdSort sellBefore (sellsPushed b o)).length)
    (stdSort buyBefore (buysPushed b o)) (stdSort sellBefore (sellsPushed b o)) "" []
  unfold loopOf at ht
  rw [h1, List.nil_append] at ht
  obtain ⟨_, _, hb, hs⟩ := h3 t ht
  constructor
  · obtain ⟨y, hy, e1⟩ := List.mem_map.mp hb
    rcases mem_buysPushed ((stdSort_perm _ _).mem_iff.mp hy) with h | rfl
    · exact ⟨y, Or.inl (List.mem_append_left _ h), e1.symm⟩
    · exact ⟨y, Or.inr rfl, e1.symm⟩
  · obtain ⟨y, hy, e1⟩ := List.mem_map.mp hs
    rcases mem_sellsPushed ((stdSort_perm _ _).mem_iff.mp hy) with h | rfl
    · exact ⟨y, Or.inl (List.mem_append_right _ h), e1.symm⟩
    · exact ⟨y, Or.inr rfl, e1.symm⟩

theorem findOrderBook_some_key {e : TradingEngine} {symbol : String} {book : OrderBook}
    (h : e.findOrderBook symbol = some book) :
    ∃ kv ∈ e.order_books, kv.1 = symbol ∧ kv.2 = book := by
  unfold TradingEngine.findOrderBook at h
  cases hf : e.order_books.find? (fun kv => kv.1 = symbol) with
  | none => rw [hf] at h; simp at h
  | some kv =>
    rw [hf] at h
    have hk : kv.1 = symbol :=
      of_decide_eq_true
        (List.find?_some (p := fun (kv : String × OrderBook) => decide (kv.1 = symbol)) hf)
    exact ⟨kv, List.mem_of_find?_eq_some hf, hk, by simpa using h⟩

/-- C11: for every book reached by admissions, `displayOrders` returns the banner
`=== <symbol> Order Book ===`, then the section `BUY ORDERS:` with one line
`  Order #<id>: <quantity> @ $<price>` per resting bid, in the order of the vector, or
`  No buy orders` when no bid rests, then the section `SELL ORDERS:` built the same way from the
asks, or `  No sell orders`; each section has exactly one line per resting order, the bids stand
highest price first and the asks lowest price first, within equal price not later before
earlier. -/
theorem snapshot_format [StdSort] (sym : String) (orders : List Order) :
    ((OrderBook.new sym).admitAll orders).displayOrders
        = "\n=== " ++ sym ++ " Order Book ===\n" ++ "\nBUY ORDERS:\n"
          ++ (if ((OrderBook.new sym).admitAll orders).buy_orders = [] then "  No buy orders\n"
              else String.join (((OrderBook.new sym).admitAll orders).buy_orders.map (fun o =>
                "  Order #" ++ toString o.order_id ++ ": " ++ toString o.quantity ++ " @ $"
                  ++ fixed2 o.price ++ "\n")))
          ++ "\nSELL ORDERS:\n"
          ++ (if ((OrderBook.new sym).admitAll orders).sell_orders = [] then "  No sell orders\n"
              else String.join (((OrderBook.new sym).admitAll orders).sell_orders.map (fun o =>
                "  Order #" ++ toString o.order_id ++ ": " ++ toString o.quantity ++ " @ $"
                  ++ fixed2 o.price ++ "\n")))
          ++ "\n"
      ∧ BidsInOrder ((OrderBook.new sym).admitAll orders).buy_orders
      ∧ AsksInOrder ((OrderBook.new sym).admitAll orders).sell_orders := by
  have hord := admitAll_ordered _ (new_ordered sym) orders
  refine ⟨?_, bidsInOrder_of_priority hord.1, asksInOrder_of_priority hord.2.1⟩
  rw [displayOrders_eq, snapshotSection_eq, snapshotSection_eq, admitAll_symbol]
  rfl

/-- C12: in an engine reached from a fresh one, `showOrders` returns the line
`No orders found for symbol: <symbol>` if and only if no call ever named the symbol; once a call
named it, `showOrders` returns the rendering of its book, and when nothing rests in that book
(also because every order was filled) both sections carry their placeholder. -/
theorem showOrders_unknown_iff [StdSort] (reqs : List Request) (symbol : String) :
    ((TradingEngine.new.after reqs).showOrders symbol
          = "No orders found for symbol: " ++ symbol ++ "\n"
        ↔ ∀ r ∈ reqs, r.symbol ≠ symbol)
      ∧ ((∃ r ∈ reqs, r.symbol = symbol) →
          ∃ book : OrderBook, (TradingEngine.new.after reqs).findOrderBook symbol = some book
            ∧ (TradingEngine.new.after reqs).showOrders symbol = book.displayOrders
            ∧ (book.buy_orders = [] → book.sell_orders = [] →
                book.displayOrders
                  = "\n=== " ++ symbol ++ " Order Book ===\n" ++ "\nBUY ORDERS:\n"
                    ++ "  No buy orders\n" ++ "\nSELL ORDERS:\n" ++ "  No sell orders\n"
                    ++ "\n")) := by
  have hiff := findOrderBook_after_new reqs symbol
  constructor
  · constructor
    · intro h
      cases hf : (TradingEngine.new.after reqs).findOrderBook symbol with
      | none => exact hiff.mp hf
      | some book =>
        unfold TradingEngine.showOrders at h
        rw [hf] at h
        exact absurd h (displayOrders_ne_notFound book symbol)
    · intro h
      unfold TradingEngine.showOrders
      rw [hiff.mpr h]
  · rintro ⟨r, hr, he⟩
    cases hf : (TradingEngine.new.after reqs).findOrderBook symbol with
    | none => exact absurd he (hiff.mp hf r hr)
    | some book =>
      refine ⟨book, rfl, ?_, ?_⟩
      · unfold TradingEngine.showOrders
        rw [hf]
      · intro hb hs
        obtain ⟨kv, hkv, hk, hbook⟩ := findOrderBook_some_key hf
        have hsym : book.symbol = symbol := by
          rw [← hbook, after_keyed reqs _ new_keyed kv hkv, hk]
        rw [displayOrders_eq, hb, hs, hsym]
        rfl

/-- Witness for C12: after a bid and an ask that take each other whole, the symbol is known and
its snapshot is the rendering of its (empty) book. -/
theorem showOrders_unknown_iff_witness :
    (∃ r ∈ exactMatch, r.symbol = "AAPL")
      ∧ ∃ book : OrderBook, (TradingEngine.new.after exactMatch).findOrderBook "AAPL" = some book
          ∧ (TradingEngine.new.after exactMatch).showOrders "AAPL" = book.displayOrders
          ∧ (book.buy_orders = [] → book.sell_orders = [] →
              book.displayOrders
                = "\n=== " ++ "AAPL" ++ " Order Book ===\n" ++ "\nBUY ORDERS:\n"
                  ++ "  No buy orders\n" ++ "\nSELL ORDERS:\n" ++ "  No sell orders\n"
                  ++ "\n") :=
  ⟨by decide, (showOrders_unknown_iff exactMatch "AAPL").2 (by decide)⟩

/-- The snapshot text after a bid and an ask took each other whole, and the text for a symbol
that was never named. -/
theorem snapshot_after_exact_match :
    (TradingEngine.new.after exactMatch).showOrders "AAPL"
        = "\n=== AAPL Order Book ===\n\nBUY ORDERS:\n  No buy orders\n\nSELL ORDERS:\n  No sell orders\n\n"
      ∧ (TradingEngine.new.after exactMatch).showOrders "MSFT"
        = "No orders found for symbol: MSFT\n" := by
  decide!

/-- C13: the snapshot only observes. For every engine state and symbol, known or not, a
`showOrders` call leaves the engine object as it was (every book with both vectors and all
quantities, the set of books, `next_order_id`), so any number of consecutive calls return the
same text and leave the engine as it was. -/
theorem showOrders_observational (e : TradingEngine) (symbol : String) (n : Nat) :
    (e.showOrdersCall symbol).2 = e
      ∧ (e.showOrdersCall symbol).2.order_books = e.order_books
      ∧ (e.showOrdersCall symbol).2.next_order_id = e.next_order_id
      ∧ e.showAll (List.replicate n symbol)
          = (List.replicate n (e.showOrdersCall symbol).1, e) := by
  refine ⟨showOrdersCall_snd e symbol, ?_, ?_, ?_⟩
  · rw [showOrdersCall_snd]
  · rw [showOrdersCall_snd]
  · rw [showAll_eq, showOrdersCall_fst]
    simp

/-- C14: symbol isolation. In an engine reached from a fresh one, a call for one symbol leaves
the book of every other symbol as it was, so `showOrders` of the other symbol returns the same
text before and after; and both orders of every trade of the call carry the symbol of the call,
so no trade is made against an order of another symbol. -/
theorem symbol_isolation [StdSort] (reqs : List Request) (r : Request) (other : String)
    (h : other ≠ r.symbol) :
    ((TradingEngine.new.after reqs).submit r).engine.findOrderBook other
        = (TradingEngine.new.after reqs).findOrderBook other
      ∧ ((TradingEngine.new.after reqs).submit r).engine.showOrders other
        = (TradingEngine.new.after reqs).showOrders other
      ∧ ∀ t ∈ ((TradingEngine.new.after reqs).submit r).trades,
          t.buy.symbol = r.symbol ∧ t.sell.symbol = r.symbol := by
  have hfind := submit_findOrderBook_other (TradingEngine.new.after reqs) r h
  refine ⟨hfind, ?_, ?_⟩
  · unfold TradingEngine.showOrders
    rw [hfind]
  · intro t ht
    have hhome := bookFor_homed _ (after_homed reqs _ new_homed) r.symbol
    obtain ⟨⟨y, hy, e1⟩, ⟨z, hz, e2⟩⟩ := addOrder_trades_from _ _ t ht
    constructor
    · rw [symbol_of_fixedPart e1]
      rcases hy with hy | rfl
      · exact hhome y hy
      · rfl
    · rw [symbol_of_fixedPart e2]
      rcases hz with hz | rfl
      · exact hhome z hz
      · rfl

/-- Witness for C14: a bid rests for `AAPL`; an ask for `MSFT` leaves the `AAPL` book and its
snapshot as they were. -/
theorem symbol_isolation_witness :
    "AAPL" ≠ otherAsk.symbol
      ∧ ((TradingEngine.new.after seedBid).submit otherAsk).engine.findOrderBook "AAPL"
        = (TradingEngine.new.after seedBid).findOrderBook "AAPL"
      ∧ ((TradingEngine.new.after seedBid).submit otherAsk).engine.showOrders "AAPL"
        = (TradingEngine.new.after seedBid).showOrders "AAPL"
      ∧ ∀ t ∈ ((TradingEngine.new.after seedBid).submit otherAsk).trades,
          t.buy.symbol = otherAsk.symbol ∧ t.sell.symbol = otherAsk.symbol :=
  ⟨by decide, symbol_isolation seedBid otherAsk "AAPL" (by decide)⟩

/-! ## Responses of `processCommand` -/

theorem head_of_beginsWith_error {s : String} (h : beginsWith "ERROR:" s) :
    s.data.head? = some 'E' := by
  obtain ⟨t, ht⟩ := h
  rw [← ht]
  rfl

theorem admissionLine_head (o : Order) (rest : String) :
    (admissionLine o ++ rest).data.head? = some 'O' := by
  unfold admissionLine
  cases o.side <;> simp only [String.append_assoc, String.data_append] <;> rfl

theorem report_not_error [StdSort] (e : TradingEngine) (symbol : String) (side : OrderSide) (price : Rat)
    (quantity : Int) (now : Int) :
    ¬ beginsWith "ERROR:" (e.addOrder symbol side price quantity now).report := by
  intro h
  have h1 := head_of_beginsWith_error h
  have h2 : (e.addOrder symbol side price quantity now).report
      = admissionLine (Order.new symbol side price quantity e.next_order_id now)
        ++ (loopOf (e.bookFor symbol)
            (Order.new symbol side price quantity e.next_order_id now)).result :=
    addOrder_report _ _
  rw [h2, admissionLine_head] at h1
  exact absurd h1 (by decide)

theorem showOrders_not_error (e : TradingEngine) (symbol : String) :
    ¬ beginsWith "ERROR:" (e.showOrders symbol) := by
  intro h
  have h1 := head_of_beginsWith_error h
  unfold TradingEngine.showOrders at h1
  cases hf : e.findOrderBook symbol with
  | none =>
    rw [hf] at h1
    simp only at h1
    rw [notFound_head] at h1
    exact absurd h1 (by decide)
  | some book =>
    rw [hf] at h1
    simp only at h1
    rw [displayOrders_head] at h1
    exact absurd h1 (by decide)

/-- Every `TradingEngine::addOrder` call changes the engine: it moves `next_order_id`. -/
theorem addOrder_moves_counter [StdSort] (e : TradingEngine) (symbol : String) (side : OrderSide)
    (price : Rat) (quantity : Int) (now : Int) :
    (e.addOrder symbol side price quantity now).engine.next_order_id ≠ e.next_order_id := by
  show wrapInt32 (e.next_order_id + 1) ≠ e.next_order_id
  unfold wrapInt32
  omega

theorem parseSide_eq_none_iff (side_str : String) :
    parseSide side_str = none ↔ side_str ≠ "BUY" ∧ side_str ≠ "SELL" := by
  unfold parseSide
  by_cases h1 : side_str = "BUY"
  · simp [h1]
  · by_cases h2 : side_str = "SELL"
    · simp [h1, h2]
    · simp [h1, h2]

/-- The branches of `processCommand` in terms of the first token and of what follows it. -/
theorem processCommand_unfold [StdSort] (input : NumericInput) (e : TradingEngine) (now : Int)
    (command : String) :
    processCommand input e now command
      = if firstToken command = some "ADD_ORDER" then
          match extractAddOrder input (afterFirstToken command) with
          | none =>
            ("ERROR: Invalid command format\nUsage: ADD_ORDER <BUY|SELL> <SYMBOL> <PRICE> <QUANTITY>\n",
              e)
          | some (side_str, symbol, price, quantity) =>
            match parseSide side_str with
            | none => ("ERROR: Invalid side. Use BUY or SELL\n", e)
            | some side =>
              if price ≤ 0 ∨ quantity ≤ 0 then
                ("ERROR: Price and quantity must be positive\n", e)
              else
                ((e.addOrder symbol side price quantity now).report,
                  (e.addOrder symbol side price quantity now).engine)
        else if firstToken command = some "SHOW_ORDERS" then
          match readWord (afterFirstToken command) with
          | none => ("ERROR: Invalid command format\nUsage: SHOW_ORDERS <SYMBOL>\n", e)
          | some (symbol, _) => e.showOrdersCall symbol
        else if firstToken command = some "DISCONNECT" then
          ("OK: Goodbye!\n", e)
        else
          ("ERROR: Unknown command\nAvailable commands: ADD_ORDER, SHOW_ORDERS, DISCONNECT\n",
            e) := by
  have h1 : ("" : String) ≠ "ADD_ORDER" := by decide
  have h2 : ("" : String) ≠ "SHOW_ORDERS" := by decide
  have h3 : ("" : String) ≠ "DISCONNECT" := by decide
  unfold processCommand firstToken afterFirstToken
  cases hw : readWord command.data with
  | none => simp [h1, h2, h3]
  | some p =>
    obtain ⟨cmd, rest⟩ := p
    simp only [Option.map_some', Option.getD_some, Option.some.injEq]
    rfl

theorem error_format_add :
    beginsWith "ERROR:"
      "ERROR: Invalid command format\nUsage: ADD_ORDER <BUY|SELL> <SYMBOL> <PRICE> <QUANTITY>\n" := by
  decide

theorem error_side : beginsWith "ERROR:" "ERROR: Invalid side. Use BUY or SELL\n" := by decide

theorem error_positive : beginsWith "ERROR:" "ERROR: Price and quantity must be positive\n" := by
  decide

theorem error_format_show :
    beginsWith "ERROR:" "ERROR: Invalid command format\nUsage: SHOW_ORDERS <SYMBOL>\n" := by
  decide

theorem error_unknown :
    beginsWith "ERROR:"
      "ERROR: Unknown command\nAvailable commands: ADD_ORDER, SHOW_ORDERS, DISCONNECT\n" := by
  decide

theorem goodbye_not_error : ¬ beginsWith "ERROR:" "OK: Goodbye!\n" := by decide

/-- What `processCommand` answers: a rejected command gets a response that begins with
`ERROR:` and leaves the engine as it was; any other command gets the report of
`TradingEngine::addOrder`, the text of `TradingEngine::showOrders`, or the goodbye line, none of
which begins with `ERROR:`. -/
theorem processCommand_spec [StdSort] (input : NumericInput) (e : TradingEngine) (now : Int)
    (command : String) :
    (Rejected input command ∧ beginsWith "ERROR:" (processCommand input e now command).1
        ∧ (processCommand input e now command).2 = e)
      ∨ (¬ Rejected input command
        ∧ ¬ beginsWith "ERROR:" (processCommand input e now command).1
        ∧ ((∃ side_str symbol price quantity side,
              firstToken command = some "ADD_ORDER"
              ∧ extractAddOrder input (afterFirstToken command)
                  = some (side_str, symbol, price, quantity)
              ∧ parseSide side_str = some side ∧ 0 < price ∧ 0 < quantity
              ∧ processCommand input e now command
                  = ((e.addOrder symbol side price quantity now).report,
                      (e.addOrder symbol side price quantity now).engine))
          ∨ (∃ symbol rest, firstToken command = some "SHOW_ORDERS"
              ∧ readWord (afterFirstToken command) = some (symbol, rest)
              ∧ processCommand input e now command = (e.showOrders symbol, e))
          ∨ (firstToken command = some "DISCONNECT"
              ∧ processCommand input e now command = ("OK: Goodbye!\n", e)))) := by
  have d1 : ("SHOW_ORDERS" : String) ≠ "ADD_ORDER" := by decide
  have d2 : ("DISCONNECT" : String) ≠ "ADD_ORDER" := by decide
  have d3 : ("DISCONNECT" : String) ≠ "SHOW_ORDERS" := by decide
  rw [processCommand_unfold]
  by_cases ha : firstToken command = some "ADD_ORDER"
  · have hs : firstToken command ≠ some "SHOW_ORDERS" := by
      rw [ha]; intro h; exact d1 (Option.some.inj h).symm
    rw [if_pos ha]
    cases hx : extractAddOrder input (afterFirstToken command) with
    | none =>
      left
      dsimp only
      exact ⟨Or.inr (Or.inl ⟨ha, Or.inl hx⟩), error_format_add, rfl⟩
    | some q =>
      obtain ⟨side_str, symbol, price, quantity⟩ := q
      dsimp only
      cases hp : parseSide side_str with
      | none =>
        left
        dsimp only
        exact ⟨Or.inr (Or.inl ⟨ha, Or.inr ⟨side_str, symbol, price, quantity, hx,
          Or.inl ((parseSide_eq_none_iff side_str).mp hp)⟩⟩), error_side, rfl⟩
      | some side =>
        dsimp only
        by_cases hpos : price ≤ 0 ∨ quantity ≤ 0
        · left
          rw [if_pos hpos]
          exact ⟨Or.inr (Or.inl ⟨ha, Or.inr ⟨side_str, symbol, price, quantity, hx,
            Or.inr hpos⟩⟩), error_positive, rfl⟩
        · right
          rw [if_neg hpos]
          have hside : ¬ (side_str ≠ "BUY" ∧ side_str ≠ "SELL") := by
            intro h
            rw [(parseSide_eq_none_iff side_str).mpr h] at hp
            exact absurd hp (by simp)
          refine ⟨?_, report_not_error _ _ _ _ _ _, Or.inl ⟨side_str, symbol, price, quantity,
            side, ha, rfl, hp, ?_, ?_, rfl⟩⟩
          · rintro (⟨h, _, _⟩ | ⟨_, h⟩ | ⟨h, _⟩)
            · exact h ha
            · rcases h with h | ⟨s', y', p', q', h, hbad⟩
              · rw [hx] at h; exact absurd h (by simp)
              · rw [hx] at h
                simp only [Option.some.injEq, Prod.mk.injEq] at h
                obtain ⟨rfl, rfl, rfl, rfl⟩ := h
                rcases hbad with hbad | hbad
                · exact hside hbad
                · exact hpos hbad
            · exact hs h
          · exact lt_of_not_le (fun h => hpos (Or.inl h))
          · exact lt_of_not_le (fun h => hpos (Or.inr h))
  · rw [if_neg ha]
    by_cases hs : firstToken command = some "SHOW_ORDERS"
    · rw [if_pos hs]
      cases hx : readWord (afterFirstToken command) with
      | none =>
        left
        dsimp only
        exact ⟨Or.inr (Or.inr ⟨hs, hx⟩), error_format_show, rfl⟩
      | some q =>
        obtain ⟨symbol, rest⟩ := q
        right
        dsimp only
        have hcall : e.showOrdersCall symbol = (e.showOrders symbol, e) :=
          Prod.ext (showOrdersCall_fst e symbol) (showOrdersCall_snd e symbol)
        rw [hcall]
        refine ⟨?_, showOrders_not_error e symbol, Or.inr (Or.inl ⟨symbol, rest, hs, rfl, rfl⟩)⟩
        rintro (⟨_, h, _⟩ | ⟨h, _⟩ | ⟨_, h⟩)
        · exact h hs
        · exact ha h
        · rw [hx] at h; exact absurd h (by simp)
    · rw [if_neg hs]
      by_cases hd : firstToken command = some "DISCONNECT"
      · rw [if_pos hd]
        right
        refine ⟨?_, goodbye_not_error, Or.inr (Or.inr ⟨hd, rfl⟩)⟩
        rintro (⟨_, _, h⟩ | ⟨h, _⟩ | ⟨h, _⟩)
        · exact h hd
        · exact ha h
        · exact hs h
      · rw [if_neg hd]
        left
        exact ⟨Or.inl ⟨ha, hs, hd⟩, error_unknown, rfl⟩

/-! ## An admitted order rests or trades -/

theorem mem_afterTrade_of_mem {o : Order} {q : Int} {rest : List Order} {x : Order}
    (h : x ∈ rest) : x ∈ afterTrade o q rest := by
  unfold afterTrade
  split
  · exact h
  · exact List.mem_cons_of_mem _ h

/-- Every order that enters the loop is, up to its quantity, still in the book afterwards or
named by one of the trades the loop made. -/
theorem matchLoop_keeps_or_trades (sym : String) (fuel : Nat) (bs ss : List Order) (r : String)
    (t : List Trade) :
    ∃ new : List Trade, (matchLoop sym fuel bs ss r t).trades = t ++ new
      ∧ (∀ x ∈ bs, x.fixedPart ∈ (matchLoop sym fuel bs ss r t).buy_orders.map Order.fixedPart
          ∨ ∃ y ∈ new, y.buy.fixedPart = x.fixedPart)
      ∧ (∀ x ∈ ss, x.fixedPart ∈ (matchLoop sym fuel bs ss r t).sell_orders.map Order.fixedPart
          ∨ ∃ y ∈ new, y.sell.fixedPart = x.fixedPart) := by
  refine matchLoop_induction sym
    (fun bs ss _ t st => ∃ new : List Trade, st.trades = t ++ new
      ∧ (∀ x ∈ bs, x.fixedPart ∈ st.buy_orders.map Order.fixedPart
          ∨ ∃ y ∈ new, y.buy.fixedPart = x.fixedPart)
      ∧ (∀ x ∈ ss, x.fixedPart ∈ st.sell_orders.map Order.fixedPart
          ∨ ∃ y ∈ new, y.sell.fixedPart = x.fixedPart)) ?_ ?_ fuel bs ss r t
  · intro bs ss r t
    exact ⟨[], by simp, fun x hx => Or.inl (List.mem_map_of_mem _ hx),
      fun x hx => Or.inl (List.mem_map_of_mem _ hx)⟩
  · intro b bs s ss r t st _ ih
    obtain ⟨new, h1, h2, h3⟩ := ih
    refine ⟨execution b s :: new, ?_, ?_, ?_⟩
    · rw [h1, List.append_assoc, List.singleton_append]
    · intro x hx
      rcases List.mem_cons.mp hx with rfl | hx
      · exact Or.inr ⟨execution x s, List.mem_cons_self _ _, rfl⟩
      · rcases h2 x (mem_afterTrade_of_mem hx) with h | ⟨y, hy, e1⟩
        · exact Or.inl h
        · exact Or.inr ⟨y, List.mem_cons_of_mem _ hy, e1⟩
    · intro x hx
      rcases List.mem_cons.mp hx with rfl | hx
      · exact Or.inr ⟨execution b x, List.mem_cons_self _ _, rfl⟩
      · rcases h3 x (mem_afterTrade_of_mem hx) with h | ⟨y, hy, e1⟩
        · exact Or.inl h
        · exact Or.inr ⟨y, List.mem_cons_of_mem _ hy, e1⟩

/-- Whatever the book and the order, `OrderBook::addOrder` takes the order in: afterwards the
order rests in the book (up to its quantity) or one of the trades names it. -/
theorem addOrder_admits [StdSort] (b : OrderBook) (o : Order) :
    o.fixedPart ∈ (b.addOrder o).book.resting.map Order.fixedPart
      ∨ ∃ t ∈ (b.addOrder o).trades,
          t.buy.fixedPart = o.fixedPart ∨ t.sell.fixedPart = o.fixedPart := by
  rw [addOrder_book, addOrder_trades]
  obtain ⟨new, h1, h2, h3⟩ := matchLoop_keeps_or_trades b.symbol
    ((stdSort buyBefore (buysPushed b o)).length + (stdSort sellBefore (sellsPushed b o)).length)
    (stdSort buyBefore (buysPushed b o)) (stdSort sellBefore (sellsPushed b o)) "" []
  rw [List.nil_append] at h1
  unfold loopOf
  rw [h1]
  simp only [OrderBook.resting, List.map_append, List.mem_append]
  have hcases : o.side = OrderSide.BUY ∨ o.side = OrderSide.SELL := by
    cases o.side
    · exact Or.inl rfl
    · exact Or.inr rfl
  rcases hcases with hside | hside
  · have hmem : o ∈ stdSort buyBefore (buysPushed b o) := by
      apply (stdSort_perm _ _).mem_iff.mpr
      simp [buysPushed, hside]
    rcases h2 o hmem with h | ⟨y, hy, e1⟩
    · exact Or.inl (Or.inl h)
    · exact Or.inr ⟨y, hy, Or.inl e1⟩
  · have hmem : o ∈ stdSort sellBefore (sellsPushed b o) := by
      apply (stdSort_perm _ _).mem_iff.mpr
      simp [sellsPushed, hside]
    rcases h3 o hmem with h | ⟨y, hy, e1⟩
    · exact Or.inl (Or.inr h)
    · exact Or.inr ⟨y, hy, Or.inr e1⟩

/-! ## Timestamps of the orders of a run -/

theorem submitAll_timestamps [StdSort] (reqs : List Request) (symbol : String) :
    ∀ e : TradingEngine,
      (outcomesFor symbol (e.submitAll reqs)).map (fun s => s.order.timestamp)
        = (callsFor symbol reqs).map Request.now := by
  induction reqs with
  | nil => intro e; rfl
  | cons r rest ih =>
    intro e
    have hsym : (e.submit r).order.symbol = r.symbol := rfl
    have hts : (e.submit r).order.timestamp = r.now := rfl
    by_cases h : r.symbol = symbol
    · simp only [outcomesFor, callsFor, TradingEngine.submitAll, List.filter_cons, hsym, h,
        decide_True, if_true, List.map_cons, hts]
      exact congrArg _ (ih _)
    · simp only [outcomesFor, callsFor, TradingEngine.submitAll, List.filter_cons, hsym, h,
        decide_False, if_false, Bool.false_eq_true]
      exact ih _

/-- C15: every command line that `processCommand` answers with a response beginning with
`ERROR:` leaves the engine as it was: the books, their number and `next_order_id` are unchanged,
and since every `TradingEngine::addOrder` call moves `next_order_id`, no such call was made. In
particular an `ADD_ORDER` whose price or quantity is not positive is answered with `ERROR:` and
does not reach `TradingEngine::addOrder`. -/
theorem rejected_command_leaves_engine [StdSort] (input : NumericInput) (e : TradingEngine) (now : Int)
    (command : String) :
    (beginsWith "ERROR:" (processCommand input e now command).1 →
        (processCommand input e now command).2 = e
        ∧ (processCommand input e now command).2.order_books = e.order_books
        ∧ (processCommand input e now command).2.next_order_id = e.next_order_id
        ∧ ∀ symbol side price quantity,
            (processCommand input e now command).2
              ≠ (e.addOrder symbol side price quantity now).engine)
      ∧ (∀ side_str symbol price quantity, firstToken command = some "ADD_ORDER" →
          extractAddOrder input (afterFirstToken command)
            = some (side_str, symbol, price, quantity) →
          price ≤ 0 ∨ quantity ≤ 0 →
          beginsWith "ERROR:" (processCommand input e now command).1
            ∧ (processCommand input e now command).2 = e) := by
  constructor
  · intro h
    rcases processCommand_spec input e now command with ⟨_, _, h2⟩ | ⟨_, h1, _⟩
    · rw [h2]
      refine ⟨rfl, rfl, rfl, ?_⟩
      intro symbol side price quantity heq
      exact addOrder_moves_counter e symbol side price quantity now
        (congrArg TradingEngine.next_order_id heq).symm
    · exact absurd h h1
  · intro side_str symbol price quantity ha hx hbad
    rcases processCommand_spec input e now command with ⟨_, h1, h2⟩ | ⟨hnot, _, _⟩
    · exact ⟨h1, h2⟩
    · exact absurd (Or.inr (Or.inl ⟨ha, Or.inr ⟨side_str, symbol, price, quantity, hx,
        Or.inr hbad⟩⟩)) hnot

/-- Witness for C15: `ADD_ORDER BUY AAPL -5 100` is answered with an error and leaves a fresh
engine fresh. -/
theorem rejected_command_leaves_engine_witness :
    beginsWith "ERROR:" (processCommand decimalInput TradingEngine.new 10 negativePriceCommand).1
      ∧ (processCommand decimalInput TradingEngine.new 10 negativePriceCommand).2
          = TradingEngine.new
      ∧ (processCommand decimalInput TradingEngine.new 10 negativePriceCommand).2.order_books
          = TradingEngine.new.order_books
      ∧ (processCommand decimalInput TradingEngine.new 10 negativePriceCommand).2.next_order_id
          = TradingEngine.new.next_order_id
      ∧ ∀ symbol side price quantity,
          (processCommand decimalInput TradingEngine.new 10 negativePriceCommand).2
            ≠ (TradingEngine.new.addOrder symbol side price quantity 10).engine :=
  ⟨by decide!, (rejected_command_leaves_engine decimalInput TradingEngine.new 10
    negativePriceCommand).1 (by decide!)⟩

/-- Counterexample to C16 as stated: `TradingEngine::addOrder` called with price -1 and
quantity 0 does not fail; the order is given the id 1 and rests in the book. -/
theorem addOrder_unvalidated_counterexample :
    (TradingEngine.new.addOrder "AAPL" OrderSide.BUY (-1) 0 10).report
        = "Order added: BUY 0 AAPL @ $-1.00 (Order ID: 1)\n"
      ∧ (TradingEngine.new.addOrder "AAPL" OrderSide.BUY (-1) 0 10).engine.findOrderBook "AAPL"
        = some { symbol := "AAPL", buy_orders := [Order.new "AAPL" OrderSide.BUY (-1) 0 1 10],
                 sell_orders := [] } := by
  decide!

/-- C16 (amended): `TradingEngine::addOrder` does not validate its arguments. Every call, also
with price or quantity not positive, constructs the order, consumes an id, returns the report
that begins with the admission line of the order, and takes the order into the book of its
symbol, where it rests or trades. Prices and quantities that are not positive are kept away by
the caller: `processCommand` answers such an `ADD_ORDER` with
`ERROR: Price and quantity must be positive` and leaves the engine as it was. -/
theorem addOrder_admits_any_arguments [StdSort] (e : TradingEngine) (symbol : String) (side : OrderSide)
    (price : Rat) (quantity : Int) (now : Int) :
    (e.addOrder symbol side price quantity now).order
        = Order.new symbol side price quantity e.next_order_id now
      ∧ (e.addOrder symbol side price quantity now).engine.next_order_id
        = wrapInt32 (e.next_order_id + 1)
      ∧ (∃ rest, (e.addOrder symbol side price quantity now).report
          = admissionLine (e.addOrder symbol side price quantity now).order ++ rest)
      ∧ (∃ book, (e.addOrder symbol side price quantity now).engine.findOrderBook symbol
            = some book
          ∧ ((e.addOrder symbol side price quantity now).order.fixedPart
                ∈ book.resting.map Order.fixedPart
              ∨ ∃ t ∈ (e.addOrder symbol side price quantity now).trades,
                  t.buy.fixedPart = (e.addOrder symbol side price quantity now).order.fixedPart
                  ∨ t.sell.fixedPart
                    = (e.addOrder symbol side price quantity now).order.fixedPart))
      ∧ ∀ (input : NumericInput) (command side_str : String),
          firstToken command = some "ADD_ORDER" →
          extractAddOrder input (afterFirstToken command)
            = some (side_str, symbol, price, quantity) →
          parseSide side_str = some side →
          price ≤ 0 ∨ quantity ≤ 0 →
          processCommand input e now command
            = ("ERROR: Price and quantity must be positive\n", e) := by
  refine ⟨rfl, rfl, ?_, ?_, ?_⟩
  · exact submit_report_prefix e
      { symbol := symbol, side := side, price := price, quantity := quantity, now := now }
  · exact ⟨_, submit_findOrderBook e
      { symbol := symbol, side := side, price := price, quantity := quantity, now := now },
      addOrder_admits _ _⟩
  · intro input command side_str ha hx hp hbad
    rw [processCommand_unfold, if_pos ha, hx]
    dsimp only
    rw [hp]
    dsimp only
    rw [if_pos hbad]

/-- Counterexample to C17 as stated: a book for `AAPL` handed a bid whose symbol is `MSFT` does
not fail; the bid rests in the book. -/
theorem addOrder_wrong_symbol_counterexample :
    ((OrderBook.new "AAPL").addOrder strayBid).report
        = "Order added: BUY 10 MSFT @ $100.00 (Order ID: 1)\n"
      ∧ ((OrderBook.new "AAPL").addOrder strayBid).book
        = { symbol := "AAPL", buy_orders := [strayBid], sell_orders := [] } := by
  decide!

/-- C17 (amended): `OrderBook::addOrder` accepts every order, whether or not its symbol equals
the symbol of the book; it compares no symbols and never fails. The report begins with the
admission line of the order, and the order rests in the book afterwards or one of the trades
names it. That a book only gets orders of its own symbol is the work of
`TradingEngine::addOrder`: in an engine reached from a fresh one, the order it constructs
carries the symbol of the book it hands the order to. -/
theorem addOrder_accepts_any_symbol [StdSort] (b : OrderBook) (o : Order) :
    (∃ rest, (b.addOrder o).report = admissionLine o ++ rest)
      ∧ (o.fixedPart ∈ (b.addOrder o).book.resting.map Order.fixedPart
          ∨ ∃ t ∈ (b.addOrder o).trades,
              t.buy.fixedPart = o.fixedPart ∨ t.sell.fixedPart = o.fixedPart)
      ∧ ∀ (reqs : List Request) (r : Request),
          ((TradingEngine.new.after reqs).submit r).order.symbol
            = ((TradingEngine.new.after reqs).bookFor r.symbol).symbol := by
  refine ⟨⟨_, addOrder_report b o⟩, addOrder_admits b o, ?_⟩
  intro reqs r
  rw [bookFor_symbol _ (after_keyed reqs _ new_keyed)]
  rfl

/-- Counterexample to C19 as stated: two orders for one symbol constructed within the same
microsecond carry the same timestamp, so the timestamps given out within that book are neither
unique nor strictly increasing. -/
theorem timestamps_counterexample :
    ¬ ((outcomesFor "AAPL" (TradingEngine.new.submitAll sameMicrosecond)).map
        (fun s => s.order.timestamp)).Pairwise (· < ·)
      ∧ ¬ ((outcomesFor "AAPL" (TradingEngine.new.submitAll sameMicrosecond)).map
        (fun s => s.order.timestamp)).Nodup := by
  decide

/-- C19 (amended): within one book, the timestamps given to the orders are, in admission order,
the clock readings (`system_clock`, in microseconds) taken when the orders were constructed;
they are unique, respectively strictly increasing in admission order, exactly when these clock
readings are. -/
theorem timestamps_are_clock_readings [StdSort] (reqs : List Request) (symbol : String) :
    (outcomesFor symbol (TradingEngine.new.submitAll reqs)).map (fun s => s.order.timestamp)
        = (callsFor symbol reqs).map Request.now
      ∧ (((outcomesFor symbol (TradingEngine.new.submitAll reqs)).map
            (fun s => s.order.timestamp)).Pairwise (· < ·)
          ↔ ((callsFor symbol reqs).map Request.now).Pairwise (· < ·))
      ∧ (((outcomesFor symbol (TradingEngine.new.submitAll reqs)).map
            (fun s => s.order.timestamp)).Nodup
          ↔ ((callsFor symbol reqs).map Request.now).Nodup) := by
  have h := submitAll_timestamps reqs symbol TradingEngine.new
  refine ⟨h, ?_, ?_⟩
  · rw [h]
  · rw [h]

/-- Witness for C19 (amended): the ask of 30 and the bid of 100 were constructed at the
microseconds 10 and 11, and these are their timestamps. -/
theorem timestamps_are_clock_readings_witness :
    (outcomesFor "AAPL" (TradingEngine.new.submitAll (seedAsk ++ [takingBid]))).map
        (fun s => s.order.timestamp) = [10, 11]
      ∧ ((outcomesFor "AAPL" (TradingEngine.new.submitAll (seedAsk ++ [takingBid]))).map
        (fun s => s.order.timestamp)).Pairwise (· < ·) :=
  ⟨(timestamps_are_clock_readings (seedAsk ++ [takingBid]) "AAPL").1,
    (timestamps_are_clock_readings (seedAsk ++ [takingBid]) "AAPL").2.1.mpr (by decide)⟩

/-- C18: `processCommand` answers with a response beginning with `ERROR:` exactly when the
command is rejected: its first token is none of `ADD_ORDER`, `SHOW_ORDERS`, `DISCONNECT`
(compared as written); or it is `ADD_ORDER` and side, symbol, price and quantity cannot all be
read, or the side is neither `BUY` nor `SELL`, or the price or the quantity is not strictly
positive; or it is `SHOW_ORDERS` and no symbol follows. Every other command gets the report of
`TradingEngine::addOrder` for the values read, the text of `TradingEngine::showOrders` for the
symbol read, or `OK: Goodbye!` for `DISCONNECT`. -/
theorem error_response_iff [StdSort] (input : NumericInput) (e : TradingEngine) (now : Int)
    (command : String) :
    (beginsWith "ERROR:" (processCommand input e now command).1 ↔ Rejected input command)
      ∧ (¬ Rejected input command →
          (∃ side_str symbol price quantity side,
              firstToken command = some "ADD_ORDER"
              ∧ extractAddOrder input (afterFirstToken command)
                  = some (side_str, symbol, price, quantity)
              ∧ parseSide side_str = some side ∧ 0 < price ∧ 0 < quantity
              ∧ processCommand input e now command
                  = ((e.addOrder symbol side price quantity now).report,
                      (e.addOrder symbol side price quantity now).engine))
          ∨ (∃ symbol rest, firstToken command = some "SHOW_ORDERS"
              ∧ readWord (afterFirstToken command) = some (symbol, rest)
              ∧ processCommand input e now command = (e.showOrders symbol, e))
          ∨ (firstToken command = some "DISCONNECT"
              ∧ processCommand input e now command = ("OK: Goodbye!\n", e))) := by
  rcases processCommand_spec input e now command with ⟨h1, h2, _⟩ | ⟨h1, h2, h3⟩
  · exact ⟨⟨fun _ => h1, fun _ => h2⟩, fun hn => absurd h1 hn⟩
  · exact ⟨⟨fun h => absurd h h2, fun h => absurd h h1⟩, fun _ => h3⟩

/-- C20, on the code: `TradingEngine::addOrder` releases `engine_mutex` before `book_mutex` is
taken, and so does `showOrders` for a symbol without a book; but for a symbol that has a book,
`showOrders` takes `book_mutex` (inside `displayOrders`) while it still holds `engine_mutex`. -/
theorem showOrders_nests_book_mutex [StdSort] :
    (∀ symbol, StrictLockOrder (addOrderEvents symbol))
      ∧ (∀ (e : TradingEngine) (symbol : String), e.findOrderBook symbol = none →
          StrictLockOrder (showOrdersEvents e symbol))
      ∧ (∀ (e : TradingEngine) (symbol : String) (book : OrderBook),
          e.findOrderBook symbol = some book → ¬ StrictLockOrder (showOrdersEvents e symbol))
      ∧ ¬ StrictLockOrder (showOrdersEvents (TradingEngine.new.after seedBid) "AAPL") := by
  have hfound : ∀ (e : TradingEngine) (symbol : String) (book : OrderBook),
      e.findOrderBook symbol = some book → ¬ StrictLockOrder (showOrdersEvents e symbol) := by
    intro e symbol book h
    unfold showOrdersEvents
    rw [h]
    simp [StrictLockOrder, strictFrom]
  refine ⟨fun symbol => rfl, ?_, hfound, ?_⟩
  · intro e symbol h
    unfold showOrdersEvents
    rw [h]
    rfl
  · cases hfind : (TradingEngine.new.after seedBid).findOrderBook "AAPL" with
    | none =>
      exact absurd rfl ((findOrderBook_after_new seedBid "AAPL").mp hfind _
        (List.mem_singleton_self _))
    | some book => exact hfound _ _ book hfind

/-- Examples of `processCommand` with the decimal readers on a fresh engine: an order that is
admitted, and a side written in lower case. -/
theorem processCommand_examples :
    processCommand decimalInput TradingEngine.new 10 "ADD_ORDER BUY AAPL 150.25 100\n"
        = ("Order added: BUY 100 AAPL @ $150.25 (Order ID: 1)\n",
            (TradingEngine.new.addOrder "AAPL" OrderSide.BUY (601 / 4) 100 10).engine)
      ∧ processCommand decimalInput TradingEngine.new 10 "ADD_ORDER buy AAPL 150.25 100\n"
        = ("ERROR: Invalid side. Use BUY or SELL\n", TradingEngine.new) := by
  decide!

/-! ## The id counter and the engine mutex -/

/-- C21, on the code: `TradingEngine::addOrder` evaluates `next_order_id++` while it constructs
the order, before the `lock_guard` on `engine_mutex` exists, so the counter is read and written
with no mutex held. Two calls made one after the other get the ids 1 and 2; when two threads both
read the counter before either writes it back, both orders get the id 1 and the counter ends
at 2. -/
theorem order_id_taken_outside_engine_mutex :
    (∀ symbol, (addOrderEvents symbol).head? = some LockEvent.takeId)
      ∧ (∀ symbol, ¬ CounterGuarded (addOrderEvents symbol))
      ∧ ({ next_order_id := TradingEngine.new.next_order_id, taken := [] } : CounterState).run
            oneAfterTheOther
          = { next_order_id := 3, taken := [(0, 1), (1, 2)] }
      ∧ ({ next_order_id := TradingEngine.new.next_order_id, taken := [] } : CounterState).run
            bothReadFirst
          = { next_order_id := 2, taken := [(0, 1), (1, 1)] } := by
  refine ⟨fun _ => rfl, fun symbol h => ?_, by decide, by decide⟩
  simp [CounterGuarded, addOrderEvents, counterGuardedFrom] at h

/-! ## The execution price -/

theorem execution_price_cases (x : Trade) (h : x = execution x.buy x.sell) :
    (x.buy.timestamp < x.sell.timestamp → x.price = x.buy.price)
      ∧ (¬ x.buy.timestamp < x.sell.timestamp → x.price = x.sell.price)
      ∧ (x.buy.timestamp = x.sell.timestamp → x.price = x.sell.price) := by
  have hp : x.price
      = if x.buy.timestamp < x.sell.timestamp then x.buy.price else x.sell.price := by
    conv_lhs => rw [h]
    rfl
  refine ⟨fun hlt => by rw [hp, if_pos hlt], fun hn => by rw [hp, if_neg hn], fun he => ?_⟩
  rw [hp, if_neg (by rw [he]; exact lt_irrefl _)]

/-- C22: execution price rule, the time key being the `timestamp` field. Whenever the loop
stands at a top bid `B` and a top ask `S` that cross, the trade it records and the line it
writes carry the price of `B` if `B.timestamp < S.timestamp` and the price of `S` otherwise;
hence in every trade of every admission the price is the bid's when the bid is strictly earlier
and the ask's when it is not, equal timestamps included, and the report shows these prices. -/
theorem execution_price_rule [StdSort] :
    (∀ (sym : String) (fuel : Nat) (B S : Order) (bs ss : List Order) (r : String)
        (t : List Trade), S.price ≤ B.price →
        ∃ later : List Trade,
          (matchLoop sym (fuel + 1) (B :: bs) (S :: ss) r t).trades
              = t ++ { buy := B, sell := S,
                       price := if B.timestamp < S.timestamp then B.price else S.price,
                       quantity := min B.quantity S.quantity } :: later
            ∧ (matchLoop sym (fuel + 1) (B :: bs) (S :: ss) r t).result
                = r ++ tradeLine (min B.quantity S.quantity) sym
                      (if B.timestamp < S.timestamp then B.price else S.price)
                    ++ String.join (later.map (tradeText sym)))
      ∧ (∀ (b : OrderBook) (o : Order),
          (b.addOrder o).report
              = admissionLine o ++ String.join ((b.addOrder o).trades.map
                  (fun x => tradeLine x.quantity b.symbol x.price))
            ∧ ∀ x ∈ (b.addOrder o).trades,
                (x.buy.timestamp < x.sell.timestamp → x.price = x.buy.price)
                  ∧ (¬ x.buy.timestamp < x.sell.timestamp → x.price = x.sell.price)
                  ∧ (x.buy.timestamp = x.sell.timestamp → x.price = x.sell.price)) := by
  constructor
  · intro sym fuel B S bs ss r t hc
    rw [matchLoop_cross sym fuel bs ss r t hc]
    obtain ⟨new, h1, h2, _⟩ := matchLoop_trades sym fuel
      (afterTrade B (min B.quantity S.quantity) bs) (afterTrade S (min B.quantity S.quantity) ss)
      (r ++ tradeText sym (execution B S)) (t ++ [execution B S])
    refine ⟨new, ?_, ?_⟩
    · rw [h1, List.append_assoc, List.singleton_append]
      rfl
    · rw [h2]
      rfl
  · intro b o
    obtain ⟨h1, h2⟩ := addOrder_trades_exec b o
    exact ⟨h2, fun x hx => execution_price_cases x (h1 x hx).1⟩

/-- Examples of the execution price: a bid at 150 placed before an ask at 149 trades at 150; with
equal timestamps the trade is made at the ask's 149. -/
theorem execution_price_examples :
    crossedBook.matchOrders.report = "TRADE EXECUTED: 100 AAPL @ $150.00\n"
      ∧ tiedBook.matchOrders.report = "TRADE EXECUTED: 100 AAPL @ $149.00\n" := by
  decide!

/-! ## The best prices -/

theorem head_stdSort_sell [StdSort] {l : List Order} {s : Order} {rest : List Order}
    (h : stdSort sellBefore l = s :: rest) : s ∈ l ∧ ∀ x ∈ l, s.price ≤ x.price := by
  have hsorted := stdSort_sell_sorted l
  rw [h] at hsorted
  refine ⟨mem_stdSort.mp (h ▸ List.mem_cons_self _ _), fun x hx => ?_⟩
  have hx' : x ∈ s :: rest := h ▸ mem_stdSort.mpr hx
  rcases List.mem_cons.mp hx' with rfl | hx'
  · exact le_refl _
  · exact sellPriority_price_le ((List.pairwise_cons.mp hsorted).1 x hx')

theorem head_stdSort_buy [StdSort] {l : List Order} {t : Order} {rest : List Order}
    (h : stdSort buyBefore l = t :: rest) : t ∈ l ∧ ∀ x ∈ l, x.price ≤ t.price := by
  have hsorted := stdSort_buy_sorted l
  rw [h] at hsorted
  refine ⟨mem_stdSort.mp (h ▸ List.mem_cons_self _ _), fun x hx => ?_⟩
  have hx' : x ∈ t :: rest := h ▸ mem_stdSort.mpr hx
  rcases List.mem_cons.mp hx' with rfl | hx'
  · exact le_refl _
  · exact buyPriority_price_le ((List.pairwise_cons.mp hsorted).1 x hx')

/-- The best ask is the lowest price among the asks; there is none exactly when there is no
ask. -/
theorem bestAsk_is_lowest [StdSort] (b : OrderBook) :
    (bestAsk b = none ↔ b.sell_orders = [])
      ∧ ∀ p, bestAsk b = some p →
          (∃ s ∈ b.sell_orders, s.price = p) ∧ ∀ s ∈ b.sell_orders, p ≤ s.price := by
  unfold bestAsk
  cases hsort : stdSort sellBefore b.sell_orders with
  | nil =>
    have hlen := length_stdSort sellBefore b.sell_orders
    rw [hsort] at hlen
    refine ⟨⟨fun _ => List.length_eq_zero.mp hlen.symm, fun _ => rfl⟩, fun p hp => ?_⟩
    simp at hp
  | cons s rest =>
    obtain ⟨h1, h2⟩ := head_stdSort_sell hsort
    refine ⟨⟨fun h => by simp at h, fun h => ?_⟩, fun p hp => ?_⟩
    · rw [h] at h1; simp at h1
    · simp only [List.head?_cons, Option.map_some', Option.some.injEq] at hp
      subst hp
      exact ⟨⟨s, h1, rfl⟩, h2⟩

/-- The best bid is the highest price among the bids; there is none exactly when there is no
bid. -/
theorem bestBid_is_highest [StdSort] (b : OrderBook) :
    (bestBid b = none ↔ b.buy_orders = [])
      ∧ ∀ p, bestBid b = some p →
          (∃ x ∈ b.buy_orders, x.price = p) ∧ ∀ x ∈ b.buy_orders, x.price ≤ p := by
  unfold bestBid
  cases hsort : stdSort buyBefore b.buy_orders with
  | nil =>
    have hlen := length_stdSort buyBefore b.buy_orders
    rw [hsort] at hlen
    refine ⟨⟨fun _ => List.length_eq_zero.mp hlen.symm, fun _ => rfl⟩, fun p hp => ?_⟩
    simp at hp
  | cons s rest =>
    obtain ⟨h1, h2⟩ := head_stdSort_buy hsort
    refine ⟨⟨fun h => by simp at h, fun h => ?_⟩, fun p hp => ?_⟩
    · rw [h] at h1; simp at h1
    · simp only [List.head?_cons, Option.map_some', Option.some.injEq] at hp
      subst hp
      exact ⟨⟨s, h1, rfl⟩, h2⟩

theorem reaches_bestAsk_iff [StdSort] (b : OrderBook) (q : Rat) :
    (∃ p ∈ bestAsk b, p ≤ q) ↔ ∃ s ∈ b.sell_orders, s.price ≤ q := by
  simp only [Option.mem_def]
  obtain ⟨h0, h1⟩ := bestAsk_is_lowest b
  constructor
  · rintro ⟨p, hp, hle⟩
    obtain ⟨⟨s, hs, e⟩, _⟩ := h1 p hp
    exact ⟨s, hs, e ▸ hle⟩
  · rintro ⟨s, hs, hle⟩
    cases hb : bestAsk b with
    | none => rw [h0.mp hb] at hs; simp at hs
    | some p => exact ⟨p, rfl, le_trans ((h1 p hb).2 s hs) hle⟩

theorem reaches_bestBid_iff [StdSort] (b : OrderBook) (q : Rat) :
    (∃ p ∈ bestBid b, q ≤ p) ↔ ∃ x ∈ b.buy_orders, q ≤ x.price := by
  simp only [Option.mem_def]
  obtain ⟨h0, h1⟩ := bestBid_is_highest b
  constructor
  · rintro ⟨p, hp, hle⟩
    obtain ⟨⟨s, hs, e⟩, _⟩ := h1 p hp
    exact ⟨s, hs, e ▸ hle⟩
  · rintro ⟨s, hs, hle⟩
    cases hb : bestBid b with
    | none => rw [h0.mp hb] at hs; simp at hs
    | some p => exact ⟨p, rfl, le_trans hle ((h1 p hb).2 s hs)⟩

theorem tradeLine_data (q : Int) (sym : String) (p : Rat) : (tradeLine q sym p).data ≠ [] := by
  unfold tradeLine
  simp only [String.append_assoc, String.data_append]
  simp

theorem report_eq_admissionLine_iff [StdSort] (b : OrderBook) (o : Order) :
    (b.addOrder o).report = admissionLine o ↔ (b.addOrder o).trades = [] := by
  rw [(addOrder_trades_exec b o).2]
  constructor
  · intro h
    cases ht : (b.addOrder o).trades with
    | nil => rfl
    | cons x rest =>
      exfalso
      rw [ht, List.map_cons, join_cons] at h
      have hd := congrArg String.data h
      simp only [String.data_append] at hd
      have hx := tradeLine_data x.quantity b.symbol x.price
      have : (tradeText b.symbol x).data = [] := by
        have := List.append_right_eq_self.mp hd
        exact (List.append_eq_nil.mp this).1
      exact hx this
  · intro h
    rw [h]
    simp [join_nil]

/-! ## Whether an admission trades -/

theorem matchLoop_cross_trades (sym : String) (fuel : Nat) {b s : Order} (bs ss : List Order)
    (r : String) (t : List Trade) (h : s.price ≤ b.price) :
    ∃ later, (matchLoop sym (fuel + 1) (b :: bs) (s :: ss) r t).trades
      = t ++ execution b s :: later := by
  rw [matchLoop_cross sym fuel bs ss r t h]
  obtain ⟨new, h1, _, _⟩ := matchLoop_trades sym fuel
    (afterTrade b (min b.quantity s.quantity) bs) (afterTrade s (min b.quantity s.quantity) ss)
    (r ++ tradeText sym (execution b s)) (t ++ [execution b s])
  exact ⟨new, by rw [h1, List.append_assoc, List.singleton_append]⟩

/-- Admission of a bid into an uncrossed book: trades iff it reaches an ask; otherwise it is
sorted into the bids as it is. -/
theorem addOrder_buy_trades_iff [StdSort] (b : OrderBook) (o : Order)
    (hnc : NotCrossed b.buy_orders b.sell_orders) (hside : o.side = OrderSide.BUY) :
    ((b.addOrder o).trades ≠ [] ↔ ∃ s ∈ b.sell_orders, s.price ≤ o.price)
      ∧ ((¬ ∃ s ∈ b.sell_orders, s.price ≤ o.price) →
          (b.addOrder o).book.buy_orders = stdSort buyBefore (b.buy_orders ++ [o])
          ∧ (b.addOrder o).book.sell_orders = stdSort sellBefore b.sell_orders) := by
  rw [addOrder_trades, addOrder_book]
  by_cases h : ∃ s ∈ b.sell_orders, s.price ≤ o.price
  · refine ⟨⟨fun _ => h, fun _ => ?_⟩, fun hn => absurd h hn⟩
    obtain ⟨rest', _, _, _, hloop⟩ := loopOf_buy_takes b o hnc hside h
    rw [hloop]
    obtain ⟨s, hs, hc⟩ := h
    cases hsort : stdSort sellBefore b.sell_orders with
    | nil =>
      have : s ∈ stdSort sellBefore b.sell_orders := mem_stdSort.mpr hs
      rw [hsort] at this
      simp at this
    | cons s0 rest =>
      have hc0 : s0.price ≤ o.price := le_trans ((head_stdSort_sell hsort).2 s hs) hc
      have hfuel : b.buy_orders.length + 1 + b.sell_orders.length
          = (b.buy_orders.length + b.sell_orders.length) + 1 := by omega
      rw [hfuel]
      obtain ⟨later, hl⟩ := matchLoop_cross_trades b.symbol
        (b.buy_orders.length + b.sell_orders.length) rest' rest "" [] hc0
      rw [hl]
      simp
  · have hno : ∀ s ∈ b.sell_orders, o.price < s.price := by
      intro s hs
      by_contra hc
      exact h ⟨s, hs, not_lt.mp hc⟩
    rw [loopOf_buy_rests b o hnc hside hno]
    exact ⟨⟨fun hne => absurd rfl hne, fun hh => absurd hh h⟩, fun _ => ⟨rfl, rfl⟩⟩

theorem addOrder_sell_trades_iff [StdSort] (b : OrderBook) (o : Order)
    (hnc : NotCrossed b.buy_orders b.sell_orders) (hside : o.side = OrderSide.SELL) :
    ((b.addOrder o).trades ≠ [] ↔ ∃ x ∈ b.buy_orders, o.price ≤ x.price)
      ∧ ((¬ ∃ x ∈ b.buy_orders, o.price ≤ x.price) →
          (b.addOrder o).book.buy_orders = stdSort buyBefore b.buy_orders
          ∧ (b.addOrder o).book.sell_orders = stdSort sellBefore (b.sell_orders ++ [o])) := by
  rw [addOrder_trades, addOrder_book]
  by_cases h : ∃ x ∈ b.buy_orders, o.price ≤ x.price
  · refine ⟨⟨fun _ => h, fun _ => ?_⟩, fun hn => absurd h hn⟩
    obtain ⟨rest', _, _, _, hloop⟩ := loopOf_sell_takes b o hnc hside h
    rw [hloop]
    obtain ⟨x, hx, hc⟩ := h
    cases hsort : stdSort buyBefore b.buy_orders with
    | nil =>
      have : x ∈ stdSort buyBefore b.buy_orders := mem_stdSort.mpr hx
      rw [hsort] at this
      simp at this
    | cons t0 rest =>
      have hc0 : o.price ≤ t0.price := le_trans hc ((head_stdSort_buy hsort).2 x hx)
      have hfuel : b.buy_orders.length + (b.sell_orders.length + 1)
          = (b.buy_orders.length + b.sell_orders.length) + 1 := by omega
      rw [hfuel]
      obtain ⟨later, hl⟩ := matchLoop_cross_trades b.symbol
        (b.buy_orders.length + b.sell_orders.length) rest rest' "" [] hc0
      rw [hl]
      simp
  · have hno : ∀ x ∈ b.buy_orders, x.price < o.price := by
      intro x hx
      by_contra hc
      exact h ⟨x, hx, not_lt.mp hc⟩
    rw [loopOf_sell_rests b o hnc hside hno]
    exact ⟨⟨fun hne => absurd rfl hne, fun hh => absurd hh h⟩, fun _ => ⟨rfl, rfl⟩⟩

/-- C23: for every uncrossed book and every incoming order, the admission makes at least one
trade (and the report holds more than the admission line) if and only if the other side is not
empty and the incoming price reaches its best price, equal prices included; otherwise the report
is the admission line alone, no trade is made, and the order rests on its side with the quantity
it was submitted with, both sides being the pushed vectors in sorted order. -/
theorem trade_iff_marketable [StdSort] (b : OrderBook) (o : Order)
    (hnc : NotCrossed b.buy_orders b.sell_orders) :
    ((b.addOrder o).trades ≠ [] ↔ Marketable b o)
      ∧ ((b.addOrder o).report ≠ admissionLine o ↔ Marketable b o)
      ∧ (¬ Marketable b o →
          (b.addOrder o).report = admissionLine o
            ∧ (b.addOrder o).trades = []
            ∧ o ∈ (b.addOrder o).book.side o.side
            ∧ (b.addOrder o).book.buy_orders = stdSort buyBefore (buysPushed b o)
            ∧ (b.addOrder o).book.sell_orders = stdSort sellBefore (sellsPushed b o)) := by
  have hiff : (b.addOrder o).trades ≠ [] ↔ Marketable b o := by
    unfold Marketable
    cases hside : o.side with
    | BUY =>
      dsimp only
      rw [reaches_bestAsk_iff]
      exact (addOrder_buy_trades_iff b o hnc hside).1
    | SELL =>
      dsimp only
      rw [reaches_bestBid_iff]
      exact (addOrder_sell_trades_iff b o hnc hside).1
  refine ⟨hiff, ?_, ?_⟩
  · rw [← hiff, not_iff_not]
    exact report_eq_admissionLine_iff b o
  · intro hn
    have ht : (b.addOrder o).trades = [] := by
      by_contra hne
      exact hn (hiff.mp hne)
    refine ⟨(report_eq_admissionLine_iff b o).mpr ht, ht, ?_⟩
    cases hside : o.side with
    | BUY =>
      have hno : ¬ ∃ s ∈ b.sell_orders, s.price ≤ o.price := by
        intro h
        exact (addOrder_buy_trades_iff b o hnc hside).1.mpr h ht
      obtain ⟨e1, e2⟩ := (addOrder_buy_trades_iff b o hnc hside).2 hno
      have p1 : buysPushed b o = b.buy_orders ++ [o] := by simp [buysPushed, hside]
      have p2 : sellsPushed b o = b.sell_orders := by simp [sellsPushed, hside]
      rw [p1, p2]
      refine ⟨?_, e1, e2⟩
      show o ∈ (b.addOrder o).book.buy_orders
      rw [e1]
      exact mem_stdSort.mpr (List.mem_append_right _ (List.mem_singleton_self o))
    | SELL =>
      have hno : ¬ ∃ x ∈ b.buy_orders, o.price ≤ x.price := by
        intro h
        exact (addOrder_sell_trades_iff b o hnc hside).1.mpr h ht
      obtain ⟨e1, e2⟩ := (addOrder_sell_trades_iff b o hnc hside).2 hno
      have p1 : buysPushed b o = b.buy_orders := by simp [buysPushed, hside]
      have p2 : sellsPushed b o = b.sell_orders ++ [o] := by simp [sellsPushed, hside]
      rw [p1, p2]
      refine ⟨?_, e1, e2⟩
      show o ∈ (b.addOrder o).book.sell_orders
      rw [e2]
      exact mem_stdSort.mpr (List.mem_append_right _ (List.mem_singleton_self o))

/-- Witness for C23: a bid at 100 against asks at 101 and 100 (the best ask is 100). -/
theorem trade_iff_marketable_witness :
    NotCrossed mixedAsks.buy_orders mixedAsks.sell_orders
      ∧ (((mixedAsks.addOrder (bid 100 5 4 13)).trades ≠ [] ↔ Marketable mixedAsks (bid 100 5 4 13))
        ∧ ((mixedAsks.addOrder (bid 100 5 4 13)).report ≠ admissionLine (bid 100 5 4 13)
            ↔ Marketable mixedAsks (bid 100 5 4 13))
        ∧ (¬ Marketable mixedAsks (bid 100 5 4 13) →
            (mixedAsks.addOrder (bid 100 5 4 13)).report = admissionLine (bid 100 5 4 13)
              ∧ (mixedAsks.addOrder (bid 100 5 4 13)).trades = []
              ∧ bid 100 5 4 13
                  ∈ (mixedAsks.addOrder (bid 100 5 4 13)).book.side (bid 100 5 4 13).side
              ∧ (mixedAsks.addOrder (bid 100 5 4 13)).book.buy_orders
                  = stdSort buyBefore (buysPushed mixedAsks (bid 100 5 4 13))
              ∧ (mixedAsks.addOrder (bid 100 5 4 13)).book.sell_orders
                  = stdSort sellBefore (sellsPushed mixedAsks (bid 100 5 4 13)))) :=
  ⟨by decide, trade_iff_marketable mixedAsks (bid 100 5 4 13) (by decide)⟩

/-- Examples for the crossing test on the book with asks at 101 and 100: a bid at exactly 100
trades, a bid at 99.90 rests and the report is its admission line. -/
theorem marketable_examples :
    bestAsk mixedAsks = some 100
      ∧ Marketable mixedAsks (bid 100 5 4 13)
      ∧ (mixedAsks.addOrder (bid 100 5 4 13)).report
          = "Order added: BUY 5 AAPL @ $100.00 (Order ID: 4)\nTRADE EXECUTED: 5 AAPL @ $100.00\n"
      ∧ ¬ Marketable mixedAsks (bid (999 / 10) 5 4 13)
      ∧ (mixedAsks.addOrder (bid (999 / 10) 5 4 13)).report
          = "Order added: BUY 5 AAPL @ $99.90 (Order ID: 4)\n"
      ∧ (mixedAsks.addOrder (bid (999 / 10) 5 4 13)).book.buy_orders
          = [bid (999 / 10) 5 4 13, bid 99 10 3 12] := by
  decide!

/-! ## An aggressor larger than the whole other side -/

theorem totalQuantity_nonneg {l : List Order} (h : ∀ x ∈ l, 0 ≤ x.quantity) :
    0 ≤ totalQuantity l := by
  induction l with
  | nil => simp [totalQuantity]
  | cons a l ih =>
    have ha := h a (List.mem_cons_self _ _)
    have := ih (fun x hx => h x (List.mem_cons_of_mem _ hx))
    simp only [totalQuantity, List.map_cons, List.sum_cons] at this ⊢
    omega

theorem totalQuantity_cons (a : Order) (l : List Order) :
    totalQuantity (a :: l) = a.quantity + totalQuantity l := by
  simp [totalQuantity]

/-- A bid on top of the bids that reaches every ask and is larger than all of them together
takes each ask whole, in the order of the vector, and stays on top with what is left of it. -/
theorem matchLoop_sweep_asks (sym : String) (bs : List Order) :
    ∀ (ss : List Order) (fuel : Nat) (o : Order) (r : String) (t : List Trade),
      ss.length ≤ fuel → (∀ s ∈ ss, 0 ≤ s.quantity) → (∀ s ∈ ss, s.price ≤ o.price) →
      totalQuantity ss < o.quantity → o.quantity < 2147483648 →
      matchLoop sym fuel (o :: bs) ss r t
        = { buy_orders := { o with quantity := o.quantity - totalQuantity ss } :: bs,
            sell_orders := [],
            result := r ++ String.join (ss.map (fun s => tradeLine s.quantity sym
              (if o.timestamp < s.timestamp then o.price else s.price))),
            trades := t ++ sweepAsks o ss } := by
  intro ss
  induction ss with
  | nil =>
    intro fuel o r t _ _ _ _ _
    rw [matchLoop_nil_right]
    simp [totalQuantity, sweepAsks, join_nil]
  | cons s ss ih =>
    intro fuel o r t hfuel hpos hprice htotal hint
    obtain ⟨n, rfl⟩ : ∃ n, fuel = n + 1 :=
      ⟨fuel - 1, by simp only [List.length_cons] at hfuel; omega⟩
    have hs := hpos s (List.mem_cons_self _ _)
    have hrest : ∀ x ∈ ss, 0 ≤ x.quantity := fun x hx => hpos x (List.mem_cons_of_mem _ hx)
    have hnn := totalQuantity_nonneg hrest
    rw [totalQuantity_cons] at htotal
    have hmin : min o.quantity s.quantity = s.quantity := min_eq_right (by omega)
    have hwo : wrapInt32 (o.quantity - s.quantity) = o.quantity - s.quantity :=
      wrapInt32_of_inRange (by unfold InInt32; omega)
    rw [matchLoop_cross sym n bs ss r t (hprice s (List.mem_cons_self _ _)), hmin]
    have hbs : afterTrade o s.quantity bs
        = { o with quantity := o.quantity - s.quantity } :: bs := by
      unfold afterTrade
      rw [hwo, if_neg (by omega)]
    have hss : afterTrade s s.quantity ss = ss := by
      unfold afterTrade
      rw [sub_self, wrapInt32_zero, if_pos rfl]
    rw [hbs, hss, ih n { o with quantity := o.quantity - s.quantity } _ _
      (by simp only [List.length_cons] at hfuel; omega) hrest
      (fun x hx => hprice x (List.mem_cons_of_mem _ hx)) (by simp only; omega)
      (by simp only; omega)]
    have hq : o.quantity - s.quantity - totalQuantity ss
        = o.quantity - totalQuantity (s :: ss) := by rw [totalQuantity_cons]; omega
    simp only [hq, List.map_cons, join_cons, sweepAsks, List.append_assoc, List.singleton_append,
      String.append_assoc, tradeText, execution, hmin]

/-- The same for an ask on top of the asks against the bids. -/
theorem matchLoop_sweep_bids (sym : String) (ss : List Order) :
    ∀ (bs : List Order) (fuel : Nat) (o : Order) (r : String) (t : List Trade),
      bs.length ≤ fuel → (∀ x ∈ bs, 0 ≤ x.quantity) → (∀ x ∈ bs, o.price ≤ x.price) →
      totalQuantity bs < o.quantity → o.quantity < 2147483648 →
      matchLoop sym fuel bs (o :: ss) r t
        = { buy_orders := [],
            sell_orders := { o with quantity := o.quantity - totalQuantity bs } :: ss,
            result := r ++ String.join (bs.map (fun x => tradeLine x.quantity sym
              (if x.timestamp < o.timestamp then x.price else o.price))),
            trades := t ++ sweepBids o bs } := by
  intro bs
  induction bs with
  | nil =>
    intro fuel o r t _ _ _ _ _
    rw [matchLoop_nil_left]
    simp [totalQuantity, sweepBids, join_nil]
  | cons x bs ih =>
    intro fuel o r t hfuel hpos hprice htotal hint
    obtain ⟨n, rfl⟩ : ∃ n, fuel = n + 1 :=
      ⟨fuel - 1, by simp only [List.length_cons] at hfuel; omega⟩
    have hx := hpos x (List.mem_cons_self _ _)
    have hrest : ∀ y ∈ bs, 0 ≤ y.quantity := fun y hy => hpos y (List.mem_cons_of_mem _ hy)
    have hnn := totalQuantity_nonneg hrest
    rw [totalQuantity_cons] at htotal
    have hmin : min x.quantity o.quantity = x.quantity := min_eq_left (by omega)
    have hwo : wrapInt32 (o.quantity - x.quantity) = o.quantity - x.quantity :=
      wrapInt32_of_inRange (by unfold InInt32; omega)
    rw [matchLoop_cross sym n bs ss r t (hprice x (List.mem_cons_self _ _)), hmin]
    have hss : afterTrade o x.quantity ss
        = { o with quantity := o.quantity - x.quantity } :: ss := by
      unfold afterTrade
      rw [hwo, if_neg (by omega)]
    have hbs : afterTrade x x.quantity bs = bs := by
      unfold afterTrade
      rw [sub_self, wrapInt32_zero, if_pos rfl]
    rw [hbs, hss, ih n { o with quantity := o.quantity - x.quantity } _ _
      (by simp only [List.length_cons] at hfuel; omega) hrest
      (fun y hy => hprice y (List.mem_cons_of_mem _ hy)) (by simp only; omega)
      (by simp only; omega)]
    have hq : o.quantity - x.quantity - totalQuantity bs
        = o.quantity - totalQuantity (x :: bs) := by rw [totalQuantity_cons]; omega
    simp only [hq, List.map_cons, join_cons, sweepBids, List.append_assoc, List.singleton_append,
      String.append_assoc, tradeText, execution, hmin]

theorem sweepAsks_sell (ss : List Order) :
    ∀ o : Order, (sweepAsks o ss).map Trade.sell = ss
      ∧ (∀ x ∈ sweepAsks o ss, x.buy.fixedPart = o.fixedPart) := by
  induction ss with
  | nil => intro o; simp [sweepAsks]
  | cons s ss ih =>
    intro o
    obtain ⟨h1, h2⟩ := ih { o with quantity := o.quantity - s.quantity }
    refine ⟨by simp [sweepAsks, execution, h1], ?_⟩
    intro x hx
    rcases List.mem_cons.mp hx with rfl | hx
    · rfl
    · exact h2 x hx

theorem sweepBids_buy (bs : List Order) :
    ∀ o : Order, (sweepBids o bs).map Trade.buy = bs
      ∧ (∀ x ∈ sweepBids o bs, x.sell.fixedPart = o.fixedPart) := by
  induction bs with
  | nil => intro o; simp [sweepBids]
  | cons s ss ih =>
    intro o
    obtain ⟨h1, h2⟩ := ih { o with quantity := o.quantity - s.quantity }
    refine ⟨by simp [sweepBids, execution, h1], ?_⟩
    intro x hx
    rcases List.mem_cons.mp hx with rfl | hx
    · rfl
    · exact h2 x hx

theorem sweepAsks_quantity (ss : List Order) :
    ∀ o : Order, (∀ s ∈ ss, 0 ≤ s.quantity) → totalQuantity ss < o.quantity →
      (sweepAsks o ss).map Trade.quantity = ss.map Order.quantity := by
  induction ss with
  | nil => intro o _ _; rfl
  | cons s ss ih =>
    intro o hpos htotal
    have hrest : ∀ x ∈ ss, 0 ≤ x.quantity := fun x hx => hpos x (List.mem_cons_of_mem _ hx)
    have hnn := totalQuantity_nonneg hrest
    rw [totalQuantity_cons] at htotal
    have hmin : min o.quantity s.quantity = s.quantity := min_eq_right (by omega)
    simp only [sweepAsks, List.map_cons, execution, hmin]
    rw [ih { o with quantity := o.quantity - s.quantity } hrest (by simp only; omega)]

theorem sweepBids_quantity (bs : List Order) :
    ∀ o : Order, (∀ x ∈ bs, 0 ≤ x.quantity) → totalQuantity bs < o.quantity →
      (sweepBids o bs).map Trade.quantity = bs.map Order.quantity := by
  induction bs with
  | nil => intro o _ _; rfl
  | cons s ss ih =>
    intro o hpos htotal
    have hrest : ∀ x ∈ ss, 0 ≤ x.quantity := fun x hx => hpos x (List.mem_cons_of_mem _ hx)
    have hnn := totalQuantity_nonneg hrest
    rw [totalQuantity_cons] at htotal
    have hmin : min s.quantity o.quantity = s.quantity := min_eq_left (by omega)
    simp only [sweepBids, List.map_cons, execution, hmin]
    rw [ih { o with quantity := o.quantity - s.quantity } hrest (by simp only; omega)]

/-- C24: chain match to exhaustion. For every uncrossed book with a non-empty ask side and no
negative resting ask quantity (the callers of the engine admit strictly positive quantities only
and matching leaves none negative), and every incoming bid (its quantity an `int`) whose price is
at or above every resting ask's price and whose quantity exceeds the total resting ask quantity:
the report is the admission line followed by exactly one trade line per resting ask, in the
priority order `sortOrders` gives the asks, each for the whole quantity of that ask; every trade
is against the incoming bid; afterwards the ask side is empty and the incoming bid is first
among the bids, in front of the bids that rested before, with its submitted quantity less the
total ask quantity. The same holds for an incoming ask against the bid side. -/
theorem chain_match_to_exhaustion [StdSort] (b : OrderBook) (o : Order)
    (hnc : NotCrossed b.buy_orders b.sell_orders) (hint : o.quantity < 2147483648) :
    (o.side = OrderSide.BUY → b.sell_orders ≠ [] → (∀ s ∈ b.sell_orders, 0 ≤ s.quantity) →
        (∀ s ∈ b.sell_orders, s.price ≤ o.price) → totalQuantity b.sell_orders < o.quantity →
        AsksInOrder (stdSort sellBefore b.sell_orders)
          ∧ (stdSort sellBefore b.sell_orders).Perm b.sell_orders
          ∧ (b.addOrder o).report
            = admissionLine o ++ String.join ((stdSort sellBefore b.sell_orders).map
                (fun s => tradeLine s.quantity b.symbol
                  (if o.timestamp < s.timestamp then o.price else s.price)))
          ∧ (b.addOrder o).trades.map Trade.sell = stdSort sellBefore b.sell_orders
          ∧ (b.addOrder o).trades.map Trade.quantity
              = (stdSort sellBefore b.sell_orders).map Order.quantity
          ∧ (∀ x ∈ (b.addOrder o).trades, x.buy.fixedPart = o.fixedPart)
          ∧ (b.addOrder o).book.sell_orders = []
          ∧ ∃ rest, rest.Perm b.buy_orders ∧ BidsInOrder rest
              ∧ (b.addOrder o).book.buy_orders
                  = { o with quantity := o.quantity - totalQuantity b.sell_orders } :: rest)
      ∧ (o.side = OrderSide.SELL → b.buy_orders ≠ [] → (∀ x ∈ b.buy_orders, 0 ≤ x.quantity) →
        (∀ x ∈ b.buy_orders, o.price ≤ x.price) → totalQuantity b.buy_orders < o.quantity →
        BidsInOrder (stdSort buyBefore b.buy_orders)
          ∧ (stdSort buyBefore b.buy_orders).Perm b.buy_orders
          ∧ (b.addOrder o).report
            = admissionLine o ++ String.join ((stdSort buyBefore b.buy_orders).map
                (fun x => tradeLine x.quantity b.symbol
                  (if x.timestamp < o.timestamp then x.price else o.price)))
          ∧ (b.addOrder o).trades.map Trade.buy = stdSort buyBefore b.buy_orders
          ∧ (b.addOrder o).trades.map Trade.quantity
              = (stdSort buyBefore b.buy_orders).map Order.quantity
          ∧ (∀ x ∈ (b.addOrder o).trades, x.sell.fixedPart = o.fixedPart)
          ∧ (b.addOrder o).book.buy_orders = []
          ∧ ∃ rest, rest.Perm b.sell_orders ∧ AsksInOrder rest
              ∧ (b.addOrder o).book.sell_orders
                  = { o with quantity := o.quantity - totalQuantity b.buy_orders } :: rest) := by
  constructor
  · intro hside hne hpos hprice htotal
    obtain ⟨s, hs⟩ := List.exists_mem_of_ne_nil _ hne
    obtain ⟨rest, hperm, hsorted, _, hloop⟩ :=
      loopOf_buy_takes b o hnc hside ⟨s, hs, hprice s hs⟩
    rw [matchLoop_sweep_asks b.symbol rest (stdSort sellBefore b.sell_orders) _ o "" []
      (by rw [length_stdSort]; omega) (fun x hx => hpos x (mem_stdSort.mp hx))
      (fun x hx => hprice x (mem_stdSort.mp hx))
      (by rw [totalQuantity_stdSort]; exact htotal) hint] at hloop
    rw [addOrder_report, addOrder_trades, addOrder_book, hloop]
    simp only [List.nil_append, String.empty_append, totalQuantity_stdSort]
    refine ⟨asksInOrder_of_priority (stdSort_sell_sorted _), stdSort_perm _ _, trivial,
      (sweepAsks_sell _ o).1, ?_, (sweepAsks_sell _ o).2, trivial,
      ⟨rest, hperm, bidsInOrder_of_priority hsorted, rfl⟩⟩
    exact sweepAsks_quantity _ o (fun x hx => hpos x (mem_stdSort.mp hx))
      (by rw [totalQuantity_stdSort]; exact htotal)
  · intro hside hne hpos hprice htotal
    obtain ⟨s, hs⟩ := List.exists_mem_of_ne_nil _ hne
    obtain ⟨rest, hperm, hsorted, _, hloop⟩ :=
      loopOf_sell_takes b o hnc hside ⟨s, hs, hprice s hs⟩
    rw [matchLoop_sweep_bids b.symbol rest (stdSort buyBefore b.buy_orders) _ o "" []
      (by rw [length_stdSort]; omega) (fun x hx => hpos x (mem_stdSort.mp hx))
      (fun x hx => hprice x (mem_stdSort.mp hx))
      (by rw [totalQuantity_stdSort]; exact htotal) hint] at hloop
    rw [addOrder_report, addOrder_trades, addOrder_book, hloop]
    simp only [List.nil_append, String.empty_append, totalQuantity_stdSort]
    refine ⟨bidsInOrder_of_priority (stdSort_buy_sorted _), stdSort_perm _ _, trivial,
      (sweepBids_buy _ o).1, ?_, (sweepBids_buy _ o).2, trivial,
      ⟨rest, hperm, asksInOrder_of_priority hsorted, rfl⟩⟩
    exact sweepBids_quantity _ o (fun x hx => hpos x (mem_stdSort.mp hx))
      (by rw [totalQuantity_stdSort]; exact htotal)

/-- Witness for C24: a bid of 100 at 151 takes asks of 40 at 149 and of 40 at 150 and rests
with 20 in front of the bid at 148. -/
theorem chain_match_to_exhaustion_witness :
    NotCrossed twoAsks.buy_orders twoAsks.sell_orders
      ∧ (bid 151 100 4 13).quantity < 2147483648
      ∧ (bid 151 100 4 13).side = OrderSide.BUY
      ∧ twoAsks.sell_orders ≠ []
      ∧ (∀ s ∈ twoAsks.sell_orders, 0 ≤ s.quantity)
      ∧ (∀ s ∈ twoAsks.sell_orders, s.price ≤ (bid 151 100 4 13).price)
      ∧ totalQuantity twoAsks.sell_orders < (bid 151 100 4 13).quantity
      ∧ (AsksInOrder (stdSort sellBefore twoAsks.sell_orders)
          ∧ (stdSort sellBefore twoAsks.sell_orders).Perm twoAsks.sell_orders
          ∧ (twoAsks.addOrder (bid 151 100 4 13)).report
            = admissionLine (bid 151 100 4 13) ++ String.join ((stdSort sellBefore twoAsks.sell_orders).map
                (fun s => tradeLine s.quantity twoAsks.symbol
                  (if (bid 151 100 4 13).timestamp < s.timestamp then (bid 151 100 4 13).price else s.price)))
          ∧ (twoAsks.addOrder (bid 151 100 4 13)).trades.map Trade.sell = stdSort sellBefore twoAsks.sell_orders
          ∧ (twoAsks.addOrder (bid 151 100 4 13)).trades.map Trade.quantity
              = (stdSort sellBefore twoAsks.sell_orders).map Order.quantity
          ∧ (∀ x ∈ (twoAsks.addOrder (bid 151 100 4 13)).trades, x.buy.fixedPart = (bid 151 100 4 13).fixedPart)
          ∧ (twoAsks.addOrder (bid 151 100 4 13)).book.sell_orders = []
          ∧ ∃ rest, rest.Perm twoAsks.buy_orders ∧ BidsInOrder rest
              ∧ (twoAsks.addOrder (bid 151 100 4 13)).book.buy_orders
                  = { (bid 151 100 4 13) with quantity := (bid 151 100 4 13).quantity - totalQuantity twoAsks.sell_orders } :: rest) :=
  ⟨by decide, by decide, rfl, by decide, by decide, by decide, by decide,
    (chain_match_to_exhaustion twoAsks (bid 151 100 4 13) (by decide) (by decide)).1 rfl
      (by decide) (by decide) (by decide) (by decide)⟩

/-- Examples of a chain match: the report and the book after the bid of 100 at 151 has taken both
asks of `twoAsks`; and a bid of 50 at 101 against asks of 0 at 100 and of 40 at 101, which takes
both and rests with 10. -/
theorem chain_match_example :
    (twoAsks.addOrder (bid 151 100 4 13)).report
        = "Order added: BUY 100 AAPL @ $151.00 (Order ID: 4)\nTRADE EXECUTED: 40 AAPL @ $149.00\nTRADE EXECUTED: 40 AAPL @ $150.00\n"
      ∧ (twoAsks.addOrder (bid 151 100 4 13)).book.buy_orders
          = [bid 151 20 4 13, bid 148 10 3 12]
      ∧ (twoAsks.addOrder (bid 151 100 4 13)).book.sell_orders = []
      ∧ (zeroAndForty.addOrder (bid 101 50 3 12)).report
          = "Order added: BUY 50 AAPL @ $101.00 (Order ID: 3)\nTRADE EXECUTED: 0 AAPL @ $100.00\nTRADE EXECUTED: 40 AAPL @ $101.00\n"
      ∧ (zeroAndForty.addOrder (bid 101 50 3 12)).book.resting = [bid 101 10 3 12] := by
  decide!

/-- Example with a negative resting quantity, which no caller of the engine admits: against asks
of 10 at 100 and of -20 at 101 a bid of 1 at 101 exceeds the total of -10 but is used up by the
first ask. -/
theorem negative_quantity_example :
    totalQuantity negativeAsk.sell_orders < (bid 101 1 3 12).quantity
      ∧ (negativeAsk.addOrder (bid 101 1 3 12)).report
          = "Order added: BUY 1 AAPL @ $101.00 (Order ID: 3)\nTRADE EXECUTED: 1 AAPL @ $100.00\n"
      ∧ (negativeAsk.addOrder (bid 101 1 3 12)).book.sell_orders
          = [ask 100 9 1 10, ask 101 (-20) 2 11]
      ∧ (negativeAsk.addOrder (bid 101 1 3 12)).book.buy_orders = [] := by
  decide!

/-! ## What an admission does to resting orders -/

theorem reducedFrom_refl (x : Order) : x.ReducedFrom x :=
  ⟨rfl, rfl, rfl, rfl, rfl, le_refl _⟩

theorem forall₂_reducedFrom_refl (l : List Order) : List.Forall₂ Order.ReducedFrom l l :=
  List.forall₂_same.mpr (fun x _ => reducedFrom_refl x)

theorem exists_of_forall₂ {R : Order → Order → Prop} {l k : List Order}
    (h : List.Forall₂ R l k) : ∀ x ∈ l, ∃ y ∈ k, R x y := by
  induction h with
  | nil => intro x hx; simp at hx
  | cons hab _ ih =>
    intro x hx
    rcases List.mem_cons.mp hx with rfl | hx
    · exact ⟨_, List.mem_cons_self _ _, hab⟩
    · obtain ⟨y, hy, hr⟩ := ih x hx
      exact ⟨y, List.mem_cons_of_mem _ hy, hr⟩

/-- What stands behind a trade stands behind the top order it was made with, the quantity of
that order not having grown. -/
theorem reducedFrom_afterTrade {o : Order} {q : Int} {rest l kept : List Order}
    (ho : PositiveQty o) (hq : 0 ≤ q) (hle : q ≤ o.quantity)
    (hk : kept <:+ afterTrade o q rest) (hl : List.Forall₂ Order.ReducedFrom l kept) :
    ∃ kept', kept' <:+ o :: rest ∧ List.Forall₂ Order.ReducedFrom l kept' := by
  have hw : wrapInt32 (o.quantity - q) = o.quantity - q := by
    apply wrapInt32_of_inRange
    unfold PositiveQty at ho
    unfold InInt32
    omega
  unfold afterTrade at hk
  rw [hw] at hk
  split at hk
  · exact ⟨kept, hk.trans (List.suffix_cons o rest), hl⟩
  · rcases List.suffix_cons_iff.mp hk with rfl | hk
    · obtain ⟨x, xs, hx, hxs, rfl⟩ := List.forall₂_cons_right_iff.mp hl
      refine ⟨o :: rest, List.suffix_rfl, List.Forall₂.cons ?_ hxs⟩
      obtain ⟨e1, e2, e3, e4, e5, e6⟩ := hx
      exact ⟨e1, e2, e3, e4, e5, le_trans e6 (by simp only; omega)⟩
    · exact ⟨kept, hk.trans (List.suffix_cons o rest), hl⟩

/-- With strictly positive quantities, each side after the loop is, order by order, a tail of
the side before it with quantities that have not grown. -/
theorem matchLoop_reducedFrom (sym : String) (fuel : Nat) (bs ss : List Order) (r : String)
    (t : List Trade) (hb : ∀ x ∈ bs, PositiveQty x) (hs : ∀ x ∈ ss, PositiveQty x) :
    (∃ kept, kept <:+ bs
        ∧ List.Forall₂ Order.ReducedFrom (matchLoop sym fuel bs ss r t).buy_orders kept)
      ∧ (∃ kept, kept <:+ ss
        ∧ List.Forall₂ Order.ReducedFrom (matchLoop sym fuel bs ss r t).sell_orders kept) := by
  refine matchLoop_induction sym
    (fun bs ss _ _ st => (∀ x ∈ bs, PositiveQty x) → (∀ x ∈ ss, PositiveQty x) →
      (∃ kept, kept <:+ bs ∧ List.Forall₂ Order.ReducedFrom st.buy_orders kept)
        ∧ (∃ kept, kept <:+ ss ∧ List.Forall₂ Order.ReducedFrom st.sell_orders kept))
    ?_ ?_ fuel bs ss r t hb hs
  · intro bs ss r t _ _
    exact ⟨⟨bs, List.suffix_rfl, forall₂_reducedFrom_refl bs⟩,
      ⟨ss, List.suffix_rfl, forall₂_reducedFrom_refl ss⟩⟩
  · intro b bs s ss r t st _ ih hb hs
    have pb := hb b (List.mem_cons_self _ _)
    have ps := hs s (List.mem_cons_self _ _)
    have hq : 0 < min b.quantity s.quantity := lt_min pb.1 ps.1
    obtain ⟨ab, _⟩ := afterTrade_positive pb hq (min_le_left _ _)
      (fun x hx => hb x (List.mem_cons_of_mem _ hx))
    obtain ⟨as, _⟩ := afterTrade_positive ps hq (min_le_right _ _)
      (fun x hx => hs x (List.mem_cons_of_mem _ hx))
    obtain ⟨⟨kb, hkb, hfb⟩, ⟨ks, hks, hfs⟩⟩ := ih ab as
    exact ⟨reducedFrom_afterTrade pb (le_of_lt hq) (min_le_left _ _) hkb hfb,
      reducedFrom_afterTrade ps (le_of_lt hq) (min_le_right _ _) hks hfs⟩

/-- C25: for every admission with strictly positive quantities (the book's and the incoming
order's, each an `int`), each side of the book afterwards stands, order by order, against a tail
of that side as it was sorted after the `push_back`, every order with the id, symbol, side, price
and timestamp it had and a quantity that is at most what it was; so every order resting
afterwards is an order that rested before, or the admitted one, with all fields but the quantity
unchanged and the quantity not increased, and when the ids are pairwise distinct this holds for
the resting order of the same id. -/
theorem admission_changes_only_quantities [StdSort] (b : OrderBook) (o : Order) (hb : b.Positive)
    (ho : PositiveQty o) :
    (∃ kept, kept <:+ stdSort buyBefore (buysPushed b o)
        ∧ List.Forall₂ Order.ReducedFrom (b.addOrder o).book.buy_orders kept)
      ∧ (∃ kept, kept <:+ stdSort sellBefore (sellsPushed b o)
        ∧ List.Forall₂ Order.ReducedFrom (b.addOrder o).book.sell_orders kept)
      ∧ (∀ x ∈ (b.addOrder o).book.resting, ∃ y, (y ∈ b.resting ∨ y = o) ∧ x.ReducedFrom y)
      ∧ (((b.resting ++ [o]).map Order.order_id).Nodup →
          ∀ y ∈ b.resting, ∀ x ∈ (b.addOrder o).book.resting,
            x.order_id = y.order_id → x.ReducedFrom y) := by
  have hbuys : ∀ x ∈ stdSort buyBefore (buysPushed b o), PositiveQty x := by
    intro x hx
    rcases mem_buysPushed ((stdSort_perm _ _).mem_iff.mp hx) with h | rfl
    · exact hb.1 x h
    · exact ho
  have hsells : ∀ x ∈ stdSort sellBefore (sellsPushed b o), PositiveQty x := by
    intro x hx
    rcases mem_sellsPushed ((stdSort_perm _ _).mem_iff.mp hx) with h | rfl
    · exact hb.2 x h
    · exact ho
  obtain ⟨⟨kb, hkb, hfb⟩, ⟨ks, hks, hfs⟩⟩ := matchLoop_reducedFrom b.symbol
    ((stdSort buyBefore (buysPushed b o)).length + (stdSort sellBefore (sellsPushed b o)).length)
    _ _ "" [] hbuys hsells
  have hfrom : ∀ x ∈ (b.addOrder o).book.resting,
      ∃ y, (y ∈ b.resting ∨ y = o) ∧ x.ReducedFrom y := by
    intro x hx
    rw [addOrder_book] at hx
    rcases List.mem_append.mp hx with hx | hx
    · obtain ⟨y, hy, hr⟩ := exists_of_forall₂ hfb x hx
      rcases mem_buysPushed ((stdSort_perm _ _).mem_iff.mp (hkb.subset hy)) with h | rfl
      · exact ⟨y, Or.inl (List.mem_append_left _ h), hr⟩
      · exact ⟨y, Or.inr rfl, hr⟩
    · obtain ⟨y, hy, hr⟩ := exists_of_forall₂ hfs x hx
      rcases mem_sellsPushed ((stdSort_perm _ _).mem_iff.mp (hks.subset hy)) with h | rfl
      · exact ⟨y, Or.inl (List.mem_append_right _ h), hr⟩
      · exact ⟨y, Or.inr rfl, hr⟩
  refine ⟨?_, ?_, hfrom, ?_⟩
  · rw [addOrder_book]
    exact ⟨kb, hkb, hfb⟩
  · rw [addOrder_book]
    exact ⟨ks, hks, hfs⟩
  · intro hids y hy x hx hid
    obtain ⟨y', hy', hr⟩ := hfrom x hx
    have hmem' : y' ∈ b.resting ++ [o] := by
      rcases hy' with h | rfl
      · exact List.mem_append_left _ h
      · exact List.mem_append_right _ (List.mem_singleton_self _)
    have : y' = y := List.inj_on_of_nodup_map hids hmem' (List.mem_append_left _ hy)
      (hr.1.symm.trans hid)
    rw [← this]
    exact hr

/-- Witness for C25: a bid of 50 at 150 takes the ask of 40 at 149 whole and 10 of the ask of 40
at 150. -/
theorem admission_changes_only_quantities_witness :
    twoAsks.Positive ∧ PositiveQty (bid 150 50 4 13)
      ∧ ((∃ kept, kept <:+ stdSort buyBefore (buysPushed twoAsks (bid 150 50 4 13))
            ∧ List.Forall₂ Order.ReducedFrom
                (twoAsks.addOrder (bid 150 50 4 13)).book.buy_orders kept)
        ∧ (∃ kept, kept <:+ stdSort sellBefore (sellsPushed twoAsks (bid 150 50 4 13))
            ∧ List.Forall₂ Order.ReducedFrom
                (twoAsks.addOrder (bid 150 50 4 13)).book.sell_orders kept)
        ∧ (∀ x ∈ (twoAsks.addOrder (bid 150 50 4 13)).book.resting,
            ∃ y, (y ∈ twoAsks.resting ∨ y = bid 150 50 4 13) ∧ x.ReducedFrom y)
        ∧ (((twoAsks.resting ++ [bid 150 50 4 13]).map Order.order_id).Nodup →
            ∀ y ∈ twoAsks.resting, ∀ x ∈ (twoAsks.addOrder (bid 150 50 4 13)).book.resting,
              x.order_id = y.order_id → x.ReducedFrom y)) :=
  ⟨by decide, by decide,
    admission_changes_only_quantities twoAsks (bid 150 50 4 13) (by decide) (by decide)⟩

/-- Examples for the quantities after an admission: the bid of 50 at 150 leaves 30 of the ask at
150 and the bid at 148 as it was; with quantities that are not positive a quantity can grow (a
bid of -7 turns the ask of 0 into an ask of 7). -/
theorem residual_examples :
    (twoAsks.addOrder (bid 150 50 4 13)).book.sell_orders = [ask 150 30 1 10]
      ∧ (twoAsks.addOrder (bid 150 50 4 13)).book.buy_orders = [bid 148 10 3 12]
      ∧ (zeroAsk.addOrder (bid 100 (-7) 3 12)).book.sell_orders
          = [ask 100 7 1 10, ask 100 (-5) 2 11] := by
  decide

/-! ## How much an admission trades -/

theorem tradedQuantity_snoc (t : List Trade) (x : Trade) :
    tradedQuantity (t ++ [x]) = tradedQuantity t + x.quantity := by
  simp [tradedQuantity]

theorem totalQuantity_filter_nonneg {l : List Order} (p : Order → Bool)
    (h : ∀ x ∈ l, PositiveQty x) : 0 ≤ totalQuantity (l.filter p) :=
  totalQuantity_nonneg (fun x hx => le_of_lt (h x (List.mem_of_mem_filter hx)).1)

theorem totalQuantity_filter_stdSort [StdSort] (comp : Order → Order → Bool) (p : Order → Bool)
    (l : List Order) : totalQuantity ((stdSort comp l).filter p) = totalQuantity (l.filter p) :=
  (((stdSort_perm comp l).filter p).map Order.quantity).sum_eq

/-- A bid of positive quantity on top of the bids, against asks in priority order with positive
quantities: the loop trades the smaller of the bid's quantity and the total quantity of the asks
its price reaches. -/
theorem matchLoop_fill_buy (sym : String) (bs : List Order) :
    ∀ (ss : List Order) (fuel : Nat) (o : Order) (r : String) (t : List Trade),
      ss.length ≤ fuel → NotCrossed bs ss → ss.Pairwise SellPriority →
      (∀ s ∈ ss, PositiveQty s) → PositiveQty o →
      tradedQuantity (matchLoop sym fuel (o :: bs) ss r t).trades
        = tradedQuantity t
          + min o.quantity (totalQuantity (ss.filter (fun s => decide (s.price ≤ o.price)))) := by
  intro ss
  induction ss with
  | nil =>
    intro fuel o r t _ _ _ _ ho
    rw [matchLoop_nil_right]
    simp only [List.filter_nil, totalQuantity, List.map_nil, List.sum_nil]
    rw [min_eq_right (le_of_lt ho.1), add_zero]
  | cons s ss ih =>
    intro fuel o r t hfuel hnc hsorted hpos ho
    have hs := hpos s (List.mem_cons_self _ _)
    have hrest : ∀ x ∈ ss, PositiveQty x := fun x hx => hpos x (List.mem_cons_of_mem _ hx)
    by_cases hc : s.price ≤ o.price
    · obtain ⟨n, rfl⟩ : ∃ n, fuel = n + 1 :=
        ⟨fuel - 1, by simp only [List.length_cons] at hfuel; omega⟩
      have hF := totalQuantity_filter_nonneg (fun x => decide (x.price ≤ o.price)) hrest
      rw [matchLoop_cross sym n bs ss r t hc, List.filter_cons_of_pos (by simpa using hc),
        totalQuantity_cons]
      by_cases hle : o.quantity ≤ s.quantity
      · have hmin : min o.quantity s.quantity = o.quantity := min_eq_left hle
        have hbs : afterTrade o (min o.quantity s.quantity) bs = bs := by
          unfold afterTrade
          rw [hmin, sub_self, wrapInt32_zero, if_pos rfl]
        rw [hbs, matchLoop_notCrossed sym n bs _ _ _
          (notCrossed_afterTrade_right (min o.quantity s.quantity) hnc)]
        simp only [tradedQuantity_snoc, execution, hmin]
        rw [min_eq_left (by omega)]
      · have hlt : s.quantity < o.quantity := not_le.mp hle
        have hmin : min o.quantity s.quantity = s.quantity := min_eq_right (le_of_lt hlt)
        have hwo : wrapInt32 (o.quantity - s.quantity) = o.quantity - s.quantity :=
          wrapInt32_of_inRange (by unfold InInt32; have := hs.1; have := ho.2; omega)
        have hbs : afterTrade o (min o.quantity s.quantity) bs
            = { o with quantity := o.quantity - s.quantity } :: bs := by
          unfold afterTrade
          rw [hmin, hwo, if_neg (by omega)]
        have hss : afterTrade s (min o.quantity s.quantity) ss = ss := by
          unfold afterTrade
          rw [hmin, sub_self, wrapInt32_zero, if_pos rfl]
        rw [hbs, hss, ih n { o with quantity := o.quantity - s.quantity } _ _
          (by simp only [List.length_cons] at hfuel; omega)
          (fun x hx y hy => hnc x hx y (List.mem_cons_of_mem _ hy))
          (List.Pairwise.of_cons hsorted) hrest
          ⟨by simp only; omega, by simp only; have := hs.1; have := ho.2; omega⟩]
        simp only [tradedQuantity_snoc, execution, hmin]
        rcases le_total (o.quantity - s.quantity)
          (totalQuantity (ss.filter (fun x => decide (x.price ≤ o.price)))) with h | h
        · rw [min_eq_left h, min_eq_left (by omega)]; omega
        · rw [min_eq_right h, min_eq_right (by omega)]; omega
    · have hlt : o.price < s.price := not_le.mp hc
      rw [matchLoop_no_cross sym fuel bs ss r t hlt, List.filter_cons_of_neg (by simpa using hc)]
      have hnone : ss.filter (fun x => decide (x.price ≤ o.price)) = [] := by
        rw [List.filter_eq_nil_iff]
        intro x hx
        have := sellPriority_price_le ((List.pairwise_cons.mp hsorted).1 x hx)
        simpa using lt_of_lt_of_le hlt this
      rw [hnone]
      simp only [totalQuantity, List.map_nil, List.sum_nil]
      rw [min_eq_right (le_of_lt ho.1), add_zero]

/-- The same for an ask on top of the asks against bids in priority order. -/
theorem matchLoop_fill_sell (sym : String) (ss : List Order) :
    ∀ (bs : List Order) (fuel : Nat) (o : Order) (r : String) (t : List Trade),
      bs.length ≤ fuel → NotCrossed bs ss → bs.Pairwise BuyPriority →
      (∀ x ∈ bs, PositiveQty x) → PositiveQty o →
      tradedQuantity (matchLoop sym fuel bs (o :: ss) r t).trades
        = tradedQuantity t
          + min o.quantity (totalQuantity (bs.filter (fun x => decide (o.price ≤ x.price)))) := by
  intro bs
  induction bs with
  | nil =>
    intro fuel o r t _ _ _ _ ho
    rw [matchLoop_nil_left]
    simp only [List.filter_nil, totalQuantity, List.map_nil, List.sum_nil]
    rw [min_eq_right (le_of_lt ho.1), add_zero]
  | cons s bs ih =>
    intro fuel o r t hfuel hnc hsorted hpos ho
    have hs := hpos s (List.mem_cons_self _ _)
    have hrest : ∀ x ∈ bs, PositiveQty x := fun x hx => hpos x (List.mem_cons_of_mem _ hx)
    by_cases hc : o.price ≤ s.price
    · obtain ⟨n, rfl⟩ : ∃ n, fuel = n + 1 :=
        ⟨fuel - 1, by simp only [List.length_cons] at hfuel; omega⟩
      have hF := totalQuantity_filter_nonneg (fun x => decide (o.price ≤ x.price)) hrest
      rw [matchLoop_cross sym n bs ss r t hc, List.filter_cons_of_pos (by simpa using hc),
        totalQuantity_cons]
      by_cases hle : o.quantity ≤ s.quantity
      · have hmin : min s.quantity o.quantity = o.quantity := min_eq_right hle
        have hss : afterTrade o (min s.quantity o.quantity) ss = ss := by
          unfold afterTrade
          rw [hmin, sub_self, wrapInt32_zero, if_pos rfl]
        rw [hss, matchLoop_notCrossed sym n _ ss _ _
          (notCrossed_afterTrade_left (min s.quantity o.quantity) hnc)]
        simp only [tradedQuantity_snoc, execution, hmin]
        rw [min_eq_left (by omega)]
      · have hlt : s.quantity < o.quantity := not_le.mp hle
        have hmin : min s.quantity o.quantity = s.quantity := min_eq_left (le_of_lt hlt)
        have hwo : wrapInt32 (o.quantity - s.quantity) = o.quantity - s.quantity :=
          wrapInt32_of_inRange (by unfold InInt32; have := hs.1; have := ho.2; omega)
        have hss : afterTrade o (min s.quantity o.quantity) ss
            = { o with quantity := o.quantity - s.quantity } :: ss := by
          unfold afterTrade
          rw [hmin, hwo, if_neg (by omega)]
        have hbs : afterTrade s (min s.quantity o.quantity) bs = bs := by
          unfold afterTrade
          rw [hmin, sub_self, wrapInt32_zero, if_pos rfl]
        rw [hbs, hss, ih n { o with quantity := o.quantity - s.quantity } _ _
          (by simp only [List.length_cons] at hfuel; omega)
          (fun x hx y hy => hnc x (List.mem_cons_of_mem _ hx) y hy)
          (List.Pairwise.of_cons hsorted) hrest
          ⟨by simp only; omega, by simp only; have := hs.1; have := ho.2; omega⟩]
        simp only [tradedQuantity_snoc, execution, hmin]
        rcases le_total (o.quantity - s.quantity)
          (totalQuantity (bs.filter (fun x => decide (o.price ≤ x.price)))) with h | h
        · rw [min_eq_left h, min_eq_left (by omega)]; omega
        · rw [min_eq_right h, min_eq_right (by omega)]; omega
    · have hlt : s.price < o.price := not_le.mp hc
      rw [matchLoop_no_cross sym fuel bs ss r t hlt, List.filter_cons_of_neg (by simpa using hc)]
      have hnone : bs.filter (fun x => decide (o.price ≤ x.price)) = [] := by
        rw [List.filter_eq_nil_iff]
        intro x hx
        have := buyPriority_price_le ((List.pairwise_cons.mp hsorted).1 x hx)
        simpa using lt_of_le_of_lt this hlt
      rw [hnone]
      simp only [totalQuantity, List.map_nil, List.sum_nil]
      rw [min_eq_right (le_of_lt ho.1), add_zero]

/-- C26: for every uncrossed book with strictly positive quantities and every incoming order of
strictly positive quantity `q` (each an `int`), the total quantity traded during the admission is
`min q D`, where `D` is the total quantity of the resting orders on the other side whose price
the incoming limit reaches. -/
theorem traded_quantity_is_min [StdSort] (b : OrderBook) (o : Order)
    (hnc : NotCrossed b.buy_orders b.sell_orders) (hb : b.Positive) (ho : PositiveQty o) :
    tradedQuantity (b.addOrder o).trades = min o.quantity (crossingDepth b o) := by
  rw [addOrder_trades]
  unfold crossingDepth
  cases hside : o.side with
  | BUY =>
    dsimp only
    by_cases h : ∃ s ∈ b.sell_orders, s.price ≤ o.price
    · obtain ⟨rest, hperm, _, _, hloop⟩ := loopOf_buy_takes b o hnc hside h
      rw [hloop,
        matchLoop_fill_buy b.symbol rest
          (stdSort sellBefore b.sell_orders) _ o "" []
          (by rw [length_stdSort]; omega) (notCrossed_of_perm hnc hperm (stdSort_perm _ _))
          (stdSort_sell_sorted _) (fun x hx => hb.2 x (mem_stdSort.mp hx)) ho,
        totalQuantity_filter_stdSort]
      simp [tradedQuantity]
    · have hno : ∀ s ∈ b.sell_orders, o.price < s.price := by
        intro s hs
        by_contra hc
        exact h ⟨s, hs, not_lt.mp hc⟩
      rw [loopOf_buy_rests b o hnc hside hno]
      have hnone : b.sell_orders.filter (fun s => decide (s.price ≤ o.price)) = [] := by
        rw [List.filter_eq_nil_iff]
        intro x hx
        simpa using hno x hx
      rw [hnone]
      simp only [tradedQuantity, totalQuantity, List.map_nil, List.sum_nil]
      rw [min_eq_right (le_of_lt ho.1)]
  | SELL =>
    dsimp only
    by_cases h : ∃ x ∈ b.buy_orders, o.price ≤ x.price
    · obtain ⟨rest, hperm, _, _, hloop⟩ := loopOf_sell_takes b o hnc hside h
      rw [hloop,
        matchLoop_fill_sell b.symbol rest
          (stdSort buyBefore b.buy_orders) _ o "" []
          (by rw [length_stdSort]; omega) (notCrossed_of_perm hnc (stdSort_perm _ _) hperm)
          (stdSort_buy_sorted _) (fun x hx => hb.1 x (mem_stdSort.mp hx)) ho,
        totalQuantity_filter_stdSort]
      simp [tradedQuantity]
    · have hno : ∀ x ∈ b.buy_orders, x.price < o.price := by
        intro s hs
        by_contra hc
        exact h ⟨s, hs, not_lt.mp hc⟩
      rw [loopOf_sell_rests b o hnc hside hno]
      have hnone : b.buy_orders.filter (fun x => decide (o.price ≤ x.price)) = [] := by
        rw [List.filter_eq_nil_iff]
        intro x hx
        simpa using hno x hx
      rw [hnone]
      simp only [tradedQuantity, totalQuantity, List.map_nil, List.sum_nil]
      rw [min_eq_right (le_of_lt ho.1)]

/-- Witness for C26: a bid of 100 at 149 reaches only the ask of 40 at 149. -/
theorem traded_quantity_is_min_witness :
    NotCrossed twoAsks.buy_orders twoAsks.sell_orders ∧ twoAsks.Positive
      ∧ PositiveQty (bid 149 100 4 13)
      ∧ tradedQuantity (twoAsks.addOrder (bid 149 100 4 13)).trades
          = min (bid 149 100 4 13).quantity (crossingDepth twoAsks (bid 149 100 4 13)) :=
  ⟨by decide, by decide, by decide,
    traded_quantity_is_min twoAsks (bid 149 100 4 13) (by decide) (by decide) (by decide)⟩

/-- Examples for the traded quantity: a bid of 100 at 149 reaches a depth of 40 and trades 40; a
bid of 50 at 150 reaches a depth of 80 and trades 50. -/
theorem traded_quantity_examples :
    crossingDepth twoAsks (bid 149 100 4 13) = 40
      ∧ tradedQuantity (twoAsks.addOrder (bid 149 100 4 13)).trades = 40
      ∧ crossingDepth twoAsks (bid 150 50 4 13) = 80
      ∧ tradedQuantity (twoAsks.addOrder (bid 150 50 4 13)).trades = 50 := by
  decide

/-! ## Termination of the matching loop -/

/-- One more unit of fuel than there are orders changes nothing. -/
theorem matchLoop_fuel_succ (sym : String) :
    ∀ (fuel : Nat) (bs ss : List Order) (r : String) (t : List Trade),
      bs.length + ss.length ≤ fuel →
      matchLoop sym (fuel + 1) bs ss r t = matchLoop sym fuel bs ss r t := by
  intro fuel
  induction fuel with
  | zero =>
    intro bs ss r t h
    have : bs = [] := List.length_eq_zero.mp (by omega)
    subst this
    rw [matchLoop_nil_left, matchLoop_nil_left]
  | succ n ih =>
    intro bs ss r t h
    cases bs with
    | nil => rw [matchLoop_nil_left, matchLoop_nil_left]
    | cons b bs =>
      cases ss with
      | nil => rw [matchLoop_nil_right, matchLoop_nil_right]
      | cons s ss =>
        by_cases hc : s.price ≤ b.price
        · rw [matchLoop_cross sym (n + 1) bs ss r t hc, matchLoop_cross sym n bs ss r t hc]
          apply ih
          have := afterTrade_shrinks b s bs ss
          simp only [List.length_cons] at h
          omega
        · rw [matchLoop_no_cross sym (n + 1 + 1) bs ss r t (not_le.mp hc),
            matchLoop_no_cross sym (n + 1) bs ss r t (not_le.mp hc)]

/-- Any amount of fuel beyond the number of orders changes nothing. -/
theorem matchLoop_fuel_add (sym : String) (bs ss : List Order) (r : String) (t : List Trade) :
    ∀ extra : Nat, matchLoop sym (bs.length + ss.length + extra) bs ss r t
      = matchLoop sym (bs.length + ss.length) bs ss r t := by
  intro extra
  induction extra with
  | zero => rfl
  | succ k ih =>
    rw [← ih]
    exact matchLoop_fuel_succ sym (bs.length + ss.length + k) bs ss r t (by omega)

/-- The loop adds at most one trade less than there are orders. -/
theorem matchLoop_trades_bound (sym : String) (fuel : Nat) (bs ss : List Order) (r : String)
    (t : List Trade) :
    (matchLoop sym fuel bs ss r t).trades.length ≤ t.length + (bs.length + ss.length - 1) := by
  refine matchLoop_induction sym
    (fun bs ss _ t st => st.trades.length ≤ t.length + (bs.length + ss.length - 1))
    ?_ ?_ fuel bs ss r t
  · intro bs ss r t
    exact Nat.le_add_right _ _
  · intro b bs s ss r t st _ ih
    have := afterTrade_shrinks b s bs ss
    simp only [List.length_append, List.length_cons, List.length_nil] at ih ⊢
    omega

/-- C27: whatever the quantities, zero and negative ones included. Every iteration of the loop
that makes a trade goes on with fewer orders in the book and one more trade; the loop run with
one unit of fuel per order gives what it gives with any larger amount, and it ends with an empty
side or with a top bid below the top ask; `matchOrders` on a book of `n` orders makes at most
`n - 1` trades, and so does an admission, `n` counting the admitted order, the report holding
one line per trade after the admission line. -/
theorem matching_loop_terminates [StdSort] :
    (∀ (sym : String) (fuel : Nat) (B S : Order) (bs ss : List Order) (r : String)
        (t : List Trade), S.price ≤ B.price →
        ∃ bs' ss' r' t',
          matchLoop sym (fuel + 1) (B :: bs) (S :: ss) r t = matchLoop sym fuel bs' ss' r' t'
            ∧ bs'.length + ss'.length < (B :: bs).length + (S :: ss).length
            ∧ t'.length = t.length + 1)
      ∧ (∀ (sym : String) (bs ss : List Order) (r : String) (t : List Trade) (extra : Nat),
          matchLoop sym (bs.length + ss.length + extra) bs ss r t
            = matchLoop sym (bs.length + ss.length) bs ss r t)
      ∧ (∀ (sym : String) (bs ss : List Order) (r : String) (t : List Trade),
          (matchLoop sym (bs.length + ss.length) bs ss r t).buy_orders = []
            ∨ (matchLoop sym (bs.length + ss.length) bs ss r t).sell_orders = []
            ∨ ∃ b bs' s ss',
                (matchLoop sym (bs.length + ss.length) bs ss r t).buy_orders = b :: bs'
                  ∧ (matchLoop sym (bs.length + ss.length) bs ss r t).sell_orders = s :: ss'
                  ∧ b.price < s.price)
      ∧ (∀ b : OrderBook,
          b.matchOrders.trades.length ≤ b.buy_orders.length + b.sell_orders.length - 1)
      ∧ (∀ (b : OrderBook) (o : Order),
          (b.addOrder o).trades.length ≤ (b.buy_orders.length + b.sell_orders.length + 1) - 1
            ∧ (b.addOrder o).report = admissionLine o
                ++ String.join ((b.addOrder o).trades.map (tradeText b.symbol))) := by
  refine ⟨?_, ?_, ?_, ?_, ?_⟩
  · intro sym fuel B S bs ss r t hc
    refine ⟨_, _, _, _, matchLoop_cross sym fuel bs ss r t hc, ?_, by simp⟩
    have := afterTrade_shrinks B S bs ss
    simp only [List.length_cons]
    omega
  · intro sym bs ss r t extra
    exact matchLoop_fuel_add sym bs ss r t extra
  · intro sym bs ss r t
    exact matchLoop_exit sym _ bs ss r t (le_refl _)
  · intro b
    rw [matchOrders_trades]
    have h := matchLoop_trades_bound b.symbol
      ((stdSort buyBefore b.buy_orders).length + (stdSort sellBefore b.sell_orders).length)
      (stdSort buyBefore b.buy_orders) (stdSort sellBefore b.sell_orders) "" []
    refine le_trans h ?_
    rw [length_stdSort, length_stdSort]
    simp
  · intro b o
    refine ⟨?_, (addOrder_trades_exec b o).2⟩
    rw [addOrder_trades]
    have h := matchLoop_trades_bound b.symbol
      ((stdSort buyBefore (buysPushed b o)).length + (stdSort sellBefore (sellsPushed b o)).length)
      (stdSort buyBefore (buysPushed b o)) (stdSort sellBefore (sellsPushed b o)) "" []
    have hlen : (buysPushed b o).length + (sellsPushed b o).length
        = b.buy_orders.length + b.sell_orders.length + 1 := by
      unfold buysPushed sellsPushed
      cases o.side <;> simp <;> omega
    refine le_trans h ?_
    rw [length_stdSort, length_stdSort, hlen]
    simp

/-- Examples for the number of trades: a bid of 3 takes three asks of 1 (four orders, three
trades); with asks of 0 and -5 a bid of 7 makes two trades and rests with 12, a bid of -7 makes
one trade and is gone. -/
theorem matching_examples :
    (threeAsks.addOrder (bid 100 3 4 13)).trades.length = 3
      ∧ (threeAsks.addOrder (bid 100 3 4 13)).book.resting = []
      ∧ (zeroAsk.addOrder (bid 100 7 3 12)).report
          = "Order added: BUY 7 AAPL @ $100.00 (Order ID: 3)\nTRADE EXECUTED: 0 AAPL @ $100.00\nTRADE EXECUTED: -5 AAPL @ $100.00\n"
      ∧ (zeroAsk.addOrder (bid 100 7 3 12)).book.resting = [bid 100 12 3 12]
      ∧ (zeroAsk.addOrder (bid 100 (-7) 3 12)).report
          = "Order added: BUY -7 AAPL @ $100.00 (Order ID: 3)\nTRADE EXECUTED: -7 AAPL @ $100.00\n"
      ∧ (zeroAsk.addOrder (bid 100 (-7) 3 12)).book.resting
          = [ask 100 7 1 10, ask 100 (-5) 2 11] := by
  decide!

end MatchingEngine
